import Mathlib

/-
Shallow embedding of the blurb changelog-fragment tool.

Text is modelled as `List Char`.  Python string operations used by the
sources (rstrip, split, partition, startswith, join, lower, rjust, int)
are embedded as executable functions on `List Char`.  Machine behaviour
that the sources rely on (CPython `textwrap.wrap` with
`break_long_words=False, break_on_hyphens=False`, dict insertion order,
stable sorting) is embedded faithfully from the documented semantics of
those libraries.
-/

abbrev Str := List Char

def strL (s : String) : Str := s.data

/-- Python whitespace (the character class accepted by str.strip and the
regular-expression class for whitespace on text patterns). -/
def pyIsSpace (c : Char) : Bool :=
  c.val == 32 || (9 ≤ c.val && c.val ≤ 13) || (28 ≤ c.val && c.val ≤ 31) ||
  c.val == 0x85 || c.val == 0xa0 || c.val == 0x1680 ||
  (0x2000 ≤ c.val && c.val ≤ 0x200a) || c.val == 0x2028 || c.val == 0x2029 ||
  c.val == 0x202f || c.val == 0x205f || c.val == 0x3000

def lstripChars (s : Str) : Str := s.dropWhile pyIsSpace

def rstripChars (s : Str) : Str := (s.reverse.dropWhile pyIsSpace).reverse

def stripChars (s : Str) : Str := rstripChars (lstripChars s)

/-- Python str.split with a single-character separator. -/
def splitOnChar (sep : Char) : Str → List Str
  | [] => [[]]
  | c :: rest =>
    if c = sep then [] :: splitOnChar sep rest
    else
      match splitOnChar sep rest with
      | [] => [[c]]
      | r :: rs => (c :: r) :: rs

/-- Python str.split on the two-character separator of a blank line. -/
def splitNN : Str → List Str
  | [] => [[]]
  | '\n' :: '\n' :: rest => [] :: splitNN rest
  | c :: rest =>
    match splitNN rest with
    | [] => [[c]]
    | r :: rs => (c :: r) :: rs

/-- Python sep.join. -/
def joinSep (sep : Str) : List Str → Str
  | [] => []
  | [s] => s
  | s :: rest => s ++ sep ++ joinSep sep rest

def startsWith (p s : Str) : Bool := p.isPrefixOf s

def endsWith (p s : Str) : Bool := p.isSuffixOf s

/-- Python substring membership test (needle in hay). -/
def containsSub (needle : Str) : Str → Bool
  | [] => needle.isEmpty
  | c :: rest => needle.isPrefixOf (c :: rest) || containsSub needle rest

/-- Python str.partition: split at the first occurrence of sep; the Bool
records whether sep was found. -/
def partitionSub (sep : Str) : Str → Str × Bool × Str
  | [] => ([], sep.isEmpty, [])
  | c :: rest =>
    if sep.isPrefixOf (c :: rest) then ([], true, (c :: rest).drop sep.length)
    else
      let r := partitionSub sep rest
      (c :: r.1, r.2.1, r.2.2)

/-- Python code-point comparison of strings (strict less-than). -/
def pyStrLt : Str → Str → Bool
  | [], [] => false
  | [], _ :: _ => true
  | _ :: _, [] => false
  | a :: as, b :: bs =>
    if a.val < b.val then true
    else if a.val == b.val then pyStrLt as bs
    else false

def pyStrLe (a b : Str) : Bool := pyStrLt a b || a == b

def pyToLower (c : Char) : Char :=
  if 'A' ≤ c && c ≤ 'Z' then Char.ofNat (c.toNat + 32) else c

def lowerStr (s : Str) : Str := s.map pyToLower

/-- Python str.rjust with fill character 0. -/
def rjustZero (n : Nat) (s : Str) : Str := List.replicate (n - s.length) '0' ++ s

/-! ## Section catalog (src/blurb/_template.py) -/

/-- The canonical section names parsed out of the template
(src/blurb/_template.py lines 21-31). -/
def sections : List Str :=
  [strL "Security", strL "Core and Builtins", strL "Library",
   strL "Documentation", strL "Tests", strL "Build", strL "Windows",
   strL "macOS", strL "IDLE", strL "Tools/Demos", strL "C API"]

def sanitize_section (sect : Str) : Str :=
  if sect = strL "C API" then strL "C_API"
  else if sect = strL "Core and Builtins" then strL "Core_and_Builtins"
  else if sect = strL "Tools/Demos" then strL "Tools-Demos"
  else sect

def unsanitize_section (sect : Str) : Str :=
  if sect = strL "C_API" then strL "C API"
  else if sect = strL "Core_and_Builtins" then strL "Core and Builtins"
  else if sect = strL "Tools-Demos" then strL "Tools/Demos"
  else sect

/-! ## Version ordering (src/blurb/_versions.py) -/

/-- Embedding of version_key (src/blurb/_versions.py lines 32-57). -/
def version_key (element : Str) : Str :=
  let fields := splitOnChar '.' element
  if fields.length = 1 then element
  else
    let last := fields.getLastD []
    let body := fields.dropLast
    let lsv :=
      if containsSub (strL "a") last then
        let p := partitionSub (strL "a") last
        (p.1, strL "a", p.2.2)
      else if containsSub (strL "b") last then
        let p := partitionSub (strL "b") last
        (p.1, strL "b", p.2.2)
      else if containsSub (strL "rc") last then
        let p := partitionSub (strL "rc") last
        (p.1, strL "rc", p.2.2)
      else (last, strL "zz", strL "0")
    let fields2 := body ++ [lsv.1]
    let fields3 := fields2 ++ List.replicate (3 - fields2.length) (strL "0")
    let fields4 := fields3 ++ [lsv.2.1, lsv.2.2]
    joinSep (strL ".") (fields4.map (rjustZero 6))

/-- Stable insertion sort by a boolean comparison, used to model the
sorting of version strings by key. -/
def insertLe {α : Type} (le : α → α → Bool) (x : α) : List α → List α
  | [] => [x]
  | y :: ys => if le x y then x :: y :: ys else y :: insertLe le x ys

def sortLe {α : Type} (le : α → α → Bool) : List α → List α
  | [] => []
  | x :: xs => insertLe le x (sortLe le xs)

/-- Ascending sort of version strings by version_key, as performed by
glob_versions (descending is obtained with reverse=True). -/
def sortedByVersionKey (l : List Str) : List Str :=
  sortLe (fun a b => pyStrLe (version_key a) (version_key b)) l

/-- C6: sorting the four version strings by version_key yields the
ascending order alpha, beta, release candidate, final; reversing gives
the newest-first order used for rendering. -/
theorem C6_version_ordering :
    sortedByVersionKey
      [strL "3.5.0", strL "3.5.0rc1", strL "3.5.0a1", strL "3.5.0b1"] =
      [strL "3.5.0a1", strL "3.5.0b1", strL "3.5.0rc1", strL "3.5.0"] ∧
    (sortedByVersionKey
      [strL "3.5.0", strL "3.5.0rc1", strL "3.5.0a1", strL "3.5.0b1"]).reverse =
      [strL "3.5.0", strL "3.5.0rc1", strL "3.5.0b1", strL "3.5.0a1"] := by
  constructor <;> decide

/-! ## textwrap embedding (CPython Lib/textwrap.py as used by
src/blurb/_utils/text.py: width 76, break_long_words False,
break_on_hyphens False, all other options at their defaults) -/

/-- Python str.expandtabs(8): columns reset after newline and carriage
return, a tab pads to the next multiple of 8. -/
def expandTabsGo (col : Nat) : Str → Str
  | [] => []
  | c :: rest =>
    if c = '\t' then
      let pad := 8 - col % 8
      List.replicate pad ' ' ++ expandTabsGo (col + pad) rest
    else if c = '\n' || c = '\r' then c :: expandTabsGo 0 rest
    else c :: expandTabsGo (col + 1) rest

def expandTabs (s : Str) : Str := expandTabsGo 0 s

/-- TextWrapper._munge_whitespace: expand tabs, then replace each of the
five ASCII whitespace characters by a space. -/
def mungeChar (c : Char) : Char :=
  if c = '\t' || c = '\n' || c = '\x0b' || c = '\x0c' || c = '\r' then ' ' else c

def mungeWhitespace (s : Str) : Str := (expandTabs s).map mungeChar

/-- TextWrapper._split with break_on_hyphens=False: split the text into
maximal runs of whitespace and of non-whitespace (re.split with a
whitespace group, empties dropped).  Fueled; fuel = length suffices. -/
def splitChunksF : Nat → Str → List Str
  | 0, _ => []
  | _ + 1, [] => []
  | fuel + 1, c :: rest =>
    let same := fun d => pyIsSpace d == pyIsSpace c
    (c :: rest.takeWhile same) :: splitChunksF fuel (rest.dropWhile same)

def splitChunks (s : Str) : List Str := splitChunksF s.length s

/-- A chunk whose strip is empty (chunk.strip() == '' in _wrap_chunks). -/
def isWsChunk (c : Str) : Bool := (stripChars c).isEmpty

/-- The greedy inner loop of _wrap_chunks: take chunks while they fit. -/
def greedyTake (width : Nat) : Nat → List Str → List Str × List Str
  | _, [] => ([], [])
  | curLen, c :: rest =>
    if curLen + c.length ≤ width then
      let r := greedyTake width (curLen + c.length) rest
      (c :: r.1, r.2)
    else ([], c :: rest)

def dropTrailingWsChunk (l : List Str) : List Str :=
  match l.getLast? with
  | some c => if isWsChunk c then l.dropLast else l
  | none => l

/-- One iteration of the outer loop of _wrap_chunks: optionally drop a
leading whitespace chunk (only once at least one line exists), fill the
line greedily, keep an over-long head chunk only on an empty line
(break_long_words=False), drop a trailing whitespace chunk, and emit the
line if any content remains.  Python computes width - len(indent) as a
possibly negative int; since every chunk is nonempty, truncated Nat
subtraction yields the same fit and over-long decisions. -/
def wrapFill (w : Nat) (indent : Str) (chunks1 : List Str) :
    Option Str × List Str :=
  let tr := greedyTake w 0 chunks1
  let tr2 : List Str × List Str :=
    match tr.2 with
    | c :: rest => if c.length > w && tr.1.isEmpty then (tr.1 ++ [c], rest) else tr
    | [] => tr
  let taken := dropTrailingWsChunk tr2.1
  if taken.isEmpty then (none, tr2.2)
  else (some (indent ++ taken.flatten), tr2.2)

def wrapStep (width : Nat) (indent : Str) (linesNonempty : Bool)
    (chunks : List Str) : Option Str × List Str :=
  let chunks1 := match chunks with
    | c :: rest => if linesNonempty && isWsChunk c then rest else chunks
    | [] => []
  wrapFill (width - indent.length) indent chunks1

/-- The outer loop of _wrap_chunks.  Fueled; every iteration consumes at
least one chunk, so fuel = number of chunks suffices. -/
def wrapLoopF (width : Nat) (ii si : Str) : Nat → Bool → List Str → List Str
  | 0, _, _ => []
  | _ + 1, _, [] => []
  | fuel + 1, linesNonempty, c :: rest =>
    let indent := if linesNonempty then si else ii
    let r := wrapStep width indent linesNonempty (c :: rest)
    match r.1 with
    | some line => line :: wrapLoopF width ii si fuel true r.2
    | none => wrapLoopF width ii si fuel linesNonempty r.2

/-- textwrap.wrap with initial_indent ii and subsequent_indent si. -/
def pyWrap (width : Nat) (ii si : Str) (text : Str) : List Str :=
  let chunks := splitChunks (mungeWhitespace text)
  wrapLoopF width ii si chunks.length false chunks

/-! ## textwrap_body (src/blurb/_utils/text.py lines 13-105) -/

def isListParagraph (p : Str) : Bool :=
  startsWith (strL "* ") p || startsWith (strL "1. ") p ||
  startsWith (strL "#. ") p

/-- The verbatim branch of textwrap_body (text.py lines 44-53): identity
when both indents are empty, otherwise re-indent the rstripped lines. -/
def indentVerbatim (ii si : Str) (p : Str) : Str :=
  if ii.isEmpty && si.isEmpty then p
  else
    let lines := (splitOnChar '\n' p).map rstripChars
    let indented := lines.enum.map fun iline =>
      (if iline.1 = 0 then ii else si) ++ iline.2
    joinSep (strL "\n") indented

/-- One wrapping pass of the reflow branch:
join(wrap(paragraph.strip())).rstrip(). -/
def wrapOnce (ii si : Str) (p : Str) : Str :=
  rstripChars (joinSep (strL "\n") (pyWrap 76 ii si (stripChars p)))

/-- The paragraph loop of textwrap_body (text.py lines 39-101), with the
dont_reflow flag and the mutable initial_indent threaded as state. -/
def tbGo (si : Str) : Bool → Str → List Str → List Str
  | _, _, [] => []
  | dontReflow, ii, p :: rest =>
    let d := dontReflow || isListParagraph p
    let q := if d then indentVerbatim ii si p else wrapOnce ii si (wrapOnce ii si p)
    let newII := if si.isEmpty then ii else si
    q :: tbGo si (endsWith (strL "::") q) newII rest

/-- textwrap_body on a string body (text.py lines 13-105). -/
def textwrap_body (subsequentIndent : Str) (body : Str) : Str :=
  let text := joinSep (strL "\n") ((splitOnChar '\n' body).map rstripChars)
  let paragraphs := splitNN text
  let paragraphs2 := tbGo subsequentIndent false [] paragraphs
  let text2 := rstripChars (joinSep (strL "\n\n") paragraphs2)
  if endsWith (strL "\n") text2 then text2 else text2 ++ strL "\n"

/-- textwrap_body on an iterable of lines: the lines are joined with
newlines and right-stripped before the common processing. -/
def textwrap_body_lines (subsequentIndent : Str) (lines : List Str) : Str :=
  textwrap_body subsequentIndent (rstripChars (joinSep (strL "\n") lines))

/-! ## Python int() and metadata dictionaries -/

def digitVal (c : Char) : Option Nat :=
  if '0' ≤ c && c ≤ '9' then some (c.toNat - 48) else none

/-- After the first digit: digits with single underscores strictly
between digits (Python numeric-literal grouping rule for int()). -/
def pyDigitsGo (acc : Nat) : Str → Option Nat
  | [] => some acc
  | c :: rest =>
    match digitVal c with
    | some d => pyDigitsGo (acc * 10 + d) rest
    | none =>
      if c = '_' then
        match rest with
        | r :: rs =>
          match digitVal r with
          | some d => pyDigitsGo (acc * 10 + d) rs
          | none => none
        | [] => none
      else none

def pyDigits : Str → Option Nat
  | [] => none
  | c :: rest =>
    match digitVal c with
    | some d => pyDigitsGo d rest
    | none => none

/-- Python int(str): surrounding whitespace stripped, optional sign,
ASCII decimal digits with underscore grouping.  (Non-ASCII decimal
digits, accepted by CPython, are not modelled; no value in this
development uses them.) -/
def pyIntParse (s : Str) : Option Int :=
  match stripChars s with
  | '+' :: rest => (pyDigits rest).map Int.ofNat
  | '-' :: rest => (pyDigits rest).map (fun n => -(n : Int))
  | rest => (pyDigits rest).map Int.ofNat

/-- Insertion-ordered string dictionary (Python 3.7+ dict semantics):
updating an existing key keeps its position, new keys append. -/
abbrev Metadata := List (Str × Str)

def dictGet (md : Metadata) (k : Str) : Option Str :=
  match md with
  | [] => none
  | (k2, v) :: rest => if k2 = k then some v else dictGet rest k

def dictContains (md : Metadata) (k : Str) : Bool := (dictGet md k).isSome

def dictSet (md : Metadata) (k v : Str) : Metadata :=
  match md with
  | [] => [(k, v)]
  | (k2, v2) :: rest =>
    if k2 = k then (k2, v) :: rest else (k2, v2) :: dictSet rest k v

def dictDel (md : Metadata) (k : Str) : Metadata :=
  match md with
  | [] => []
  | (k2, v2) :: rest => if k2 = k then rest else (k2, v2) :: dictDel rest k

/-- sorted(metadata.items()): keys are unique, so sorting the pairs
lexicographically is sorting by key. -/
def sortMetadata (md : Metadata) : Metadata :=
  sortLe (fun a b => pyStrLt a.1 b.1 || (a.1 == b.1 && pyStrLe a.2 b.2)) md

/-! ## Failure model -/

/-- Outcomes of the fallible operations: BlurbError raised through
throw(), a failed Python assert statement, an unbound local at a return
site (NameError), and an uncaught ValueError. -/
inductive PyFailure where
  | blurbError (msg : Str)
  | assertionError (tag : Str)
  | nameError (tag : Str)
  | valueError (tag : Str)
  deriving Repr, DecidableEq

def digitCharOf (n : Nat) : Char := Char.ofNat (48 + n % 10)

def natToStrF : Nat → Nat → Str
  | 0, n => [digitCharOf n]
  | fuel + 1, n =>
    if n < 10 then [digitCharOf n]
    else natToStrF fuel (n / 10) ++ [digitCharOf (n % 10)]

def natToStr (n : Nat) : Str := natToStrF n n

def squote : Char := Char.ofNat 39

/-- Python repr of a string value, as interpolated by the error messages
({value!r}); faithful for values without quotes, backslashes or
unprintable characters, which covers every message proved concretely
here. -/
def pyRepr (s : Str) : Str := squote :: (s ++ [squote])

/-- The message wrapper of the local throw() in Blurbs.parse
(src/blurb/_blurb_file.py lines 112-113). -/
def throwMsg (filename : Str) (lineNumber : Nat) (s : Str) : PyFailure :=
  .blurbError (strL "Error in " ++ filename ++ strL ":" ++ natToStr lineNumber ++
    strL ":\n" ++ s)

/-! ## Blurbs.parse (src/blurb/_blurb_file.py lines 98-191) -/

def lowest_possible_gh_issue_number : Int := 32426

def naughtyPrefixes : List Str :=
  [strL "- ", strL "Issue #", strL "bpo-", strL "gh-", strL "gh-issue-"]

/-- re.match(p, text, re.I) for the literal forbidden prefixes. -/
def firstNaughty (text : Str) : Option Str :=
  naughtyPrefixes.find? fun p => startsWith (lowerStr p) (lowerStr text)

/-- Truthiness of metadata.get("no changes"): present with a non-empty
value. -/
def noChangesFlag (md : Metadata) : Bool :=
  match dictGet md (strL "no changes") with
  | some v => !v.isEmpty
  | none => false

/-- The per-key validation loop of finish_entry, in insertion order
(lines 134-156). -/
def metadataChecks (filename : Str) (ln : Nat) (noChanges : Bool) :
    Metadata → Except PyFailure Unit
  | [] => .ok ()
  | (k, v) :: rest =>
    if k = strL "gh-issue" then
      match pyIntParse v with
      | none =>
        .error (throwMsg filename ln (strL "Invalid GitHub number: " ++ pyRepr v))
      | some n =>
        if n < lowest_possible_gh_issue_number then
          .error (throwMsg filename ln (strL "Invalid gh-issue number: " ++
            pyRepr v ++ strL " (must be >= 32426)"))
        else metadataChecks filename ln noChanges rest
    else if k = strL "bpo" then
      match pyIntParse v with
      | none =>
        .error (throwMsg filename ln (strL "Invalid bpo number: " ++ pyRepr v))
      | some _ => metadataChecks filename ln noChanges rest
    else if k = strL "section" then
      if noChanges then metadataChecks filename ln noChanges rest
      else if sections.contains v then metadataChecks filename ln noChanges rest
      else
        .error (throwMsg filename ln (strL "Invalid section " ++ pyRepr v ++
          strL "!  You must use one of the predefined sections."))
    else metadataChecks filename ln noChanges rest

/-- finish_entry (lines 115-167): body checks, per-key checks, the
at-least-one-issue-key check and the section-presence check. -/
def finishEntry (filename : Str) (ln : Nat) (md : Metadata) (body : List Str) :
    Except PyFailure (Metadata × Str) :=
  if body.isEmpty then
    .error (throwMsg filename ln (strL "Blurb " ++ pyRepr (strL "body") ++
      strL " text must not be empty!"))
  else
    let text := textwrap_body_lines [] body
    match firstNaughty text with
    | some p =>
      .error (throwMsg filename ln (strL "Blurb " ++ pyRepr (strL "body") ++
        strL " can" ++ [squote] ++ strL "t start with " ++ pyRepr p ++ strL "!"))
    | none =>
      match metadataChecks filename ln (noChangesFlag md) md with
      | .error e => .error e
      | .ok _ =>
        if !dictContains md (strL "gh-issue") && !dictContains md (strL "bpo") then
          .error (throwMsg filename ln (pyRepr (strL "gh-issue:") ++ strL " or " ++
            pyRepr (strL "bpo:") ++ strL " must be specified in the metadata!"))
        else if !dictContains md (strL "section") then
          .error (throwMsg filename ln (strL "No " ++ pyRepr (strL "section") ++
            strL " specified.  You must provide one!"))
        else .ok (md, text)

structure PState where
  metadata : Metadata
  body : List Str
  inMetadata : Bool
  acc : List (Metadata × Str)

/-- The line loop of Blurbs.parse (lines 169-191); ln is the index of
the current line, end of input finalizes with the index of the last
line. -/
def parseLoop (filename : Str) : Nat → PState → List Str → Except PyFailure (List (Metadata × Str))
  | ln, st, [] =>
    match finishEntry filename (ln - 1) st.metadata st.body with
    | .error e => .error e
    | .ok entry => .ok (st.acc ++ [entry])
  | ln, st, rawLine :: rest =>
    let line := rstripChars rawLine
    if st.inMetadata && startsWith (strL "..") line then
      let s := stripChars (line.drop 2)
      let p := partitionSub (strL ":") s
      if !p.2.1 then .error (.assertionError (strL "colon"))
      else
        let name := stripChars (lowerStr p.1)
        let value := stripChars p.2.2
        if dictContains st.metadata name then
          .error (throwMsg filename ln (strL "Blurb metadata sets " ++
            pyRepr name ++ strL " twice!"))
        else
          parseLoop filename (ln + 1)
            { st with metadata := dictSet st.metadata name value } rest
    else if st.inMetadata && (startsWith (strL "#") line || line.isEmpty) then
      parseLoop filename (ln + 1) st rest
    else if line = strL ".." then
      match finishEntry filename ln st.metadata st.body with
      | .error e => .error e
      | .ok entry =>
        parseLoop filename (ln + 1)
          { metadata := [], body := [], inMetadata := true,
            acc := st.acc ++ [entry] } rest
    else
      parseLoop filename (ln + 1)
        { st with inMetadata := false, body := st.body ++ [line] } rest

/-- Blurbs.parse: split on newlines and run the line loop; the result is
the list of (metadata, body) entries. -/
def parseBlurbs (filename : Str) (metadata0 : Metadata) (text : Str) :
    Except PyFailure (List (Metadata × Str)) :=
  parseLoop filename 0 ⟨metadata0, [], true, []⟩ (splitOnChar '\n' text)

/-- Blurbs.__str__ (lines 202-216): records separated by a lone
terminator line surrounded by blank lines; metadata lines sorted by key,
then a blank line, then the reflowed body. -/
def blurbsToStr (blurbs : List (Metadata × Str)) : Str :=
  joinSep (strL "\n..\n\n") (blurbs.map fun entry =>
    (if entry.1.isEmpty then [] else
      ((sortMetadata entry.1).map fun kv =>
        strL ".. " ++ kv.1 ++ strL ": " ++ kv.2 ++ strL "\n").flatten ++ strL "\n")
    ++ textwrap_body [] entry.2)

/-! ## The "next"-filename codec (src/blurb/_blurb_file.py lines 226-293) -/

/-- One middle field of a "next" filename: try the gh-issue marker, then
the bpo marker, else the unparsable-field assert
(src/blurb/_blurb_file.py lines 240-247). -/
def parseNextField (acc : Except PyFailure Metadata) (f : Str) :
    Except PyFailure Metadata :=
  match acc with
  | .error e => .error e
  | .ok md =>
    let p := partitionSub (strL "gh-issue-") f
    if p.2.1 then .ok (dictSet md (strL "gh-issue") (stripChars p.2.2))
    else
      let q := partitionSub (strL "bpo-") f
      if q.2.1 then .ok (dictSet md (strL "bpo") (stripChars q.2.2))
      else .error (.assertionError (strL "Found unparsable field"))

/-- Blurbs._parse_next_filename: decode section, date, nonce and the
issue fields from a pending-fragment path (POSIX separator). -/
def parse_next_filename (path : Str) : Except PyFailure Metadata :=
  let components := splitOnChar '/' path
  match components.reverse with
  | filename :: sectDir :: _ =>
    let sect := unsanitize_section sectDir
    if !sections.contains sect then .error (.assertionError (strL "Unknown section"))
    else
      let fields := (splitOnChar '.' filename).map stripChars
      if fields.length < 4 then
        .error (.assertionError (strL "cannot parse next filename"))
      else if fields.getLastD [] ≠ strL "rst" then
        .error (.assertionError (strL "rst"))
      else
        let md0 : Metadata :=
          [(strL "date", fields.headD []),
           (strL "nonce", (fields.dropLast).getLastD []),
           (strL "section", sect)]
        let middles := ((fields.drop 1).dropLast).dropLast
        middles.foldl parseNextField (.ok md0)
  | _ => .error (.valueError (strL "unpack"))

/-- Blurbs.ensure_metadata (lines 258-268).  The clock value
(sortable_datetime) and the body hash (generate_nonce) are environment
inputs passed as now and nonceOfBody. -/
def ensure_metadata (now nonceOfBody : Str) (md : Metadata) :
    Except PyFailure Metadata :=
  if !dictContains md (strL "section") then .error (.assertionError (strL "section"))
  else
    let md := if dictContains md (strL "gh-issue") then md
              else dictSet md (strL "gh-issue") (strL "0")
    let md := if dictContains md (strL "bpo") then md
              else dictSet md (strL "bpo") (strL "0")
    let md := if dictContains md (strL "date") then md
              else dictSet md (strL "date") now
    let md := if dictContains md (strL "nonce") then md
              else dictSet md (strL "nonce") nonceOfBody
    .ok md

/-- Blurbs._extract_next_filename (lines 270-283): fill defaults,
sanitize the section in place, choose the path by the issue numbers, and
strip the encoded keys.  When both numbers are zero no branch assigns
path and the return statement raises NameError (UnboundLocalError). -/
def extract_next_filename (root now nonceOfBody : Str) (md : Metadata) :
    Except PyFailure (Str × Metadata) :=
  match ensure_metadata now nonceOfBody md with
  | .error e => .error e
  | .ok md =>
    let md := dictSet md (strL "section")
      (sanitize_section ((dictGet md (strL "section")).getD []))
    let md := dictSet md (strL "root") root
    let ghs := (dictGet md (strL "gh-issue")).getD []
    match pyIntParse ghs with
    | none => .error (.valueError (strL "int gh-issue"))
    | some gh =>
      let finish := fun (path : Str) =>
        let mdf := [strL "root", strL "section", strL "date", strL "gh-issue",
                    strL "bpo", strL "nonce"].foldl dictDel md
        (Except.ok (path, mdf) : Except PyFailure (Str × Metadata))
      if gh > 0 then
        finish (root ++ strL "/Misc/NEWS.d/next/" ++
          (dictGet md (strL "section")).getD [] ++ strL "/" ++
          (dictGet md (strL "date")).getD [] ++ strL ".gh-issue-" ++ ghs ++
          strL "." ++ (dictGet md (strL "nonce")).getD [] ++ strL ".rst")
      else
        let bps := (dictGet md (strL "bpo")).getD []
        match pyIntParse bps with
        | none => .error (.valueError (strL "int bpo"))
        | some bp =>
          if bp > 0 then
            finish (root ++ strL "/Misc/NEWS.d/next/" ++
              (dictGet md (strL "section")).getD [] ++ strL "/" ++
              (dictGet md (strL "date")).getD [] ++ strL ".bpo-" ++ bps ++
              strL "." ++ (dictGet md (strL "nonce")).getD [] ++ strL ".rst")
          else .error (.nameError (strL "path"))

/-! ## Release-cut synthesis (src/blurb/_release.py lines 34-65) -/

/-- The single no-changes record synthesized by release for an empty
pending store (lines 36-38) with the release date stamped (line 50).
The date and the body hash are environment inputs. -/
def releaseNoChangesBlurbs (version date nonceOfBody : Str) : List (Metadata × Str) :=
  let body := strL "There were no new changes in version " ++ version ++ strL ".\n"
  let md : Metadata :=
    [(strL "no changes", strL "True"), (strL "gh-issue", strL "0"),
     (strL "section", strL "Library"), (strL "date", date),
     (strL "nonce", nonceOfBody)]
  [(dictSet md (strL "release date") date, body)]

/-! ## Merge output write (src/blurb/_merge.py lines 113-124) -/

/-- The state of the output file: missing, undecodable bytes, or text. -/
inductive NewsFile where
  | missing
  | undecodable
  | text (contents : Str)
  deriving Repr, DecidableEq

/-- Path(output).read_text inside try/except (FileNotFoundError,
UnicodeError): previous_contents, None on either failure. -/
def readPreviousContents : NewsFile → Option Str
  | .missing => none
  | .undecodable => none
  | .text s => some s

/-- The write-skip logic of write_news: write only when the rendered
contents differ from the current file; returns the new file state and
whether a write happened. -/
def writeNewsFile (newContents : Str) (f : NewsFile) : NewsFile × Bool :=
  if readPreviousContents f = some newContents then (f, false)
  else (.text newContents, true)

/-! ## Section matching (src/blurb/_add.py lines 27-42 and 221-298) -/

def sectionAliases : List (Str × Str) :=
  [(strL "api", strL "C API"), (strL "capi", strL "C API"),
   (strL "c-api", strL "C API"), (strL "builtin", strL "Core and Builtins"),
   (strL "builtins", strL "Core and Builtins"),
   (strL "core", strL "Core and Builtins"), (strL "demo", strL "Tools/Demos"),
   (strL "demos", strL "Tools/Demos"), (strL "tool", strL "Tools/Demos"),
   (strL "tools", strL "Tools/Demos"), (strL "doc", strL "Documentation"),
   (strL "docs", strL "Documentation"), (strL "test", strL "Tests"),
   (strL "lib", strL "Library")]

/-- The separator class of the smart matcher: characters collapsed to
spaces in the user input ([_- /]). -/
def isUserSep (c : Char) : Bool := c = '_' || c = '-' || c = ' ' || c = '/'

/-- re.sub("[_- /]", " ", section): collapse user separators to spaces. -/
def collapseSeps (s : Str) : Str := s.map fun c => if isUserSep c then ' ' else c

/-- re.split(r"\s+") on a stripped string: the whitespace-separated
words. -/
def splitWordsF : Nat → Str → List Str
  | 0, _ => []
  | _ + 1, [] => []
  | fuel + 1, c :: rest =>
    if pyIsSpace c then splitWordsF fuel ((c :: rest).dropWhile pyIsSpace)
    else (c :: rest.takeWhile (fun d => !pyIsSpace d)) ::
      splitWordsF fuel (rest.dropWhile (fun d => !pyIsSpace d))

def splitWords (s : Str) : List Str := splitWordsF s.length s

/-- A separator character of the smart pattern: the regex class [\s/]. -/
def isPatternSep (c : Char) : Bool := pyIsSpace c || c = '/'

/-- Case-insensitive comparison of characters as performed by re.I on
these ASCII patterns. -/
def ciEq (a b : Char) : Bool := pyToLower a = pyToLower b

def ciIsPrefixOf : Str → Str → Bool
  | [], _ => true
  | _ :: _, [] => false
  | a :: as, b :: bs => ciEq a b && ciIsPrefixOf as bs

/-- The tail of the smart pattern after the first word: at each gap the
regex [\s/]* either goes on to match the next word here or consumes one
more separator character (full backtracking).  Fueled; each step
shortens the word list or the string, so words + string length
suffices. -/
def matchGapF : Nat → List Str → Str → Bool
  | _, [], _ => true
  | 0, _ :: _, _ => false
  | fuel + 1, w :: ws, s =>
    (ciIsPrefixOf w s && matchGapF fuel ws (s.drop w.length)) ||
    (match s with
     | c :: r => isPatternSep c && matchGapF fuel (w :: ws) r
     | [] => false)

/-- Match of the full smart pattern (the re-escaped words joined by
[\s/]*) starting exactly at this position; the remainder after the
pattern is unconstrained. -/
def matchWordsAt (ws : List Str) (s : Str) : Bool :=
  match ws with
  | [] => true
  | w :: ws2 =>
    ciIsPrefixOf w s && matchGapF (s.length + ws2.length) ws2 (s.drop w.length)

/-- re.search of the smart pattern: try every start position. -/
def searchWords (ws : List Str) : Str → Bool
  | [] => matchWordsAt ws []
  | c :: rest => matchWordsAt ws (c :: rest) || searchWords ws rest

def isAsciiAlnum (c : Char) : Bool :=
  ('A' ≤ c && c ≤ 'Z') || ('a' ≤ c && c ≤ 'z') || ('0' ≤ c && c ≤ '9')

/-- re.sub(r"[^a-zA-Z0-9]", "", name).lower(). -/
def normalizeName (s : Str) : Str := lowerStr (s.filter isAsciiAlnum)

/-- The words of the smart pass for a given (already stripped) input. -/
def smartWords (sect : Str) : List Str := splitWords (stripChars (collapseSeps sect))

/-- _find_smart_matches (src/blurb/_add.py lines 271-298): the regex
pass over every canonical name, then, only if it found nothing, the
normalized-prefix fallback. -/
def find_smart_matches (sect : Str) : List Str :=
  let sanitized := stripChars (collapseSeps sect)
  if sanitized.isEmpty then []
  else
    let ws := splitWords sanitized
    let patHits := sections.filter fun name => searchWords ws name
    if patHits.isEmpty then
      let normalized := lowerStr ws.flatten
      sections.filter fun name => startsWith normalized (normalizeName name)
    else patHits

def aliasLookup (s : Str) : Option Str :=
  (sectionAliases.find? fun kv => kv.1 = lowerStr s).map fun kv => kv.2

def substringMatches (s : Str) : List Str :=
  if (lowerStr s).length > 1 then
    sections.filter fun n => containsSub (lowerStr s) (lowerStr n)
  else []

/-- The conditions under which _extract_section_name falls through to
_find_smart_matches: input nonempty after strip, no alias, no exact
match, no case-insensitive exact match, no substring match. -/
def reachesSmartPass (sect : Str) : Bool :=
  let s := stripChars sect
  !s.isEmpty && (aliasLookup s).isNone && !sections.contains s &&
  (sections.find? fun n => lowerStr s = lowerStr n).isNone &&
  (substringMatches s).isEmpty

inductive SectionResolution where
  | empty
  | resolved (name : Str)
  | invalid
  | ambiguous (ms : List Str)
  deriving Repr, DecidableEq

/-- _extract_section_name (src/blurb/_add.py lines 221-268) for a
provided section string. -/
def extract_section_name (sect : Str) : SectionResolution :=
  let s := stripChars sect
  if s.isEmpty then .empty
  else
    match aliasLookup s with
    | some name => .resolved name
    | none =>
      if sections.contains s then .resolved s
      else
        match sections.find? fun n => lowerStr s = lowerStr n with
        | some n => .resolved n
        | none =>
          let subs := substringMatches s
          let ms := if subs.isEmpty then find_smart_matches s else subs
          if ms.isEmpty then .invalid
          else if 1 < ms.length then .ambiguous (sortLe pyStrLe ms)
          else .resolved (ms.headD [])

/-! ## Claim C1 -/

/-- C1 (code_bug evidence): a release cut against an empty pending store
synthesizes the single no-changes record with gh-issue 0, but reloading
the document it writes fails: the parser applies the gh-issue floor
check to the value 0 with no no-changes exemption, so the round-trip
self-check of release (the assert at src/blurb/_release.py line 65) can
never be reached with an equal value — load raises BlurbError first.
Shown for version 3.9.0, release date 2025-01-07, and nonce abcdef. -/
theorem C1_release_roundtrip_reload_fails :
    parseBlurbs (strL "Misc/NEWS.d/3.9.0.rst") []
      (blurbsToStr (releaseNoChangesBlurbs (strL "3.9.0") (strL "2025-01-07")
        (strL "abcdef"))) =
    .error (throwMsg (strL "Misc/NEWS.d/3.9.0.rst") 8
      (strL "Invalid gh-issue number: " ++ pyRepr (strL "0") ++
       strL " (must be >= 32426)")) := by rfl

/-! ## Claim C9 -/

/-- C9: for a record carrying only a section, ensure_metadata fills
gh-issue and bpo with 0, and _extract_next_filename takes neither path
branch; the operation fails with NameError (unbound local path), not
with a path or a BlurbError. -/
theorem C9_extract_no_issue_nameerror (root now nonceOfBody sect : Str) :
    extract_next_filename root now nonceOfBody [(strL "section", sect)] =
      .error (.nameError (strL "path")) := by
  rfl

/-! ## Claim C10 -/

/-- C10: while the parser is in metadata mode, any line whose rstrip
starts with the metadata marker but contains no colon — including the
bare terminator line of an empty-body entry — fails the colon assert
before the terminator check can run, so parse raises AssertionError
rather than a BlurbError from the format taxonomy. -/
theorem C10_metadata_no_colon_assert (filename : Str) (ln : Nat) (st : PState)
    (rawLine : Str) (rest : List Str)
    (hmeta : st.inMetadata = true)
    (hdots : startsWith (strL "..") (rstripChars rawLine) = true)
    (hnocolon : (partitionSub (strL ":")
      (stripChars ((rstripChars rawLine).drop 2))).2.1 = false) :
    parseLoop filename ln st (rawLine :: rest) =
      .error (.assertionError (strL "colon")) := by
  unfold parseLoop
  rw [hmeta]
  simp only [hdots, Bool.true_and, if_true]
  rw [hnocolon]
  rfl

/-- Witness for C10: the bare terminator directly after metadata lines
(an entry with an empty body). -/
theorem C10_metadata_no_colon_assert_witness :
    parseLoop (strL "input") 2
      ⟨[(strL "gh-issue", strL "40000"), (strL "section", strL "Library")],
       [], true, []⟩ [strL ".."] =
      .error (.assertionError (strL "colon")) :=
  C10_metadata_no_colon_assert (strL "input") 2
    ⟨[(strL "gh-issue", strL "40000"), (strL "section", strL "Library")],
     [], true, []⟩ (strL "..") [] (by decide) (by decide) (by decide)

/-! ## Claim C8 -/

/-- C8: write_news skips the write exactly when the rendered document
equals the current contents of the output file; the file is written
(with the new contents) only when the contents differ, the file is
missing, or its bytes do not decode. -/
theorem C8_write_skip_iff (newContents : Str) (f : NewsFile) :
    (f = .text newContents → writeNewsFile newContents f = (f, false)) ∧
    (f ≠ .text newContents → writeNewsFile newContents f =
      (.text newContents, true)) := by
  constructor
  · intro h
    subst h
    simp [writeNewsFile, readPreviousContents]
  · intro h
    cases f with
    | missing => simp [writeNewsFile, readPreviousContents]
    | undecodable => simp [writeNewsFile, readPreviousContents]
    | text s =>
      have hs : s ≠ newContents := fun hc => h (by rw [hc])
      simp [writeNewsFile, readPreviousContents, hs]

/-- Witness for C8 at concrete contents. -/
theorem C8_write_skip_iff_witness :
    writeNewsFile (strL "news") (.text (strL "news")) =
      (.text (strL "news"), false) :=
  (C8_write_skip_iff (strL "news") (.text (strL "news"))).1 rfl

/-! ## Claim C5 -/

def hasIssueKey (md : Metadata) : Prop :=
  dictContains md (strL "gh-issue") = true ∨ dictContains md (strL "bpo") = true

theorem finishEntry_ok_hasIssueKey {filename : Str} {ln : Nat} {md : Metadata}
    {body : List Str} {e : Metadata × Str}
    (h : finishEntry filename ln md body = .ok e) : hasIssueKey e.1 := by
  unfold finishEntry at h
  dsimp only at h
  split at h
  · exact absurd h (by simp)
  · split at h
    · exact absurd h (by simp)
    · split at h
      · exact absurd h (by simp)
      · split at h
        · exact absurd h (by simp)
        · split at h
          · exact absurd h (by simp)
          · rw [Except.ok.injEq] at h
            subst h
            by_cases hgh : dictContains md (strL "gh-issue") = true
            · exact Or.inl hgh
            · right
              by_cases hbpo : dictContains md (strL "bpo") = true
              · exact hbpo
              · exfalso
                simp_all

theorem parseLoop_ok_hasIssueKey {filename : Str} :
    ∀ (lines : List Str) (ln : Nat) (st : PState) (res : List (Metadata × Str)),
      (∀ e ∈ st.acc, hasIssueKey e.1) →
      parseLoop filename ln st lines = .ok res →
      ∀ e ∈ res, hasIssueKey e.1 := by
  intro lines
  induction lines with
  | nil =>
    intro ln st res hacc h
    unfold parseLoop at h
    split at h
    · exact absurd h (by simp)
    · rename_i entry heq
      rw [Except.ok.injEq] at h
      subst h
      intro e he
      rcases List.mem_append.mp he with h1 | h1
      · exact hacc e h1
      · rw [List.mem_singleton] at h1
        subst h1
        exact finishEntry_ok_hasIssueKey heq
  | cons line rest ih =>
    intro ln st res hacc h
    unfold parseLoop at h
    dsimp only at h
    split at h
    · split at h
      · exact absurd h (by simp)
      · split at h
        · exact absurd h (by simp)
        · refine ih _ _ _ ?_ h
          simpa using hacc
    · split at h
      · exact ih _ _ _ hacc h
      · split at h
        · split at h
          · exact absurd h (by simp)
          · rename_i entry heq
            refine ih _ _ _ ?_ h
            intro e he
            rcases List.mem_append.mp he with h1 | h1
            · exact hacc e h1
            · rw [List.mem_singleton] at h1
              subst h1
              exact finishEntry_ok_hasIssueKey heq
        · refine ih _ _ _ ?_ h
          simpa using hacc

/-- C5 amended: every record produced by a successful parse carries at
least one of the gh-issue and bpo keys; the parser errors when neither
is present, but it accepts records carrying both. -/
theorem C5_issue_key_at_least_one (filename : Str) (metadata0 : Metadata)
    (text : Str) (res : List (Metadata × Str))
    (h : parseBlurbs filename metadata0 text = .ok res) :
    ∀ e ∈ res, hasIssueKey e.1 :=
  parseLoop_ok_hasIssueKey _ 0 _ res (by simp [PState.mk]) h

/-- Counterexample to C5 as stated: a record carrying both gh-issue and
bpo (each passing its individual integer check) is accepted by
finalization with no error, so exactly-one is not enforced — only the
neither-present case errors. -/
theorem C5_both_keys_accepted :
    parseBlurbs (strL "input") []
      (strL ".. bpo: 1\n.. gh-issue: 32426\n.. section: Library\nHello world.") =
    .ok [([(strL "bpo", strL "1"), (strL "gh-issue", strL "32426"),
          (strL "section", strL "Library")], strL "Hello world.\n")] := by rfl

/-- Witness for C5 amended at a concrete successful parse. -/
theorem C5_issue_key_at_least_one_witness :
    hasIssueKey [(strL "bpo", strL "1"), (strL "gh-issue", strL "32426"),
                 (strL "section", strL "Library")] :=
  C5_issue_key_at_least_one (strL "input") []
    (strL ".. bpo: 1\n.. gh-issue: 32426\n.. section: Library\nHello world.")
    [([(strL "bpo", strL "1"), (strL "gh-issue", strL "32426"),
       (strL "section", strL "Library")], strL "Hello world.\n")]
    (by rfl)
    ([(strL "bpo", strL "1"), (strL "gh-issue", strL "32426"),
      (strL "section", strL "Library")], strL "Hello world.\n")
    (by simp)

/-! ## Claim C2: splitting and partition lemmas -/

theorem splitOnChar_ne_nil (sep : Char) (s : Str) : splitOnChar sep s ≠ [] := by
  induction s with
  | nil => simp [splitOnChar]
  | cons c rest ih =>
    unfold splitOnChar
    split
    · simp
    · split
      · simp
      · simp

theorem splitOnChar_no_sep (sep : Char) (s : Str) (h : ∀ c ∈ s, c ≠ sep) :
    splitOnChar sep s = [s] := by
  induction s with
  | nil => rfl
  | cons c rest ih =>
    unfold splitOnChar
    rw [if_neg (h c (by simp))]
    rw [ih fun d hd => h d (by simp [hd])]

theorem splitOnChar_append_sep (sep : Char) (p x : Str) (h : ∀ c ∈ x, c ≠ sep) :
    splitOnChar sep (p ++ sep :: x) = splitOnChar sep p ++ [x] := by
  induction p with
  | nil =>
    simp only [List.nil_append]
    unfold splitOnChar
    rw [if_pos rfl, splitOnChar_no_sep sep x h]
    rfl
  | cons c p ih =>
    simp only [List.cons_append]
    unfold splitOnChar
    by_cases hc : c = sep
    · rw [if_pos hc, if_pos hc, ih]
      rfl
    · rw [if_neg hc, if_neg hc, ih]
      rcases hsp : splitOnChar sep p with _ | ⟨r, rs⟩
      · exact absurd hsp (splitOnChar_ne_nil sep p)
      · rfl

theorem lstripChars_of_no_space (s : Str) (h : ∀ c ∈ s, pyIsSpace c = false) :
    lstripChars s = s := by
  cases s with
  | nil => rfl
  | cons c rest =>
    unfold lstripChars
    rw [List.dropWhile_cons, h c (by simp)]
    simp

theorem rstripChars_of_no_space (s : Str) (h : ∀ c ∈ s, pyIsSpace c = false) :
    rstripChars s = s := by
  unfold rstripChars
  have hrev : ∀ c ∈ s.reverse, pyIsSpace c = false := by
    intro c hc
    exact h c (List.mem_reverse.mp hc)
  cases hs : s.reverse with
  | nil =>
    have : s = [] := by simpa using congrArg List.reverse hs
    simp [this]
  | cons c rest =>
    rw [List.dropWhile_cons, hrev c (by rw [hs]; simp)]
    simp only [Bool.false_eq_true, if_false]
    rw [← hs, List.reverse_reverse]

theorem stripChars_of_no_space (s : Str) (h : ∀ c ∈ s, pyIsSpace c = false) :
    stripChars s = s := by
  unfold stripChars
  rw [lstripChars_of_no_space s h, rstripChars_of_no_space s h]

theorem partitionSub_self_append (sep r : Str) (hne : sep ≠ []) :
    partitionSub sep (sep ++ r) = ([], true, r) := by
  cases sep with
  | nil => exact absurd rfl hne
  | cons a as =>
    show partitionSub (a :: as) (a :: (as ++ r)) = ([], true, r)
    unfold partitionSub
    rw [if_pos]
    · simp only [Prod.mk.injEq, true_and, List.length_cons, List.drop_succ_cons]
      exact List.drop_left as r
    · rw [List.isPrefixOf_iff_prefix]
      exact List.prefix_append (a :: as) r

theorem partitionSub_absent (a : Char) (as s : Str) (h : ∀ c ∈ s, c ≠ a) :
    partitionSub (a :: as) s = (s, false, []) := by
  induction s with
  | nil => rfl
  | cons c rest ih =>
    unfold partitionSub
    rw [if_neg]
    · rw [ih fun d hd => h d (by simp [hd])]
    · intro hpre
      rw [List.isPrefixOf_iff_prefix] at hpre
      rcases hpre with ⟨t, ht⟩
      have : c = a := by
        have := congrArg (fun l => l.headD ' ') ht
        simpa using this.symm
      exact h c (by simp) this

/-! ## Claim C2: well-formed field values (the data-model shapes of the
date, nonce and issue-number strings) -/

def isDigitStr (s : Str) : Bool :=
  !s.isEmpty && s.all fun c => '0' ≤ c && c ≤ '9'

def isDateStr (s : Str) : Bool :=
  !s.isEmpty && s.all fun c => ('0' ≤ c && c ≤ '9') || c = '-'

def isNonceStr (s : Str) : Bool :=
  !s.isEmpty && s.all fun c => isAsciiAlnum c || c = '-' || c = '_'

/-- The record shape produced by ensure_metadata for a record that
carries a section: section, gh-issue, bpo, date, nonce in insertion
order. -/
def mkRecordMd (sect ghs bps date nonce : Str) : Metadata :=
  [(strL "section", sect), (strL "gh-issue", ghs), (strL "bpo", bps),
   (strL "date", date), (strL "nonce", nonce)]

theorem pyIsSpace_false_mid (c : Char) (hlo : 45 ≤ c.val.toNat)
    (hhi : c.val.toNat ≤ 122) : pyIsSpace c = false := by
  by_contra hsp
  rw [Bool.not_eq_false] at hsp
  unfold pyIsSpace at hsp
  simp only [Bool.or_eq_true, Bool.and_eq_true, beq_iff_eq, decide_eq_true_eq] at hsp
  have tn : ∀ {a b : UInt32}, a ≤ b → a.toNat ≤ b.toNat := fun h => h
  rcases hsp with ((((((((((h | ⟨h1, h2⟩) | ⟨h1, h2⟩) | h) | h) | h) | ⟨h1, h2⟩) | h) | h) | h) | h) | h
  · have he : c.val.toNat = 32 := congrArg UInt32.toNat h
    omega
  · have he : c.val.toNat ≤ 13 := tn h2
    omega
  · have he : c.val.toNat ≤ 31 := tn h2
    omega
  · have he : c.val.toNat = 133 := congrArg UInt32.toNat h
    omega
  · have he : c.val.toNat = 160 := congrArg UInt32.toNat h
    omega
  · have he : c.val.toNat = 5760 := congrArg UInt32.toNat h
    omega
  · have he : 8192 ≤ c.val.toNat := tn h1
    omega
  · have he : c.val.toNat = 8232 := congrArg UInt32.toNat h
    omega
  · have he : c.val.toNat = 8233 := congrArg UInt32.toNat h
    omega
  · have he : c.val.toNat = 8239 := congrArg UInt32.toNat h
    omega
  · have he : c.val.toNat = 8287 := congrArg UInt32.toNat h
    omega
  · have he : c.val.toNat = 12288 := congrArg UInt32.toNat h
    omega

/-- Characters drawn from the date, digit and nonce alphabets are not
the period, not the path separator, and not Python whitespace. -/
theorem safe_filename_char (c : Char) (hlo : 45 ≤ c.val.toNat)
    (hhi : c.val.toNat ≤ 122) (h46 : c.val.toNat ≠ 46) (h47 : c.val.toNat ≠ 47) :
    c ≠ '.' ∧ c ≠ '/' ∧ pyIsSpace c = false := by
  refine ⟨?_, ?_, pyIsSpace_false_mid c hlo hhi⟩
  · intro he
    subst he
    exact h46 rfl
  · intro he
    subst he
    exact h47 rfl

theorem char_le_toNat {a b : Char} (h : a ≤ b) : a.val.toNat ≤ b.val.toNat := by
  rw [Char.le_def] at h
  exact h

theorem digit_char_safe {c : Char} (h : ('0' ≤ c && c ≤ '9') = true) :
    c ≠ '.' ∧ c ≠ '/' ∧ pyIsSpace c = false := by
  rw [Bool.and_eq_true, decide_eq_true_eq, decide_eq_true_eq] at h
  have h1 : 48 ≤ c.val.toNat := char_le_toNat h.1
  have h2 : c.val.toNat ≤ 57 := char_le_toNat h.2
  exact safe_filename_char c (by omega) (by omega) (by omega) (by omega)

theorem date_char_safe {c : Char} (h : (('0' ≤ c && c ≤ '9') || c = '-') = true) :
    c ≠ '.' ∧ c ≠ '/' ∧ pyIsSpace c = false := by
  rw [Bool.or_eq_true] at h
  rcases h with h | h
  · exact digit_char_safe h
  · rw [decide_eq_true_eq] at h
    subst h
    exact ⟨by decide, by decide, by decide⟩

theorem nonce_char_safe {c : Char}
    (h : (isAsciiAlnum c || c = '-' || c = '_') = true) :
    c ≠ '.' ∧ c ≠ '/' ∧ pyIsSpace c = false := by
  rw [Bool.or_eq_true, Bool.or_eq_true] at h
  rcases h with (h | h) | h
  · unfold isAsciiAlnum at h
    rw [Bool.or_eq_true, Bool.or_eq_true] at h
    rcases h with (h | h) | h <;>
      rw [Bool.and_eq_true, decide_eq_true_eq, decide_eq_true_eq] at h
    · have h1 : 65 ≤ c.val.toNat := char_le_toNat h.1
      have h2 : c.val.toNat ≤ 90 := char_le_toNat h.2
      exact safe_filename_char c (by omega) (by omega) (by omega) (by omega)
    · have h1 : 97 ≤ c.val.toNat := char_le_toNat h.1
      have h2 : c.val.toNat ≤ 122 := char_le_toNat h.2
      exact safe_filename_char c (by omega) (by omega) (by omega) (by omega)
    · have h1 : 48 ≤ c.val.toNat := char_le_toNat h.1
      have h2 : c.val.toNat ≤ 57 := char_le_toNat h.2
      exact safe_filename_char c (by omega) (by omega) (by omega) (by omega)
  · rw [decide_eq_true_eq] at h
    subst h
    exact ⟨by decide, by decide, by decide⟩
  · rw [decide_eq_true_eq] at h
    subst h
    exact ⟨by decide, by decide, by decide⟩

set_option maxHeartbeats 2000000 in
/-- Reduction of _extract_next_filename on a fully populated record:
everything except the issue-number tests computes definitionally. -/
theorem extract_mkRecord_step (root now n0 sect ghs bps date nonce : Str) :
    extract_next_filename root now n0 (mkRecordMd sect ghs bps date nonce) =
      (match pyIntParse ghs with
       | none => .error (.valueError (strL "int gh-issue"))
       | some gh =>
         if gh > 0 then
           .ok (root ++ strL "/Misc/NEWS.d/next/" ++ sanitize_section sect ++
                strL "/" ++ date ++ strL ".gh-issue-" ++ ghs ++ strL "." ++
                nonce ++ strL ".rst", [])
         else
           match pyIntParse bps with
           | none => .error (.valueError (strL "int bpo"))
           | some bp =>
             if bp > 0 then
               .ok (root ++ strL "/Misc/NEWS.d/next/" ++ sanitize_section sect ++
                    strL "/" ++ date ++ strL ".bpo-" ++ bps ++ strL "." ++
                    nonce ++ strL ".rst", [])
             else .error (.nameError (strL "path"))) := rfl

theorem splitOnChar_sep_free_head (sep : Char) (x y : Str)
    (h : ∀ c ∈ x, c ≠ sep) :
    splitOnChar sep (x ++ sep :: y) = x :: splitOnChar sep y := by
  induction x with
  | nil =>
    simp only [List.nil_append]
    conv_lhs => unfold splitOnChar
    rw [if_pos rfl]
  | cons c x ih =>
    simp only [List.cons_append]
    conv_lhs => unfold splitOnChar
    rw [if_neg (h c (by simp))]
    rw [ih fun d hd => h d (by simp [hd])]

/-! ## Claim C2: the decode direction -/

def noChar (a : Char) (s : Str) : Prop := ∀ c ∈ s, c ≠ a

def noSpace (s : Str) : Prop := ∀ c ∈ s, pyIsSpace c = false

theorem noChar_append {a : Char} {x y : Str} (hx : noChar a x)
    (hy : noChar a y) : noChar a (x ++ y) := by
  intro c hc
  rcases List.mem_append.mp hc with h | h
  · exact hx c h
  · exact hy c h

theorem noSpace_append {x y : Str} (hx : noSpace x) (hy : noSpace y) :
    noSpace (x ++ y) := by
  intro c hc
  rcases List.mem_append.mp hc with h | h
  · exact hx c h
  · exact hy c h

theorem isDateStr_chars {date : Str} (h : isDateStr date = true) :
    noChar '.' date ∧ noChar '/' date ∧ noSpace date := by
  unfold isDateStr at h
  rw [Bool.and_eq_true, List.all_eq_true] at h
  exact ⟨fun c hc => (date_char_safe (h.2 c hc)).1,
         fun c hc => (date_char_safe (h.2 c hc)).2.1,
         fun c hc => (date_char_safe (h.2 c hc)).2.2⟩

theorem isDigitStr_chars {s : Str} (h : isDigitStr s = true) :
    noChar '.' s ∧ noChar '/' s ∧ noSpace s := by
  unfold isDigitStr at h
  rw [Bool.and_eq_true, List.all_eq_true] at h
  exact ⟨fun c hc => (digit_char_safe (h.2 c hc)).1,
         fun c hc => (digit_char_safe (h.2 c hc)).2.1,
         fun c hc => (digit_char_safe (h.2 c hc)).2.2⟩

theorem isNonceStr_chars {s : Str} (h : isNonceStr s = true) :
    noChar '.' s ∧ noChar '/' s ∧ noSpace s := by
  unfold isNonceStr at h
  rw [Bool.and_eq_true, List.all_eq_true] at h
  exact ⟨fun c hc => (nonce_char_safe (h.2 c hc)).1,
         fun c hc => (nonce_char_safe (h.2 c hc)).2.1,
         fun c hc => (nonce_char_safe (h.2 c hc)).2.2⟩

theorem section_sanitize_roundtrip :
    ∀ s ∈ sections, unsanitize_section (sanitize_section s) = s := by decide

theorem noChar_cons {a c : Char} {s : Str} (hc : c ≠ a) (hs : noChar a s) :
    noChar a (c :: s) := by
  intro d hd
  rcases List.mem_cons.mp hd with h | h
  · subst h; exact hc
  · exact hs d h

theorem section_sanitize_no_slash :
    ∀ s ∈ sections, noChar '/' (sanitize_section s) := by
  unfold noChar
  decide

/-- Decoding a freshly encoded path: the path splits back into the
sanitized section directory and the four filename fields, and the single
middle field is handed to parseNextField over the base metadata. -/
theorem parse_next_encoded (root sect date nonce mid : Str)
    (hs : sect ∈ sections)
    (hdd : noChar '.' date) (hds : noChar '/' date) (hdw : noSpace date)
    (hnd : noChar '.' nonce) (hns : noChar '/' nonce) (hnw : noSpace nonce)
    (hmd : noChar '.' mid) (hms : noChar '/' mid) (hmw : noSpace mid) :
    parse_next_filename (root ++ strL "/Misc/NEWS.d/next/" ++
        sanitize_section sect ++ strL "/" ++ date ++ ['.'] ++ mid ++
        strL "." ++ nonce ++ strL ".rst") =
      parseNextField
        (.ok [(strL "date", date), (strL "nonce", nonce), (strL "section", sect)])
        mid := by
  have l1 : strL "/Misc/NEWS.d/next/" =
      '/' :: (strL "Misc/NEWS.d/next" ++ ['/']) := rfl
  have l2 : strL "/" = ['/'] := rfl
  have l3 : strL "." = ['.'] := rfl
  have l4 : strL ".rst" = '.' :: strL "rst" := rfl
  have hsectSl : noChar '/' (sanitize_section sect) :=
    section_sanitize_no_slash sect hs
  have hrst : noChar '/' (strL "rst") := by
    unfold noChar
    decide
  have hFNsl : noChar '/' (date ++ '.' :: (mid ++ '.' :: (nonce ++ '.' :: strL "rst"))) :=
    noChar_append hds (noChar_cons (by decide) (noChar_append hms
      (noChar_cons (by decide) (noChar_append hns
        (noChar_cons (by decide) hrst)))))
  have epath : root ++ strL "/Misc/NEWS.d/next/" ++ sanitize_section sect ++
      strL "/" ++ date ++ ['.'] ++ mid ++ strL "." ++ nonce ++ strL ".rst" =
      ((root ++ '/' :: strL "Misc/NEWS.d/next") ++ '/' :: sanitize_section sect) ++
        '/' :: (date ++ '.' :: (mid ++ '.' :: (nonce ++ '.' :: strL "rst"))) := by
    rw [l1, l2, l3, l4]
    simp only [List.append_assoc, List.cons_append, List.singleton_append,
      List.nil_append]
  rw [epath]
  unfold parse_next_filename
  rw [splitOnChar_append_sep _ _ _ hFNsl,
      splitOnChar_append_sep _ _ _ hsectSl]
  simp only [List.reverse_append, List.reverse_cons, List.reverse_nil,
    List.nil_append, List.cons_append, List.singleton_append]
  rw [section_sanitize_roundtrip sect hs]
  have hcont : sections.contains sect = true := List.elem_iff.mpr hs
  rw [hcont]
  simp only [Bool.not_true, Bool.false_eq_true, if_false]
  rw [splitOnChar_sep_free_head '.' date _ hdd,
      splitOnChar_sep_free_head '.' mid _ hmd,
      splitOnChar_sep_free_head '.' nonce _ hnd,
      splitOnChar_no_sep '.' (strL "rst") (by decide)]
  simp only [List.map_cons, List.map_nil]
  rw [stripChars_of_no_space date hdw, stripChars_of_no_space mid hmw,
      stripChars_of_no_space nonce hnw,
      stripChars_of_no_space (strL "rst") (by decide)]
  simp only [List.length_cons, List.length_nil, List.dropLast_cons_of_ne_nil,
    List.dropLast_single, List.getLastD_cons,
    List.headD_cons, List.drop_succ_cons, List.drop_zero, List.foldl_cons,
    List.foldl_nil]
  norm_num

theorem digit_char_ne {c : Char} (h : ('0' ≤ c && c ≤ '9') = true) (a : Char)
    (ha : a.val.toNat < 48 ∨ 57 < a.val.toNat) : c ≠ a := by
  rw [Bool.and_eq_true, decide_eq_true_eq, decide_eq_true_eq] at h
  have h1 : 48 ≤ c.val.toNat := char_le_toNat h.1
  have h2 : c.val.toNat ≤ 57 := char_le_toNat h.2
  intro he
  subst he
  rcases ha with ha | ha <;> omega

theorem isDigitStr_all {s : Str} (h : isDigitStr s = true) :
    ∀ c ∈ s, ('0' ≤ c && c ≤ '9') = true := by
  unfold isDigitStr at h
  rw [Bool.and_eq_true, List.all_eq_true] at h
  exact h.2

theorem parseNextField_gh (md : Metadata) (ghs : Str) (hw : noSpace ghs) :
    parseNextField (.ok md) (strL "gh-issue-" ++ ghs) =
      .ok (dictSet md (strL "gh-issue") ghs) := by
  unfold parseNextField
  rw [partitionSub_self_append _ _ (by decide)]
  dsimp only
  rw [stripChars_of_no_space ghs hw]
  simp

theorem parseNextField_bpo (md : Metadata) (bps : Str) (hw : noSpace bps)
    (hb : isDigitStr bps = true) :
    parseNextField (.ok md) (strL "bpo-" ++ bps) =
      .ok (dictSet md (strL "bpo") bps) := by
  have hng : ∀ c ∈ strL "bpo-" ++ bps, c ≠ 'g' := by
    intro c hc
    rcases List.mem_append.mp hc with h | h
    · revert h
      have : ∀ c ∈ strL "bpo-", c ≠ 'g' := by decide
      exact this c
    · exact digit_char_ne (isDigitStr_all hb c h) 'g' (by decide)
  unfold parseNextField
  have e1 : strL "gh-issue-" = 'g' :: strL "h-issue-" := rfl
  rw [e1, partitionSub_absent 'g' _ _ hng]
  dsimp only
  rw [partitionSub_self_append _ _ (by decide)]
  dsimp only
  rw [stripChars_of_no_space bps hw]
  simp

/-- C2: for a record whose section is canonical and whose field values
have the data-model shapes (sortable date, base64url nonce, decimal
issue numbers), with gh-issue at least 1, or gh-issue 0 and bpo at least
1, decoding the path produced by the encoder reproduces exactly the
section, the issue field and its number string, the date, and the
nonce. -/
theorem C2_codec_inverse (root now n0 sect ghs bps date nonce : Str) (g b : Int)
    (hs : sect ∈ sections) (hd : isDateStr date = true)
    (hn : isNonceStr nonce = true) (hg : isDigitStr ghs = true)
    (hb : isDigitStr bps = true) (hgv : pyIntParse ghs = some g)
    (hbv : pyIntParse bps = some b) (hcase : 1 ≤ g ∨ (g = 0 ∧ 1 ≤ b)) :
    ∃ path : Str,
      extract_next_filename root now n0 (mkRecordMd sect ghs bps date nonce) =
        .ok (path, []) ∧
      parse_next_filename path = .ok
        ((strL "date", date) :: (strL "nonce", nonce) :: (strL "section", sect) ::
          (if 1 ≤ g then [(strL "gh-issue", ghs)] else [(strL "bpo", bps)])) := by
  obtain ⟨hdd, hds, hdw⟩ := isDateStr_chars hd
  obtain ⟨hnd2, hns2, hnw2⟩ := isNonceStr_chars hn
  obtain ⟨hgd, hgs, hgw⟩ := isDigitStr_chars hg
  obtain ⟨hbd, hbs, hbw⟩ := isDigitStr_chars hb
  have hghMid : noChar '.' (strL "gh-issue-" ++ ghs) ∧
      noChar '/' (strL "gh-issue-" ++ ghs) ∧ noSpace (strL "gh-issue-" ++ ghs) := by
    refine ⟨noChar_append ?_ hgd, noChar_append ?_ hgs, noSpace_append ?_ hgw⟩
    · unfold noChar; decide
    · unfold noChar; decide
    · unfold noSpace; decide
  have hbpMid : noChar '.' (strL "bpo-" ++ bps) ∧
      noChar '/' (strL "bpo-" ++ bps) ∧ noSpace (strL "bpo-" ++ bps) := by
    refine ⟨noChar_append ?_ hbd, noChar_append ?_ hbs, noSpace_append ?_ hbw⟩
    · unfold noChar; decide
    · unfold noChar; decide
    · unfold noSpace; decide
  rcases hcase with hpos | ⟨hzero, hbpos⟩
  · refine ⟨root ++ strL "/Misc/NEWS.d/next/" ++ sanitize_section sect ++
      strL "/" ++ date ++ strL ".gh-issue-" ++ ghs ++ strL "." ++ nonce ++
      strL ".rst", ?_, ?_⟩
    · rw [extract_mkRecord_step, hgv]
      dsimp only
      rw [if_pos (by omega : g > 0)]
    · rw [if_pos hpos]
      have eform : root ++ strL "/Misc/NEWS.d/next/" ++ sanitize_section sect ++
          strL "/" ++ date ++ strL ".gh-issue-" ++ ghs ++ strL "." ++ nonce ++
          strL ".rst" =
          root ++ strL "/Misc/NEWS.d/next/" ++ sanitize_section sect ++
          strL "/" ++ date ++ ['.'] ++ (strL "gh-issue-" ++ ghs) ++ strL "." ++
          nonce ++ strL ".rst" := by
        rw [show strL ".gh-issue-" = '.' :: strL "gh-issue-" from rfl]
        simp only [List.append_assoc, List.cons_append, List.singleton_append,
          List.nil_append]
      rw [eform]
      rw [parse_next_encoded root sect date nonce (strL "gh-issue-" ++ ghs) hs
        hdd hds hdw hnd2 hns2 hnw2 hghMid.1 hghMid.2.1 hghMid.2.2]
      rw [parseNextField_gh _ _ hgw]
      rfl
  · refine ⟨root ++ strL "/Misc/NEWS.d/next/" ++ sanitize_section sect ++
      strL "/" ++ date ++ strL ".bpo-" ++ bps ++ strL "." ++ nonce ++
      strL ".rst", ?_, ?_⟩
    · rw [extract_mkRecord_step, hgv]
      dsimp only
      rw [if_neg (by omega : ¬ g > 0), hbv]
      dsimp only
      rw [if_pos (by omega : b > 0)]
    · rw [if_neg (by omega : ¬ 1 ≤ g)]
      have eform : root ++ strL "/Misc/NEWS.d/next/" ++ sanitize_section sect ++
          strL "/" ++ date ++ strL ".bpo-" ++ bps ++ strL "." ++ nonce ++
          strL ".rst" =
          root ++ strL "/Misc/NEWS.d/next/" ++ sanitize_section sect ++
          strL "/" ++ date ++ ['.'] ++ (strL "bpo-" ++ bps) ++ strL "." ++
          nonce ++ strL ".rst" := by
        rw [show strL ".bpo-" = '.' :: strL "bpo-" from rfl]
        simp only [List.append_assoc, List.cons_append, List.singleton_append,
          List.nil_append]
      rw [eform]
      rw [parse_next_encoded root sect date nonce (strL "bpo-" ++ bps) hs
        hdd hds hdw hnd2 hns2 hnw2 hbpMid.1 hbpMid.2.1 hbpMid.2.2]
      rw [parseNextField_bpo _ _ hbw hb]
      rfl

/-- Witness for C2 at a concrete record. -/
theorem C2_codec_inverse_witness :
    ∃ path : Str,
      extract_next_filename (strL "/repo") (strL "now") (strL "n0")
        (mkRecordMd (strL "Library") (strL "33333") (strL "0")
          (strL "2025-01-07-01-02-03") (strL "Abc_-Z")) = .ok (path, []) ∧
      parse_next_filename path = .ok
        ((strL "date", strL "2025-01-07-01-02-03") ::
         (strL "nonce", strL "Abc_-Z") ::
         (strL "section", strL "Library") ::
         (if 1 ≤ (33333 : Int) then [(strL "gh-issue", strL "33333")]
          else [(strL "bpo", strL "0")])) :=
  C2_codec_inverse (strL "/repo") (strL "now") (strL "n0") (strL "Library")
    (strL "33333") (strL "0") (strL "2025-01-07-01-02-03") (strL "Abc_-Z")
    33333 0 (by decide) (by decide) (by decide) (by decide) (by decide)
    (by rfl) (by rfl) (Or.inl (by decide))

/-! ## Chunk-list structure underlying textwrap.wrap

The chunk splitter produces maximal runs, so chunks are nonempty,
class-uniform, and adjacent chunks alternate between whitespace and
non-whitespace. -/

def chunkClass (c : Str) : Bool := pyIsSpace (c.headD ' ')

def uniformChunk (c : Str) : Prop :=
  c ≠ [] ∧ ∀ d ∈ c, pyIsSpace d = chunkClass c

def altChunks : List Str → Prop
  | [] => True
  | [c] => uniformChunk c
  | c1 :: c2 :: r =>
    uniformChunk c1 ∧ chunkClass c1 ≠ chunkClass c2 ∧ altChunks (c2 :: r)

theorem altChunks_tail {c : Str} {r : List Str} (h : altChunks (c :: r)) :
    altChunks r := by
  cases r with
  | nil => trivial
  | cons c2 rr => exact h.2.2

theorem altChunks_head {c : Str} {r : List Str} (h : altChunks (c :: r)) :
    uniformChunk c := by
  cases r with
  | nil => exact h
  | cons c2 rr => exact h.1

theorem altChunks_append_right {a b : List Str} (h : altChunks (a ++ b)) :
    altChunks b := by
  induction a with
  | nil => exact h
  | cons c a ih => exact ih (altChunks_tail h)

theorem dropWhile_length_le (p : Char → Bool) (l : List Char) :
    (l.dropWhile p).length ≤ l.length := by
  induction l with
  | nil => simp
  | cons c rest ih =>
    rw [List.dropWhile_cons]
    split
    · simp
      omega
    · simp

theorem splitChunksF_cons (fuel : Nat) (c : Char) (rest : Str)
    (hf : rest.length < fuel) :
    splitChunksF fuel (c :: rest) =
      (c :: rest.takeWhile (fun d => pyIsSpace d == pyIsSpace c)) ::
        splitChunksF (fuel - 1)
          (rest.dropWhile (fun d => pyIsSpace d == pyIsSpace c)) := by
  cases fuel with
  | zero => omega
  | succ n => rfl

theorem splitChunksF_fuel_irrel :
    ∀ fuel1 fuel2 s, s.length ≤ fuel1 → s.length ≤ fuel2 →
      splitChunksF fuel1 s = splitChunksF fuel2 s := by
  intro fuel1
  induction fuel1 using Nat.strong_induction_on with
  | _ fuel1 ih =>
    intro fuel2 s h1 h2
    cases s with
    | nil =>
      cases fuel1 <;> cases fuel2 <;> rfl
    | cons c rest =>
      cases fuel1 with
      | zero => simp at h1
      | succ n1 =>
        cases fuel2 with
        | zero => simp at h2
        | succ n2 =>
          show (c :: _) :: splitChunksF n1 _ = (c :: _) :: splitChunksF n2 _
          have hd : (rest.dropWhile fun d => pyIsSpace d == pyIsSpace c).length ≤
              rest.length :=
            dropWhile_length_le (fun d => pyIsSpace d == pyIsSpace c) rest
          rw [ih n1 (by omega) n2 _ (by simp at h1; omega) (by simp at h2; omega)]

theorem splitChunksF_flatten :
    ∀ fuel s, s.length ≤ fuel → (splitChunksF fuel s).flatten = s := by
  intro fuel
  induction fuel using Nat.strong_induction_on with
  | _ fuel ih =>
    intro s hs
    cases s with
    | nil => cases fuel <;> rfl
    | cons c rest =>
      cases fuel with
      | zero => simp at hs
      | succ n =>
        show ((c :: rest.takeWhile _) :: splitChunksF n _).flatten = c :: rest
        rw [List.flatten_cons]
        have hd := dropWhile_length_le
          (fun d => pyIsSpace d == pyIsSpace c) rest
        rw [ih n (by omega) _ (by simp at hs; omega)]
        simp [List.takeWhile_append_dropWhile]

theorem uniform_takeRun (c : Char) (rest : Str) :
    uniformChunk (c :: rest.takeWhile fun d => pyIsSpace d == pyIsSpace c) := by
  constructor
  · simp
  · intro d hd
    have hcls : chunkClass (c :: rest.takeWhile fun d => pyIsSpace d == pyIsSpace c) =
        pyIsSpace c := by
      simp [chunkClass]
    rw [hcls]
    rcases List.mem_cons.mp hd with h | h
    · rw [h]
    · have := List.mem_takeWhile_imp h
      simpa using this

theorem dropWhile_head_false (p : Char → Bool) (l : List Char) (c2 : Char)
    (r2 : Str) (h : l.dropWhile p = c2 :: r2) : p c2 = false := by
  induction l with
  | nil => simp at h
  | cons a l ih =>
    rw [List.dropWhile_cons] at h
    split at h
    · exact ih h
    · rename_i hpa
      rw [List.cons.injEq] at h
      rw [← h.1]
      simpa using hpa

theorem altChunks_splitChunksF :
    ∀ fuel s, s.length ≤ fuel → altChunks (splitChunksF fuel s) := by
  intro fuel
  induction fuel using Nat.strong_induction_on with
  | _ fuel ih =>
    intro s hs
    cases s with
    | nil => cases fuel <;> trivial
    | cons c rest =>
      cases fuel with
      | zero => simp at hs
      | succ n =>
        show altChunks ((c :: rest.takeWhile _) :: splitChunksF n _)
        have hd := dropWhile_length_le
          (fun d => pyIsSpace d == pyIsSpace c) rest
        have hrec := ih n (by omega)
          (rest.dropWhile fun d => pyIsSpace d == pyIsSpace c)
          (by simp at hs; omega)
        rcases hdrop : rest.dropWhile (fun d => pyIsSpace d == pyIsSpace c) with
          _ | ⟨c2, rest2⟩
        · rw [show splitChunksF n ([] : Str) = [] by cases n <;> rfl]
          exact uniform_takeRun c rest
        · have hlen : rest2.length < n := by
            rw [hdrop] at hd
            simp at hs hd
            omega
          rw [hdrop] at hrec
          rw [splitChunksF_cons n c2 rest2 hlen]
          rw [splitChunksF_cons n c2 rest2 hlen] at hrec
          refine ⟨uniform_takeRun c rest, ?_, hrec⟩
          have hc2 : (pyIsSpace c2 == pyIsSpace c) = false :=
            dropWhile_head_false _ rest c2 rest2 hdrop
          simp only [chunkClass, List.headD_cons]
          intro he
          rw [he] at hc2
          simp at hc2

theorem altChunks_pair {X : List Str} {P W : Str} (h : altChunks (X ++ [P, W])) :
    chunkClass P ≠ chunkClass W ∧ uniformChunk P ∧ uniformChunk W := by
  have h2 : altChunks [P, W] := altChunks_append_right h
  exact ⟨h2.2.1, h2.1, h2.2.2⟩

theorem greedyTake_append (width : Nat) : ∀ (curLen : Nat) (C : List Str),
    (greedyTake width curLen C).1 ++ (greedyTake width curLen C).2 = C := by
  intro curLen C
  induction C generalizing curLen with
  | nil => rfl
  | cons c rest ih =>
    unfold greedyTake
    split
    · dsimp only
      rw [List.cons_append, ih]
    · rfl

theorem wordChunk_not_ws {W : Str} (hu : uniformChunk W)
    (hw : chunkClass W = false) : isWsChunk W = false := by
  obtain ⟨hne, hall⟩ := hu
  unfold isWsChunk
  rw [stripChars_of_no_space W fun c hc => by rw [hall c hc, hw]]
  simpa using hne


theorem ite_pair_snd {α β : Type} (c : Prop) [Decidable c] (a b : α) (x : β) :
    (if c then (a, x) else (b, x)).2 = x := by split <;> rfl

theorem ite_pair_fst {α β : Type} (c : Prop) [Decidable c] (a b : α) (x : β) :
    (if c then (a, x) else (b, x)).1 = if c then a else b := by split <;> rfl

theorem wrapFill_decomp (w : Nat) (indent : Str) (chunks1 : List Str) :
    ∃ taken, chunks1 = taken ++ (wrapFill w indent chunks1).2 ∧
      (chunks1 ≠ [] → taken ≠ []) ∧
      (wrapFill w indent chunks1).1 =
        (if (dropTrailingWsChunk taken).isEmpty = true then none
         else some (indent ++ (dropTrailingWsChunk taken).flatten)) := by
  rcases hg : greedyTake w 0 chunks1 with ⟨t1, t2⟩
  have happ : t1 ++ t2 = chunks1 := by
    have := greedyTake_append w 0 chunks1
    rw [hg] at this
    exact this
  unfold wrapFill
  rw [hg]
  dsimp only
  rcases t2 with _ | ⟨c, rest⟩
  · rw [ite_pair_snd, ite_pair_fst]
    refine ⟨t1, by simpa using happ.symm, ?_, ?_⟩
    · intro hne hcon
      rw [hcon] at happ
      exact hne (by simpa using happ.symm)
    · split <;> rfl
  · dsimp only
    by_cases hlong : (decide (c.length > w) && t1.isEmpty) = true
    · rw [if_pos hlong, ite_pair_snd, ite_pair_fst]
      refine ⟨t1 ++ [c], ?_, ?_, ?_⟩
      · rw [← happ]
        simp
      · intro _
        simp
      · split <;> rfl
    · rw [if_neg hlong, ite_pair_snd, ite_pair_fst]
      refine ⟨t1, by simpa using happ.symm, ?_, ?_⟩
      · intro hne
        rcases ht1 : t1 with _ | _
        · exfalso
          rw [ht1] at happ
          rw [Bool.and_eq_true] at hlong
          push_neg at hlong
          have hclen : ¬ (decide (c.length > w) = true) := by
            intro hdl
            exact hlong hdl (by rw [ht1]; rfl)
          rw [decide_eq_true_eq] at hclen
          push_neg at hclen
          rw [← happ] at hg
          unfold greedyTake at hg
          simp only [List.nil_append] at hg
          rw [if_pos (by omega : 0 + c.length ≤ w)] at hg
          rw [ht1] at hg
          simp at hg
        · simp
      · split <;> rfl

theorem wrapStep_decomp (ln : Bool) (C : List Str) :
    ∃ dropped taken,
      C = dropped ++ (taken ++ (wrapStep 76 [] ln C).2) ∧
      (∀ x ∈ dropped, isWsChunk x = true) ∧
      (C ≠ [] → dropped ++ taken ≠ []) ∧
      (wrapStep 76 [] ln C).1 =
        (if (dropTrailingWsChunk taken).isEmpty = true then none
         else some (dropTrailingWsChunk taken).flatten) := by
  unfold wrapStep
  simp only [List.length_nil, Nat.sub_zero]
  rcases C with _ | ⟨c, rest⟩
  · refine ⟨[], [], ?_, by simp, by simp, ?_⟩
    · simp [wrapFill, greedyTake, dropTrailingWsChunk]
    · simp [wrapFill, greedyTake, dropTrailingWsChunk]
  · dsimp only
    by_cases hdr : (ln && isWsChunk c) = true
    · rw [if_pos hdr]
      obtain ⟨taken, h1, h2, h3⟩ := wrapFill_decomp 76 [] rest
      refine ⟨[c], taken, ?_, ?_, by simp, by simpa using h3⟩
      · rw [List.cons_append, List.nil_append, ← h1]
      · intro x hx
        rw [List.mem_singleton] at hx
        subst hx
        exact ((Bool.and_eq_true _ _).mp hdr).2
    · rw [if_neg hdr]
      obtain ⟨taken, h1, h2, h3⟩ := wrapFill_decomp 76 [] (c :: rest)
      exact ⟨[], taken, by simpa using h1, by simp,
        fun _ => by simpa using h2 (by simp), by simpa using h3⟩

theorem list_eq_dropLast_getLastD {α : Type} {l : List α} (h : l ≠ []) (d : α) :
    l = l.dropLast ++ [l.getLastD d] := by
  rw [List.getLastD_eq_getLast?, List.getLast?_eq_getLast l h]
  simp [List.dropLast_append_getLast]

theorem getLastD_append_right {α : Type} (A : List α) {B : List α} (hB : B ≠ [])
    (d : α) : (A ++ B).getLastD d = B.getLastD d := by
  rw [List.getLastD_eq_getLast?, List.getLastD_eq_getLast?,
    List.getLast?_append_of_ne_nil]
  exact hB

theorem getLastD_mem {α : Type} {l : List α} (h : l ≠ []) (d : α) :
    l.getLastD d ∈ l := by
  rw [List.getLastD_eq_getLast?, List.getLast?_eq_getLast l h]
  simp [List.getLast_mem]

theorem ws_chunk_class {x : Str} (hu : uniformChunk x) (hw : isWsChunk x = true) :
    chunkClass x = true := by
  by_contra hc
  rw [Bool.not_eq_true] at hc
  rw [wordChunk_not_ws hu hc] at hw
  simp at hw

theorem altChunks_getLastD_uniform {C : List Str} (h : altChunks C) (hne : C ≠ []) :
    uniformChunk (C.getLastD []) := by
  have hdec := list_eq_dropLast_getLastD hne ([] : Str)
  have h2 : altChunks [C.getLastD []] := by
    rw [hdec] at h
    exact altChunks_append_right h
  exact h2

theorem dropTrailingWsChunk_of_word {taken : List Str} (hne : taken ≠ [])
    (hw : isWsChunk (taken.getLastD []) = false) :
    dropTrailingWsChunk taken = taken := by
  unfold dropTrailingWsChunk
  rw [List.getLastD_eq_getLast?] at hw
  rcases hl : taken.getLast? with _ | ⟨c⟩
  · rfl
  · rw [hl] at hw
    simp only [Option.getD_some] at hw
    dsimp only
    rw [hw]
    simp

theorem wrapLoopF_cons_eq (n : Nat) (ln : Bool) (c : Str) (rest : List Str) :
    wrapLoopF 76 [] [] (n + 1) ln (c :: rest) =
      (match (wrapStep 76 [] ln (c :: rest)).1 with
       | some line =>
         line :: wrapLoopF 76 [] [] n true (wrapStep 76 [] ln (c :: rest)).2
       | none => wrapLoopF 76 [] [] n ln (wrapStep 76 [] ln (c :: rest)).2) := by
  conv_lhs => unfold wrapLoopF
  dsimp only
  rw [ite_self]

theorem joinSep_cons_of_ne (sep x : Str) (L : List Str) (h : L ≠ []) :
    joinSep sep (x :: L) = x ++ sep ++ joinSep sep L := by
  cases L with
  | nil => exact absurd rfl h
  | cons y r => rfl

theorem joinSep_ne_nil_of (sep : Str) (L : List Str) (pre W : Str) (hW : W ≠ [])
    (h : joinSep sep L = pre ++ W) : L ≠ [] := by
  intro hL
  rw [hL] at h
  have : pre ++ W = [] := h.symm
  rcases List.append_eq_nil.mp this with ⟨_, hW2⟩
  exact hW hW2

/-- The accumulated output of the wrap loop ends with the last chunk,
preceded (if at all) by a whitespace character.  Holds for alternating
chunk lists whose last chunk is non-whitespace. -/
theorem wrapLoop_ends_last :
    ∀ fuel (C : List Str) (ln : Bool),
      C.length ≤ fuel → altChunks C → C ≠ [] →
      chunkClass (C.getLastD []) = false →
      ∃ pre, joinSep (strL "
") (wrapLoopF 76 [] [] fuel ln C) =
          pre ++ C.getLastD [] ∧
        (pre = [] ∨ pyIsSpace (pre.getLastD 'x') = true) := by
  intro fuel
  induction fuel using Nat.strong_induction_on with
  | _ fuel ih =>
    intro C ln hfuel halt hne hlast
    rcases C with _ | ⟨c, rest⟩
    · exact absurd rfl hne
    cases fuel with
    | zero => simp at hfuel
    | succ n =>
      obtain ⟨dropped, taken, h1, h2, h3, h4⟩ := wrapStep_decomp ln (c :: rest)
      have hcons : (c :: rest) ≠ [] := by simp
      have hW : uniformChunk ((c :: rest).getLastD []) :=
        altChunks_getLastD_uniform halt hne
      rcases hrest2 : (wrapStep 76 [] ln (c :: rest)).2 with _ | ⟨c2, rest2⟩
      · -- final iteration: everything consumed into the last line
        rw [hrest2, List.append_nil] at h1
        have htaken : taken ≠ [] := by
          intro hx
          rw [hx, List.append_nil] at h1
          have hwsl : isWsChunk ((c :: rest).getLastD []) = true := by
            rw [h1]
            exact h2 _ (getLastD_mem (by rw [← h1]; exact hne) [])
          rw [ws_chunk_class hW hwsl] at hlast
          simp at hlast
        have hlastTaken : taken.getLastD [] = (c :: rest).getLastD [] := by
          rw [h1, getLastD_append_right _ htaken]
        have hdt : dropTrailingWsChunk taken = taken := by
          refine dropTrailingWsChunk_of_word htaken ?_
          rw [hlastTaken]
          exact wordChunk_not_ws hW hlast
        have hline : (wrapStep 76 [] ln (c :: rest)).1 = some taken.flatten := by
          rw [h4, hdt, if_neg (by simpa using htaken)]
        rw [wrapLoopF_cons_eq, hline, hrest2]
        dsimp only
        rw [show wrapLoopF 76 [] [] n true [] = [] by cases n <;> rfl]
        show ∃ pre, taken.flatten = pre ++ (c :: rest).getLastD [] ∧ _
        have htk : taken = taken.dropLast ++ [taken.getLastD []] :=
          list_eq_dropLast_getLastD htaken []
        refine ⟨taken.dropLast.flatten, ?_, ?_⟩
        · conv_lhs => rw [htk]
          rw [List.flatten_append, hlastTaken]
          simp
        · by_cases hdl : taken.dropLast = []
          · left
            rw [hdl]
            rfl
          · right
            have hdlne : taken.dropLast ≠ [] := hdl
            have hP : taken.dropLast = taken.dropLast.dropLast ++
                [taken.dropLast.getLastD []] :=
              list_eq_dropLast_getLastD hdlne []
            have hPW : altChunks ((dropped ++ taken.dropLast.dropLast) ++
                [taken.dropLast.getLastD [], taken.getLastD []]) := by
              have : (c :: rest) = (dropped ++ taken.dropLast.dropLast) ++
                  [taken.dropLast.getLastD [], taken.getLastD []] := by
                conv_lhs => rw [h1]
                conv_lhs => rw [htk]
                conv_lhs => rw [hP]
                simp
              rw [← this]
              exact halt
            obtain ⟨hcls, hPu, _⟩ := altChunks_pair hPW
            have hPws : chunkClass (taken.dropLast.getLastD []) = true := by
              rcases Bool.eq_false_or_eq_true (chunkClass (taken.dropLast.getLastD [])) with hc | hc
              · exact hc
              · exfalso
                rw [hlastTaken] at hcls
                rw [hc, hlast] at hcls
                exact hcls rfl
            have hPne : taken.dropLast.getLastD [] ≠ [] := hPu.1
            have hflat : taken.dropLast.flatten =
                taken.dropLast.dropLast.flatten ++ taken.dropLast.getLastD [] := by
              conv_lhs => rw [hP]
              simp
            rw [hflat, getLastD_append_right _ hPne]
            have := hPu.2 _ (getLastD_mem hPne 'x')
            rw [this, hPws]
      · -- a line (or nothing) is emitted and the loop continues
        have hnonz : dropped ++ taken ≠ [] := h3 hcons
        have hlen2 : (c2 :: rest2).length ≤ n := by
          have hlenEq : (c :: rest).length =
              (dropped ++ taken).length + (c2 :: rest2).length := by
            conv_lhs => rw [h1, hrest2]
            simp [List.length_append]
            omega
          have hone : 1 ≤ (dropped ++ taken).length :=
            List.length_pos.mpr hnonz
          simp only [List.length_cons] at hfuel hlenEq ⊢
          omega
        have halt2 : altChunks (c2 :: rest2) := by
          have : (c :: rest) = (dropped ++ taken) ++ (c2 :: rest2) := by
            conv_lhs => rw [h1, hrest2]
            simp
          rw [this] at halt
          exact altChunks_append_right halt
        have hlast2 : (c2 :: rest2).getLastD [] = (c :: rest).getLastD [] := by
          conv_rhs => rw [h1, hrest2]
          rw [show dropped ++ (taken ++ c2 :: rest2) =
            (dropped ++ taken) ++ (c2 :: rest2) by simp]
          rw [getLastD_append_right _ (by simp)]
        have hlast2c : chunkClass ((c2 :: rest2).getLastD []) = false := by
          rw [hlast2]
          exact hlast
        rw [wrapLoopF_cons_eq, hrest2]
        rcases hl1 : (wrapStep 76 [] ln (c :: rest)).1 with _ | ⟨line⟩
        · dsimp only
          obtain ⟨pre, hpre, hpw⟩ := ih n (by omega) (c2 :: rest2) ln hlen2
            halt2 (by simp) hlast2c
          refine ⟨pre, ?_, hpw⟩
          rw [hpre, hlast2]
        · dsimp only
          obtain ⟨pre, hpre, hpw⟩ := ih n (by omega) (c2 :: rest2) true hlen2
            halt2 (by simp) hlast2c
          have hWne : (c2 :: rest2).getLastD [] ≠ [] :=
            (altChunks_getLastD_uniform halt2 (by simp)).1
          have hrecne : wrapLoopF 76 [] [] n true (c2 :: rest2) ≠ [] :=
            joinSep_ne_nil_of _ _ pre _ hWne hpre
          rw [joinSep_cons_of_ne _ _ _ hrecne, hpre, hlast2]
          refine ⟨line ++ strL "
" ++ pre, by simp, ?_⟩
          right
          rcases hpre0 : pre with _ | ⟨q, qrest⟩
          · rw [List.append_nil]
            rw [getLastD_append_right line (by simp [strL])]
            decide
          · rw [show line ++ strL "
" ++ (q :: qrest) =
              line ++ strL "
" ++ (q :: qrest) from rfl]
            rw [getLastD_append_right _ (by simp)]
            rw [← hpre0]
            rcases hpw with hpw | hpw
            · rw [hpw] at hpre0
              simp at hpre0
            · exact hpw

/-! ## Trailing-"::" analysis of the reflow pass -/

def endsNonWs (s : Str) : Prop := s ≠ [] ∧ pyIsSpace (s.getLastD ' ') = false

theorem getLastD_of_reverse {s : Str} {x0 : Char} {xr : Str}
    (h : s.reverse = x0 :: xr) (d : Char) : s.getLastD d = x0 := by
  rw [List.getLastD_eq_getLast?, ← List.head?_reverse, h]
  rfl

theorem getLastD_default_irrel {α : Type} {l : List α} (h : l ≠ []) (d1 d2 : α) :
    l.getLastD d1 = l.getLastD d2 := by
  rw [List.getLastD_eq_getLast?, List.getLastD_eq_getLast?,
    List.getLast?_eq_getLast l h]
  rfl

theorem endsWith_colons_reverse (s : Str) :
    endsWith (strL "::") s = List.isPrefixOf [':', ':'] s.reverse := rfl

/-- Appending a nonempty tail to a string that is empty or ends in
whitespace does not change whether the result ends in "::". -/
theorem endsColons_append {X W : Str}
    (hX : X = [] ∨ pyIsSpace (X.getLastD 'x') = true) (hW : W ≠ []) :
    endsWith (strL "::") (X ++ W) = endsWith (strL "::") W := by
  rw [endsWith_colons_reverse, endsWith_colons_reverse, List.reverse_append]
  rcases hrw : W.reverse with _ | ⟨w0, wr⟩
  · exact absurd (List.reverse_eq_nil_iff.mp hrw) hW
  · rcases wr with _ | ⟨w1, wr2⟩
    · show ([':', ':'].isPrefixOf (w0 :: X.reverse)) =
        ([':', ':'].isPrefixOf [w0])
      show ((':' == w0) && ([':'].isPrefixOf X.reverse)) =
        ((':' == w0) && false)
      by_cases hw0 : (':' == w0) = true
      · rw [hw0]
        simp only [Bool.true_and]
        rcases hrx : X.reverse with _ | ⟨x0, xrr⟩
        · rfl
        · show ((':' == x0) && _) = false
          have hXne : X ≠ [] := by
            intro hc
            rw [hc] at hrx
            simp at hrx
          have hx0 : pyIsSpace x0 = true := by
            rcases hX with hX | hX
            · exact absurd hX hXne
            · rw [getLastD_of_reverse hrx 'x'] at hX
              exact hX
          have : (':' == x0) = false := by
            rw [beq_eq_false_iff_ne]
            intro hc
            rw [← hc] at hx0
            exact absurd hx0 (by decide)
          rw [this, Bool.false_and]
      · rw [Bool.not_eq_true] at hw0
        rw [hw0, Bool.false_and, Bool.false_and]
    · simp [List.isPrefixOf]

theorem noTab_of_noSpace {s : Str} (h : ∀ c ∈ s, pyIsSpace c = false) :
    ∀ c ∈ s, c ≠ '\t' := by
  intro c hc he
  have := h c hc
  rw [he] at this
  exact absurd this (by decide)

theorem expandTabsGo_noTab : ∀ (s : Str), (∀ c ∈ s, c ≠ '\t') → ∀ col,
    expandTabsGo col s = s := by
  intro s
  induction s with
  | nil => intro _ _; rfl
  | cons c rest ih =>
    intro h col
    have hc : c ≠ '\t' := h c (List.mem_cons_self c rest)
    have hrest : ∀ d ∈ rest, d ≠ '\t' := fun d hd => h d (List.mem_cons_of_mem c hd)
    unfold expandTabsGo
    rw [if_neg hc]
    split <;> rw [ih hrest _]

theorem expandTabsGo_ne_nil : ∀ (s : Str) (col : Nat), s ≠ [] →
    expandTabsGo col s ≠ [] := by
  intro s col hs
  cases s with
  | nil => exact absurd rfl hs
  | cons c rest =>
    unfold expandTabsGo
    split
    · intro hc
      have hlen := congrArg List.length hc
      simp only [List.length_append, List.length_replicate, List.length_nil] at hlen
      have : col % 8 < 8 := Nat.mod_lt _ (by norm_num)
      omega
    · split <;> simp

theorem expandTabsGo_ends_ws : ∀ (s : Str) (col : Nat), s ≠ [] →
    pyIsSpace (s.getLastD 'x') = true →
    pyIsSpace ((expandTabsGo col s).getLastD 'x') = true := by
  intro s
  induction s with
  | nil => intro col hs _; exact absurd rfl hs
  | cons c rest ih =>
    intro col _ hw
    by_cases hrne : rest = []
    · subst hrne
      unfold expandTabsGo
      split
      · dsimp only
        rw [show expandTabsGo (col + (8 - col % 8)) [] = [] from rfl,
          List.append_nil]
        have hpadne : List.replicate (8 - col % 8) ' ' ≠ ([] : Str) := by
          intro hc
          have := congrArg List.length hc
          simp only [List.length_replicate, List.length_nil] at this
          have h8 : col % 8 < 8 := Nat.mod_lt _ (by norm_num)
          omega
        have hmem := getLastD_mem hpadne 'x'
        rw [List.eq_of_mem_replicate hmem]
        decide
      · split <;> · show pyIsSpace ((c :: ([] : Str)).getLastD 'x') = true
                    exact hw
    · have hwr : pyIsSpace (rest.getLastD 'x') = true := by
        rw [List.getLastD_cons, getLastD_default_irrel hrne c 'x'] at hw
        exact hw
      have hne2 : ∀ col2, expandTabsGo col2 rest ≠ [] := fun col2 =>
        expandTabsGo_ne_nil rest col2 hrne
      unfold expandTabsGo
      split
      · dsimp only
        rw [getLastD_append_right _ (hne2 _)]
        exact ih _ hrne hwr
      · split
        · rw [List.getLastD_cons, getLastD_default_irrel (hne2 0) c 'x']
          exact ih 0 hrne hwr
        · rw [List.getLastD_cons, getLastD_default_irrel (hne2 _) c 'x']
          exact ih _ hrne hwr

theorem expandTabsGo_append_noTab : ∀ (a : Str) (col : Nat) (b : Str),
    (∀ c ∈ b, c ≠ '\t') →
    expandTabsGo col (a ++ b) = expandTabsGo col a ++ b := by
  intro a
  induction a with
  | nil =>
    intro col b hb
    rw [List.nil_append, expandTabsGo_noTab b hb col]
    rfl
  | cons c a ih =>
    intro col b hb
    show expandTabsGo col (c :: (a ++ b)) = expandTabsGo col (c :: a) ++ b
    unfold expandTabsGo
    split
    · dsimp only
      rw [ih _ b hb, List.append_assoc]
    · split <;> rw [ih _ b hb] <;> rfl

theorem mungeChar_class (c : Char) : pyIsSpace (mungeChar c) = pyIsSpace c := by
  unfold mungeChar
  split
  · rename_i h
    simp only [Bool.or_eq_true, decide_eq_true_eq, or_assoc] at h
    rcases h with h | h | h | h | h <;> rw [h] <;> decide
  · rfl

theorem mungeChar_id_of_nonws {c : Char} (h : pyIsSpace c = false) :
    mungeChar c = c := by
  unfold mungeChar
  rw [if_neg]
  intro hc
  simp only [Bool.or_eq_true, decide_eq_true_eq, or_assoc] at hc
  rcases hc with h2 | h2 | h2 | h2 | h2 <;> rw [h2] at h <;> exact absurd h (by decide)

theorem getLastD_map (f : Char → Char) {l : Str} (h : l ≠ []) (d : Char) :
    (l.map f).getLastD d = f (l.getLastD d) := by
  rcases hrev : l.reverse with _ | ⟨x0, xr⟩
  · exact absurd (List.reverse_eq_nil_iff.mp hrev) h
  · have hrev2 : (l.map f).reverse = f x0 :: xr.map f := by
      rw [← List.map_reverse, hrev]
      rfl
    rw [getLastD_of_reverse hrev2 d, getLastD_of_reverse hrev d]

theorem map_id_of {f : Char → Char} : ∀ (l : Str), (∀ c ∈ l, f c = c) →
    l.map f = l := by
  intro l
  induction l with
  | nil => intro _; rfl
  | cons c r ih =>
    intro h
    rw [List.map_cons, h c (by simp), ih (fun d hd => h d (by simp [hd]))]

theorem rstripChars_of_ends_nonws {q : Str} (h : endsNonWs q) :
    rstripChars q = q := by
  obtain ⟨hne, hl⟩ := h
  unfold rstripChars
  rcases hrev : q.reverse with _ | ⟨x0, xr⟩
  · exact absurd (List.reverse_eq_nil_iff.mp hrev) hne
  · have hx0 : pyIsSpace x0 = false := by
      rw [← getLastD_of_reverse hrev ' ']
      exact hl
    rw [List.dropWhile_cons, hx0]
    simp only [Bool.false_eq_true, if_false]
    rw [← hrev, List.reverse_reverse]

/-- The str.strip of a string ending in non-whitespace: the right strip is a
no-op, the left strip keeps the last character and the "::" suffix test. -/
theorem lstrip_endsNonWs {p : Str} (h : endsNonWs p) :
    endsNonWs (lstripChars p) ∧
    endsWith (strL "::") (lstripChars p) = endsWith (strL "::") p ∧
    stripChars p = lstripChars p := by
  obtain ⟨hne, hl⟩ := h
  have hdec : p.takeWhile pyIsSpace ++ lstripChars p = p :=
    List.takeWhile_append_dropWhile _ _
  have hlne : lstripChars p ≠ [] := by
    intro hc
    rw [hc, List.append_nil] at hdec
    have hmem : p.getLastD ' ' ∈ p.takeWhile pyIsSpace := by
      rw [hdec]
      exact getLastD_mem hne ' '
    have := List.mem_takeWhile_imp hmem
    rw [this] at hl
    simp at hl
  have hglast : (lstripChars p).getLastD ' ' = p.getLastD ' ' := by
    conv_rhs => rw [← hdec]
    rw [getLastD_append_right _ hlne]
  have hX : p.takeWhile pyIsSpace = [] ∨
      pyIsSpace ((p.takeWhile pyIsSpace).getLastD 'x') = true := by
    by_cases hT : p.takeWhile pyIsSpace = []
    · exact Or.inl hT
    · exact Or.inr (List.mem_takeWhile_imp (getLastD_mem hT 'x'))
  have hENW : endsNonWs (lstripChars p) := ⟨hlne, by rw [hglast]; exact hl⟩
  refine ⟨hENW, ?_, ?_⟩
  · conv_rhs => rw [← hdec]
    rw [endsColons_append hX hlne]
  · unfold stripChars
    exact rstripChars_of_ends_nonws hENW

/-- The munged form of a string ending in non-whitespace splits into a
whitespace-or-empty prefix and the final non-whitespace run, which munging
leaves untouched; the "::" suffix test passes to that run. -/
theorem munge_decomp {u : Str} (h : endsNonWs u) :
    ∃ Y T, mungeWhitespace u = Y ++ T ∧ T ≠ [] ∧
      (∀ c ∈ T, pyIsSpace c = false) ∧
      (Y = [] ∨ pyIsSpace (Y.getLastD 'x') = true) ∧
      endsWith (strL "::") u = endsWith (strL "::") T := by
  obtain ⟨hne, hl⟩ := h
  have hsplit : u.reverse.takeWhile (fun c => !pyIsSpace c) ++
      u.reverse.dropWhile (fun c => !pyIsSpace c) = u.reverse :=
    List.takeWhile_append_dropWhile _ _
  have hu : u = (u.reverse.dropWhile (fun c => !pyIsSpace c)).reverse ++
      (u.reverse.takeWhile (fun c => !pyIsSpace c)).reverse := by
    conv_lhs => rw [← List.reverse_reverse u, ← hsplit]
    rw [List.reverse_append]
  have hTne : (u.reverse.takeWhile (fun c => !pyIsSpace c)).reverse ≠ [] := by
    rcases hrev : u.reverse with _ | ⟨x0, xr⟩
    · exact absurd (List.reverse_eq_nil_iff.mp hrev) hne
    · have hx0 : pyIsSpace x0 = false := by
        rw [← getLastD_of_reverse hrev ' ']
        exact hl
      rw [List.takeWhile_cons]
      simp [hx0]
  have hTns : ∀ c ∈ (u.reverse.takeWhile (fun c => !pyIsSpace c)).reverse,
      pyIsSpace c = false := by
    intro c hc
    have := List.mem_takeWhile_imp (List.mem_reverse.mp hc)
    simpa using this
  have hYws : (u.reverse.dropWhile (fun c => !pyIsSpace c)).reverse = [] ∨
      pyIsSpace (((u.reverse.dropWhile (fun c => !pyIsSpace c)).reverse).getLastD 'x')
        = true := by
    rcases hdw : u.reverse.dropWhile (fun c => !pyIsSpace c) with _ | ⟨x0, xr⟩
    · left
      rfl
    · right
      have hx0 : pyIsSpace x0 = true := by
        have := dropWhile_head_false _ u.reverse x0 xr hdw
        simpa using this
      have hrev2 : ((x0 :: xr).reverse).reverse = x0 :: xr :=
        List.reverse_reverse _
      rw [getLastD_of_reverse hrev2 'x']
      exact hx0
  refine ⟨(expandTabsGo 0 ((u.reverse.dropWhile (fun c => !pyIsSpace c)).reverse)).map
    mungeChar, (u.reverse.takeWhile (fun c => !pyIsSpace c)).reverse,
    ?_, hTne, hTns, ?_, ?_⟩
  · show (expandTabs u).map mungeChar = _
    unfold expandTabs
    conv_lhs => rw [hu]
    rw [expandTabsGo_append_noTab _ 0 _ (noTab_of_noSpace hTns)]
    rw [List.map_append, map_id_of _ (fun c hc => mungeChar_id_of_nonws (hTns c hc))]
  · by_cases hdnil : (u.reverse.dropWhile (fun c => !pyIsSpace c)).reverse = []
    · left
      rw [hdnil]
      rfl
    · rcases hYws with hY | hY
      · exact absurd hY hdnil
      · right
        have hexpne := expandTabsGo_ne_nil _ 0 hdnil
        have hexpws := expandTabsGo_ends_ws _ 0 hdnil hY
        rw [getLastD_map _ hexpne 'x', mungeChar_class]
        exact hexpws
  · conv_lhs => rw [hu]
    exact endsColons_append hYws hTne

theorem flatten_dropLast {C : List Str} (hne : C ≠ []) :
    C.flatten = C.dropLast.flatten ++ C.getLastD [] := by
  conv_lhs => rw [list_eq_dropLast_getLastD hne ([] : Str)]
  rw [List.flatten_append]
  simp

/-- In an alternating chunk list ending in a word chunk, everything before
the last chunk is empty or ends in whitespace. -/
theorem flatten_dropLast_ws {C : List Str} (halt : altChunks C) (hne : C ≠ [])
    (hlast : chunkClass (C.getLastD []) = false) :
    C.dropLast.flatten = [] ∨
      pyIsSpace (C.dropLast.flatten.getLastD 'x') = true := by
  by_cases hdl : C.dropLast = []
  · left
    rw [hdl]
    rfl
  · right
    have hdec := list_eq_dropLast_getLastD hne ([] : Str)
    have hP := list_eq_dropLast_getLastD hdl ([] : Str)
    have halt2 : altChunks (C.dropLast.dropLast ++
        [C.dropLast.getLastD [], C.getLastD []]) := by
      have hCPW : C = C.dropLast.dropLast ++
          [C.dropLast.getLastD [], C.getLastD []] := by
        conv_lhs => rw [hdec]
        conv_lhs => rw [hP]
        simp
      rw [← hCPW]
      exact halt
    obtain ⟨hcls, hPu, _⟩ := altChunks_pair halt2
    have hPws : chunkClass (C.dropLast.getLastD []) = true := by
      rcases Bool.eq_false_or_eq_true (chunkClass (C.dropLast.getLastD []))
        with hc | hc
      · exact hc
      · exfalso
        rw [hc, hlast] at hcls
        exact hcls rfl
    have hPne : C.dropLast.getLastD [] ≠ [] := hPu.1
    have hflat : C.dropLast.flatten =
        C.dropLast.dropLast.flatten ++ C.dropLast.getLastD [] := by
      conv_lhs => rw [hP]
      simp
    rw [hflat, getLastD_append_right _ hPne]
    have hmem := hPu.2 _ (getLastD_mem hPne 'x')
    rw [hmem, hPws]

theorem splitChunks_flatten (s : Str) : (splitChunks s).flatten = s := by
  unfold splitChunks
  exact splitChunksF_flatten _ _ (le_refl _)

theorem splitChunks_alt (s : Str) : altChunks (splitChunks s) := by
  unfold splitChunks
  exact altChunks_splitChunksF _ _ (le_refl _)

/-- Lemma B: one reflow pass (fill + rstrip, empty indents) preserves the
absence of trailing whitespace and whether the paragraph ends in "::". -/
theorem wrapOnce_ends_colons {p : Str} (h : p = [] ∨ endsNonWs p) :
    (wrapOnce [] [] p = [] ∨ endsNonWs (wrapOnce [] [] p)) ∧
    endsWith (strL "::") (wrapOnce [] [] p) = endsWith (strL "::") p := by
  rcases h with h | h
  · subst h
    exact ⟨Or.inl rfl, rfl⟩
  · obtain ⟨hENW, hucol, hstrip⟩ := lstrip_endsNonWs h
    set u := lstripChars p with hu
    obtain ⟨Y, T, hmg, hTne, hTns, hY, hTcol⟩ := munge_decomp hENW
    set C := splitChunks (mungeWhitespace u) with hC
    have hflatC : C.flatten = mungeWhitespace u := by
      rw [hC]
      exact splitChunks_flatten _
    have haltC : altChunks C := by
      rw [hC]
      exact splitChunks_alt _
    have hCne : C ≠ [] := by
      intro hc
      have hnil : ([] : Str) = Y ++ T := by
        rw [← hmg, ← hflatC, hc]
        rfl
      rcases List.append_eq_nil.mp hnil.symm with ⟨_, hT0⟩
      exact hTne hT0
    have hWu : uniformChunk (C.getLastD []) := altChunks_getLastD_uniform haltC hCne
    have hWne : C.getLastD [] ≠ [] := hWu.1
    have hfl : C.flatten = C.dropLast.flatten ++ C.getLastD [] := flatten_dropLast hCne
    have hlastW : pyIsSpace ((C.getLastD []).getLastD 'x') = false := by
      have h1 : (C.flatten).getLastD 'x' = (C.getLastD []).getLastD 'x' := by
        rw [hfl]
        exact getLastD_append_right _ hWne 'x'
      have h2 : (C.flatten).getLastD 'x' = T.getLastD 'x' := by
        rw [hflatC, hmg]
        exact getLastD_append_right _ hTne 'x'
      rw [← h1, h2]
      exact hTns _ (getLastD_mem hTne 'x')
    have hWclass : chunkClass (C.getLastD []) = false := by
      have := hWu.2 _ (getLastD_mem hWne 'x')
      rw [← this, hlastW]
    have hXws := flatten_dropLast_ws haltC hCne hWclass
    obtain ⟨pre, hpre, hprews⟩ :=
      wrapLoop_ends_last C.length C false (le_refl _) haltC hCne hWclass
    have hq0col : endsWith (strL "::")
        (joinSep (strL "\n") (wrapLoopF 76 [] [] C.length false C)) =
        endsWith (strL "::") p := by
      rw [hpre, endsColons_append hprews hWne]
      have hmu : endsWith (strL "::") (mungeWhitespace u) =
          endsWith (strL "::") (C.getLastD []) := by
        rw [← hflatC, hfl, endsColons_append hXws hWne]
      have hmu2 : endsWith (strL "::") (mungeWhitespace u) =
          endsWith (strL "::") T := by
        rw [hmg, endsColons_append hY hTne]
      rw [← hmu, hmu2, ← hTcol, hucol]
    have hq0nw : endsNonWs
        (joinSep (strL "\n") (wrapLoopF 76 [] [] C.length false C)) := by
      rw [hpre]
      refine ⟨?_, ?_⟩
      · intro hc
        rcases List.append_eq_nil.mp hc with ⟨_, h2⟩
        exact hWne h2
      rw [getLastD_append_right _ hWne ' ',
        getLastD_default_irrel hWne ' ' 'x']
      exact hlastW
    have hwo : wrapOnce [] [] p = rstripChars
        (joinSep (strL "\n") (wrapLoopF 76 [] [] C.length false C)) := by
      unfold wrapOnce pyWrap
      rw [hstrip, ← hC]
    rw [hwo, rstripChars_of_ends_nonws hq0nw]
    exact ⟨Or.inr hq0nw, hq0col⟩

/-- Every paragraph except possibly the last is empty or ends in a
non-whitespace character. -/
def paragraphsOK : List Str → Prop
  | [] => True
  | [_] => True
  | p :: q :: rest => (p = [] ∨ endsNonWs p) ∧ paragraphsOK (q :: rest)

/-- Modelled from the spec (amended): the reflow decision for a paragraph
depends only on that paragraph's own list marker and on whether the
immediately preceding raw paragraph ends in "::" — the suppression is not
sticky, and the "::" paragraph itself is reflowed unless its own
predecessor suppressed it. -/
def reflowSpecGo : Bool → List Str → List Str
  | _, [] => []
  | prevColons, p :: rest =>
    let d := prevColons || isListParagraph p
    let q := if d then p else wrapOnce [] [] (wrapOnce [] [] p)
    q :: reflowSpecGo (endsWith (strL "::") p) rest

/-- Modelled from the spec (amended): textwrap_body with empty indent,
with the per-paragraph reflow decision of reflowSpecGo. -/
def reflowSpec (body : Str) : Str :=
  let text := joinSep (strL "\n") ((splitOnChar '\n' body).map rstripChars)
  let paragraphs := splitNN text
  let paragraphs2 := reflowSpecGo false paragraphs
  let text2 := rstripChars (joinSep (strL "\n\n") paragraphs2)
  if endsWith (strL "\n") text2 then text2 else text2 ++ strL "\n"

theorem indentVerbatim_nil (p : Str) : indentVerbatim [] [] p = p := rfl

theorem tbGo_eq_reflowSpecGo : ∀ (ps : List Str) (b : Bool),
    paragraphsOK ps → tbGo [] b [] ps = reflowSpecGo b ps := by
  intro ps
  induction ps with
  | nil => intro b _; rfl
  | cons p rest ih =>
    intro b hOK
    unfold tbGo reflowSpecGo
    dsimp only
    rw [indentVerbatim_nil]
    rcases rest with _ | ⟨q, rest2⟩
    · rfl
    · obtain ⟨hp, hrest⟩ := hOK
      simp only [List.isEmpty_nil, if_true]
      cases hcond : b || isListParagraph p
      · have h1 := wrapOnce_ends_colons hp
        have h2 := wrapOnce_ends_colons h1.1
        simp only [Bool.false_eq_true, if_false]
        rw [h2.2, h1.2]
        exact congrArg _ (ih _ hrest)
      · exact congrArg _ (ih _ hrest)

theorem rstrip_nil_or_ends (q : Str) :
    rstripChars q = [] ∨ endsNonWs (rstripChars q) := by
  unfold rstripChars
  rcases hdw : q.reverse.dropWhile pyIsSpace with _ | ⟨x0, xr⟩
  · left
    rfl
  · right
    refine ⟨by simp, ?_⟩
    have hx0 := dropWhile_head_false pyIsSpace q.reverse x0 xr hdw
    have hrr : ((x0 :: xr).reverse).reverse = x0 :: xr := List.reverse_reverse _
    rw [getLastD_of_reverse hrr ' ']
    exact hx0

theorem rstrip_fixed_tail {c : Char} {l : Str} (h : rstripChars (c :: l) = c :: l) :
    rstripChars l = l := by
  by_cases hl : l = []
  · rw [hl]
    rfl
  · have hENW : endsNonWs (c :: l) := by
      rcases rstrip_nil_or_ends (c :: l) with h0 | h0
      · rw [h] at h0
        simp at h0
      · rw [h] at h0
        exact h0
    have hENW2 : endsNonWs l := by
      obtain ⟨_, hlast⟩ := hENW
      rw [List.getLastD_cons, getLastD_default_irrel hl c ' '] at hlast
      exact ⟨hl, hlast⟩
    exact rstripChars_of_ends_nonws hENW2

theorem rstrip_singleton_ws {c : Char} (h : pyIsSpace c = true) :
    rstripChars [c] = [] := by
  unfold rstripChars
  have h1 : ([c] : Str).reverse = [c] := rfl
  rw [h1, List.dropWhile_cons, if_pos h]
  rfl

theorem rstrip_subset {l : Str} : ∀ c ∈ rstripChars l, c ∈ l := by
  intro c hc
  unfold rstripChars at hc
  rw [List.mem_reverse] at hc
  have := (List.dropWhile_sublist pyIsSpace).subset hc
  rw [List.mem_reverse] at this
  exact this

theorem splitOnChar_mem_no_sep (sep : Char) : ∀ (s : Str),
    ∀ l ∈ splitOnChar sep s, ∀ c ∈ l, c ≠ sep := by
  intro s
  induction s with
  | nil =>
    intro l hl c hc
    simp only [splitOnChar, List.mem_singleton] at hl
    subst hl
    simp at hc
  | cons a rest ih =>
    intro l hl c hc
    unfold splitOnChar at hl
    by_cases ha : a = sep
    · rw [if_pos ha] at hl
      rcases List.mem_cons.mp hl with h | h
      · subst h
        simp at hc
      · exact ih l h c hc
    · rw [if_neg ha] at hl
      rcases hsp : splitOnChar sep rest with _ | ⟨r, rs⟩
      · exact absurd hsp (splitOnChar_ne_nil sep rest)
      · rw [hsp] at hl
        rcases List.mem_cons.mp hl with h | h
        · subst h
          rcases List.mem_cons.mp hc with h2 | h2
          · subst h2
            exact ha
          · exact ih r (by rw [hsp]; simp) c h2
        · exact ih l (by rw [hsp]; simp [h]) c hc

theorem splitOnChar_cons_sep (sep : Char) (rest : Str) :
    splitOnChar sep (sep :: rest) = [] :: splitOnChar sep rest := by
  conv_lhs => unfold splitOnChar
  rw [if_pos rfl]

theorem splitOnChar_cons_ne (sep c : Char) (rest : Str) (h : c ≠ sep) :
    ∃ r rs, splitOnChar sep rest = r :: rs ∧
      splitOnChar sep (c :: rest) = (c :: r) :: rs := by
  rcases hsp : splitOnChar sep rest with _ | ⟨r, rs⟩
  · exact absurd hsp (splitOnChar_ne_nil sep rest)
  · refine ⟨r, rs, rfl, ?_⟩
    conv_lhs => unfold splitOnChar
    rw [if_neg h, hsp]

theorem split_join_lines : ∀ (L : List Str), L ≠ [] →
    (∀ l ∈ L, ∀ c ∈ l, c ≠ '\n') →
    splitOnChar '\n' (joinSep (strL "\n") L) = L := by
  intro L
  induction L with
  | nil => intro h _; exact absurd rfl h
  | cons x rest ih =>
    intro _ hnc
    rcases rest with _ | ⟨y, rest2⟩
    · exact splitOnChar_no_sep '\n' x (hnc x (by simp))
    · rw [joinSep_cons_of_ne _ _ _ (by simp)]
      have hshape : x ++ strL "\n" ++ joinSep (strL "\n") (y :: rest2) =
          x ++ '\n' :: joinSep (strL "\n") (y :: rest2) := by
        simp [strL]
      rw [hshape, splitOnChar_sep_free_head '\n' x _ (hnc x (by simp))]
      rw [ih (by simp) (fun l hl => hnc l (by simp [hl]))]

theorem splitNN_ne_nil : ∀ t, splitNN t ≠ [] := by
  intro t
  unfold splitNN
  split
  · simp
  · simp
  · split <;> simp

theorem splitNN_head_nil {t : Str} {rs : List Str} (h : splitNN t = [] :: rs)
    (hrs : rs ≠ []) : ∃ t2, t = '\n' :: '\n' :: t2 := by
  unfold splitNN at h
  split at h
  · rw [List.cons.injEq] at h
    exact absurd h.2.symm hrs
  · rename_i t2
    exact ⟨t2, rfl⟩
  · split at h
    · rw [List.cons.injEq] at h
      exact absurd h.1 (by simp)
    · rw [List.cons.injEq] at h
      exact absurd h.1 (by simp)

theorem splitNN_cons {c : Char} {rest : Str}
    (h : ¬ (c = '\n' ∧ ∃ rest2, rest = '\n' :: rest2)) :
    ∃ r rs, splitNN rest = r :: rs ∧ splitNN (c :: rest) = (c :: r) :: rs := by
  rcases hsp : splitNN rest with _ | ⟨r, rs⟩
  · exact absurd hsp (splitNN_ne_nil rest)
  · refine ⟨r, rs, rfl, ?_⟩
    conv_lhs => unfold splitNN
    split
    all_goals rename_i heq
    all_goals first
    | exact List.noConfusion heq
    | (rw [List.cons.injEq] at heq
       obtain ⟨hc, hr⟩ := heq
       subst hc
       subst hr
       rw [hsp])
    | (rw [List.cons.injEq] at heq
       exact absurd ⟨heq.1, ⟨_, heq.2⟩⟩ h)

/-- Every line of the text (str.split on newline) is unchanged by rstrip:
the invariant step 1 of textwrap_body establishes. -/
def linesRstripped (t : Str) : Prop :=
  ∀ l ∈ splitOnChar '\n' t, rstripChars l = l

theorem linesRstripped_sep {t : Str} (h : linesRstripped ('\n' :: t)) :
    linesRstripped t := by
  intro l hl
  exact h l (by rw [splitOnChar_cons_sep]; simp [hl])

theorem linesRstripped_cons {c : Char} {t : Str} (hc : c ≠ '\n')
    (h : linesRstripped (c :: t)) : linesRstripped t := by
  obtain ⟨r, rs, hsp, heq⟩ := splitOnChar_cons_ne '\n' c t hc
  intro l hl
  rw [hsp] at hl
  rcases List.mem_cons.mp hl with h1 | h1
  · subst h1
    have hfix := h (c :: l) (by rw [heq]; simp)
    exact rstrip_fixed_tail hfix
  · exact h l (by rw [heq]; simp [h1])

/-- If every line of the text is right-stripped, then every paragraph of
the blank-line split except possibly the last is empty or ends in a
non-whitespace character. -/
theorem paragraphsOK_splitNN : ∀ (n : Nat) (t : Str), t.length ≤ n →
    linesRstripped t → paragraphsOK (splitNN t) := by
  intro n
  induction n using Nat.strong_induction_on with
  | _ n ih =>
    intro t hlen hlr
    rcases t with _ | ⟨c, rest⟩
    · exact trivial
    by_cases hnn : c = '\n' ∧ ∃ rest2, rest = '\n' :: rest2
    · obtain ⟨hc, rest2, hr⟩ := hnn
      subst hc
      subst hr
      rw [show splitNN ('\n' :: '\n' :: rest2) = [] :: splitNN rest2 from rfl]
      have hlr2 : linesRstripped rest2 := linesRstripped_sep (linesRstripped_sep hlr)
      have hIH : paragraphsOK (splitNN rest2) := by
        refine ih rest2.length ?_ rest2 (le_refl _) hlr2
        simp only [List.length_cons] at hlen
        omega
      rcases hS : splitNN rest2 with _ | ⟨s0, srest⟩
      · exact absurd hS (splitNN_ne_nil rest2)
      · rw [hS] at hIH
        exact ⟨Or.inl rfl, hIH⟩
    · obtain ⟨r, rs, hsp, heq⟩ := splitNN_cons hnn
      rw [heq]
      have hlrrest : linesRstripped rest := by
        by_cases hc : c = '\n'
        · subst hc
          exact linesRstripped_sep hlr
        · exact linesRstripped_cons hc hlr
      have hIH : paragraphsOK (splitNN rest) := by
        refine ih rest.length ?_ rest (le_refl _) hlrrest
        simp only [List.length_cons] at hlen
        omega
      rw [hsp] at hIH
      rcases rs with _ | ⟨s0, rs2⟩
      · exact trivial
      · refine ⟨?_, hIH.2⟩
        right
        rcases hrr : r with _ | ⟨r0, rrest⟩
        · rw [hrr] at hsp
          obtain ⟨t2, ht2⟩ := splitNN_head_nil hsp (by simp)
          have hcnl : c ≠ '\n' := by
            intro hcc
            exact hnn ⟨hcc, ⟨'\n' :: t2, ht2⟩⟩
          obtain ⟨r0', rs0, hsp0, heq0⟩ := splitOnChar_cons_ne '\n' c rest hcnl
          have hr0 : r0' = [] := by
            rw [ht2, splitOnChar_cons_sep] at hsp0
            rw [List.cons.injEq] at hsp0
            exact hsp0.1.symm
          have hline : rstripChars [c] = [c] := by
            refine hlr [c] ?_
            rw [heq0, hr0]
            simp
          have hcw : pyIsSpace c = false := by
            rcases Bool.eq_false_or_eq_true (pyIsSpace c) with hb | hb
            · rw [rstrip_singleton_ws hb] at hline
              exact absurd hline (by simp)
            · exact hb
          exact ⟨by simp, by show pyIsSpace c = false; exact hcw⟩
        · rcases hIH.1 with h1 | h1
          · rw [hrr] at h1
            exact absurd h1 (by simp)
          · obtain ⟨hne1, hl1⟩ := h1
            rw [hrr] at hl1
            refine ⟨by simp, ?_⟩
            rw [List.getLastD_cons, getLastD_default_irrel (by simp) c ' ']
            exact hl1

theorem textwrap_paragraphsOK (body : Str) :
    paragraphsOK (splitNN (joinSep (strL "\n")
      ((splitOnChar '\n' body).map rstripChars))) := by
  have hLne : (splitOnChar '\n' body).map rstripChars ≠ [] := by
    intro hc
    rw [List.map_eq_nil_iff] at hc
    exact splitOnChar_ne_nil '\n' body hc
  have hnc : ∀ l ∈ (splitOnChar '\n' body).map rstripChars, ∀ c ∈ l, c ≠ '\n' := by
    intro l hl c hc
    rcases List.mem_map.mp hl with ⟨l0, hl0, hmap⟩
    subst hmap
    exact splitOnChar_mem_no_sep '\n' body l0 hl0 c (rstrip_subset c hc)
  have hlr : linesRstripped (joinSep (strL "\n")
      ((splitOnChar '\n' body).map rstripChars)) := by
    intro l hl
    rw [split_join_lines _ hLne hnc] at hl
    rcases List.mem_map.mp hl with ⟨l0, _, hmap⟩
    subst hmap
    rcases rstrip_nil_or_ends l0 with h0 | h0
    · rw [h0]
      rfl
    · exact rstripChars_of_ends_nonws h0
  exact paragraphsOK_splitNN _ _ (le_refl _) hlr

/-- C4 amended: in textwrap_body with empty indent, reflow suppression is
not sticky: a paragraph is passed through verbatim exactly when it starts
with a list marker or the immediately preceding raw paragraph ends with
"::"; every other paragraph (including a "::"-ending one whose predecessor
does not end with "::") is reflowed twice.  Stated as equality with the
per-paragraph decision machine reflowSpec. -/
theorem C4_reflow_decision_per_paragraph (body : Str) :
    textwrap_body [] body = reflowSpec body := by
  unfold textwrap_body reflowSpec
  dsimp only
  rw [tbGo_eq_reflowSpecGo _ false (textwrap_paragraphsOK body)]

set_option maxRecDepth 10000 in
/-- Counterexample to C4 as stated: after the list paragraph the next
prose paragraph is reflowed rather than passed through verbatim, and a
paragraph ending in "::" is itself reflowed (its internal newline is
collapsed), contradicting the sticky-suppression reading. -/
theorem C4_suppression_not_sticky :
    textwrap_body [] (strL "* a\n\nb\nc") = strL "* a\n\nb c\n" ∧
    textwrap_body [] (strL "* a\n\nb\nc") ≠ strL "* a\n\nb\nc\n" ∧
    textwrap_body [] (strL "x\ny::\n\nz") = strL "x y::\n\nz\n" := by
  refine ⟨?_, ?_, ?_⟩ <;> decide
/-! ## Single-spaced chunk lists: the stable inputs of the greedy wrapper -/

/-- A chunk list of the form word (space word)*: nonempty whitespace-free
words separated by single-space chunks, possibly empty. -/
def ssAlt : List Str → Prop
  | [] => True
  | [w] => w ≠ [] ∧ noSpace w
  | w :: s :: rest => w ≠ [] ∧ noSpace w ∧ s = strL " " ∧ rest ≠ [] ∧ ssAlt rest

theorem ssAlt_head_word {w : Str} {rest : List Str} (h : ssAlt (w :: rest)) :
    w ≠ [] ∧ noSpace w := by
  cases rest with
  | nil => exact h
  | cons s r => exact ⟨h.1, h.2.1⟩

theorem ssAlt_cons_cons {w s : Str} {rest : List Str}
    (h : ssAlt (w :: s :: rest)) :
    s = strL " " ∧ rest ≠ [] ∧ ssAlt rest := ⟨h.2.2.1, h.2.2.2.1, h.2.2.2.2⟩

theorem isWsChunk_space : isWsChunk (strL " ") = true := by decide

theorem isWsChunk_word {w : Str} (hne : w ≠ []) (hns : noSpace w) :
    isWsChunk w = false := by
  unfold isWsChunk
  rw [stripChars_of_no_space w hns]
  simpa using hne

theorem word_uniform {w : Str} (hne : w ≠ []) (hns : noSpace w) :
    uniformChunk w ∧ chunkClass w = false := by
  have hcls : chunkClass w = false := by
    unfold chunkClass
    rcases hw : w with _ | ⟨w0, wr⟩
    · exact absurd hw hne
    · rw [List.headD_cons]
      exact hns w0 (by rw [hw]; simp)
  refine ⟨⟨hne, ?_⟩, hcls⟩
  intro d hd
  rw [hns d hd, hcls]

theorem space_uniform : uniformChunk (strL " ") ∧ chunkClass (strL " ") = true := by
  constructor
  · refine ⟨by decide, ?_⟩
    intro d hd
    have : d = ' ' := by
      rcases List.mem_singleton.mp hd
      rfl
    rw [this]
    decide
  · decide

theorem ssAlt_last_word_f : ∀ (n : Nat) (C : List Str), C.length ≤ n →
    ssAlt C → C ≠ [] →
    (C.getLastD []) ≠ [] ∧ noSpace (C.getLastD []) := by
  intro n
  induction n using Nat.strong_induction_on with
  | _ n ih =>
    intro C hlen hss hne
    rcases C with _ | ⟨w, rest⟩
    · exact absurd rfl hne
    rcases rest with _ | ⟨s, rest2⟩
    · exact hss
    · obtain ⟨hs, hr2, hss2⟩ := ssAlt_cons_cons hss
      have hlast : (w :: s :: rest2).getLastD [] = rest2.getLastD [] := by
        rw [List.getLastD_cons, List.getLastD_cons,
          getLastD_default_irrel hr2 s []]
      rw [hlast]
      simp only [List.length_cons] at hlen
      exact ih (n - 2) (by omega) rest2 (by omega) hss2 hr2

theorem ssAlt_last_word {C : List Str} (hss : ssAlt C) (hne : C ≠ []) :
    (C.getLastD []) ≠ [] ∧ noSpace (C.getLastD []) :=
  ssAlt_last_word_f C.length C (le_refl _) hss hne

theorem ssAlt_altChunks_f : ∀ (n : Nat) (C : List Str), C.length ≤ n →
    ssAlt C → altChunks C ∧ ∀ c ∈ C, c ≠ [] := by
  intro n
  induction n using Nat.strong_induction_on with
  | _ n ih =>
    intro C hlen hss
    rcases C with _ | ⟨w, rest⟩
    · exact ⟨trivial, by simp⟩
    rcases rest with _ | ⟨s, rest2⟩
    · obtain ⟨hwne, hwns⟩ := hss
      obtain ⟨hu, _⟩ := word_uniform hwne hwns
      exact ⟨hu, by simpa using hwne⟩
    · obtain ⟨hwne, hwns⟩ := ssAlt_head_word hss
      obtain ⟨hs, hr2, hss2⟩ := ssAlt_cons_cons hss
      obtain ⟨hu, hcls⟩ := word_uniform hwne hwns
      simp only [List.length_cons] at hlen
      obtain ⟨halt2, hne2⟩ := ih (n - 2) (by omega) rest2 (by omega) hss2
      rcases hr : rest2 with _ | ⟨r0, r2t⟩
      · exact absurd hr hr2
      rw [hr] at hss2 halt2 hne2
      obtain ⟨hr0ne, hr0ns⟩ := ssAlt_head_word hss2
      obtain ⟨hur0, hclsr0⟩ := word_uniform hr0ne hr0ns
      subst hs
      refine ⟨⟨hu, ?_, ?_⟩, ?_⟩
      · rw [hcls, space_uniform.2]
        simp
      · refine ⟨space_uniform.1, ?_, halt2⟩
        rw [space_uniform.2, hclsr0]
        simp
      · intro c hc
        rcases List.mem_cons.mp hc with h1 | h1
        · rw [h1]
          exact hwne
        rcases List.mem_cons.mp h1 with h2 | h2
        · rw [h2]
          decide
        · exact hne2 c h2

theorem ssAlt_altChunks {C : List Str} (hss : ssAlt C) :
    altChunks C ∧ ∀ c ∈ C, c ≠ [] :=
  ssAlt_altChunks_f C.length C (le_refl _) hss

theorem ssAlt_flatten_chars_f : ∀ (n : Nat) (C : List Str), C.length ≤ n →
    ssAlt C → ∀ c ∈ C.flatten, pyIsSpace c = false ∨ c = ' ' := by
  intro n
  induction n using Nat.strong_induction_on with
  | _ n ih =>
    intro C hlen hss c hc
    rcases C with _ | ⟨w, rest⟩
    · simp at hc
    rcases rest with _ | ⟨s, rest2⟩
    · obtain ⟨hwne, hwns⟩ := hss
      simp only [List.flatten_cons, List.flatten_nil, List.append_nil] at hc
      exact Or.inl (hwns c hc)
    · obtain ⟨hwne, hwns⟩ := ssAlt_head_word hss
      obtain ⟨hs, hr2, hss2⟩ := ssAlt_cons_cons hss
      simp only [List.flatten_cons, List.mem_append] at hc
      rcases hc with hc | hc | hc
      · exact Or.inl (hwns c hc)
      · right
        rw [hs] at hc
        have hc2 : c ∈ ([' '] : Str) := hc
        exact List.mem_singleton.mp hc2
      · simp only [List.length_cons] at hlen
        exact ih (n - 2) (by omega) rest2 (by omega) hss2 c hc

theorem ssAlt_flatten_chars {C : List Str} (hss : ssAlt C) :
    ∀ c ∈ C.flatten, pyIsSpace c = false ∨ c = ' ' :=
  ssAlt_flatten_chars_f C.length C (le_refl _) hss

theorem headD_append {x y : Str} (hx : x ≠ []) (d : Char) :
    (x ++ y).headD d = x.headD d := by
  rcases x with _ | ⟨a, r⟩
  · exact absurd rfl hx
  · rfl

theorem ssAlt_flatten_ne {C : List Str} (hss : ssAlt C) (hne : C ≠ []) :
    C.flatten ≠ [] := by
  rcases C with _ | ⟨w, rest⟩
  · exact absurd rfl hne
  · obtain ⟨hwne, _⟩ := ssAlt_head_word hss
    rw [List.flatten_cons]
    intro hc
    rcases List.append_eq_nil.mp hc with ⟨h1, _⟩
    exact hwne h1

theorem ssAlt_flatten_head {C : List Str} (hss : ssAlt C) (hne : C ≠ []) :
    pyIsSpace (C.flatten.headD 'x') = false := by
  rcases C with _ | ⟨w, rest⟩
  · exact absurd rfl hne
  · obtain ⟨hwne, hwns⟩ := ssAlt_head_word hss
    rw [List.flatten_cons, headD_append hwne]
    rcases hw : w with _ | ⟨w0, wr⟩
    · exact absurd hw hwne
    · rw [List.headD_cons]
      exact hwns w0 (by rw [hw]; simp)

theorem ssAlt_flatten_last {C : List Str} (hss : ssAlt C) (hne : C ≠ []) :
    pyIsSpace (C.flatten.getLastD 'x') = false := by
  obtain ⟨hlne, hlns⟩ := ssAlt_last_word hss hne
  rw [flatten_dropLast hne, getLastD_append_right _ hlne]
  exact hlns _ (getLastD_mem hlne 'x')

theorem takeWhile_all_append (p : Char → Bool) : ∀ (x y : Str),
    (∀ a ∈ x, p a = true) → (x ++ y).takeWhile p = x ++ y.takeWhile p := by
  intro x
  induction x with
  | nil => intro y _; rfl
  | cons a r ih =>
    intro y h
    rw [List.cons_append, List.takeWhile_cons, if_pos (h a (by simp))]
    rw [ih y (fun b hb => h b (by simp [hb]))]
    rfl

theorem dropWhile_all_append (p : Char → Bool) : ∀ (x y : Str),
    (∀ a ∈ x, p a = true) → (x ++ y).dropWhile p = y.dropWhile p := by
  intro x
  induction x with
  | nil => intro y _; rfl
  | cons a r ih =>
    intro y h
    rw [List.cons_append, List.dropWhile_cons, if_pos (h a (by simp))]
    exact ih y (fun b hb => h b (by simp [hb]))

/-- Re-splitting the flattened text of an alternating chunk list with
nonempty chunks recovers exactly the chunks. -/
theorem splitChunksF_flatten_id : ∀ (C : List Str), altChunks C →
    (∀ c ∈ C, c ≠ []) →
    ∀ fuel, C.flatten.length ≤ fuel → splitChunksF fuel C.flatten = C := by
  intro C
  induction C with
  | nil =>
    intro _ _ fuel _
    cases fuel <;> rfl
  | cons c r ih =>
    intro halt hcne fuel hfuel
    have hcne0 : c ≠ [] := hcne c (by simp)
    rcases hc : c with _ | ⟨c0, ct⟩
    · exact absurd hc hcne0
    rw [hc] at halt hcne hfuel
    have hu : uniformChunk (c0 :: ct) := altChunks_head halt
    have hcls : pyIsSpace c0 = chunkClass (c0 :: ct) := hu.2 c0 (by simp)
    have hsame : ∀ a ∈ ct, (pyIsSpace a == pyIsSpace c0) = true := by
      intro a ha
      rw [hu.2 a (by simp [ha]), hcls]
      simp
    have hflat : ((c0 :: ct) :: r).flatten = c0 :: (ct ++ r.flatten) := by
      simp
    rw [hflat] at hfuel ⊢
    cases fuel with
    | zero => simp at hfuel
    | succ m =>
      have hlenr : r.flatten.length ≤ m := by
        simp only [List.length_cons, List.length_append] at hfuel ⊢
        omega
      rw [splitChunksF_cons (m + 1) c0 (ct ++ r.flatten)
        (by simp only [List.length_cons, List.length_append] at hfuel ⊢; omega)]
      have htw0 : (r.flatten).takeWhile (fun d => pyIsSpace d == pyIsSpace c0) = []
          ∧ (r.flatten).dropWhile (fun d => pyIsSpace d == pyIsSpace c0) =
            r.flatten := by
        rcases r with _ | ⟨c2, r2⟩
        · exact ⟨rfl, rfl⟩
        · have hc2ne : c2 ≠ [] := hcne c2 (by simp)
          rcases hc2 : c2 with _ | ⟨d0, dt⟩
          · exact absurd hc2 hc2ne
          rw [hc2] at halt hcne
          have hu2 : uniformChunk (d0 :: dt) := altChunks_head (altChunks_tail halt)
          have hcls2 : pyIsSpace d0 = chunkClass (d0 :: dt) := hu2.2 d0 (by simp)
          have hdiff : chunkClass (c0 :: ct) ≠ chunkClass (d0 :: dt) := halt.2.1
          have hd0 : (pyIsSpace d0 == pyIsSpace c0) = false := by
            rw [hcls, hcls2]
            rcases Bool.eq_false_or_eq_true (chunkClass (c0 :: ct)) with h1 | h1 <;>
              rcases Bool.eq_false_or_eq_true (chunkClass (d0 :: dt)) with h2 | h2 <;>
              rw [h1, h2] <;> first
              | rfl
              | (exfalso; rw [h1, h2] at hdiff; exact hdiff rfl)
          have hflat2 : ((d0 :: dt) :: r2).flatten = d0 :: (dt ++ r2.flatten) := by
            simp
          rw [hflat2, List.takeWhile_cons, List.dropWhile_cons, hd0]
          exact ⟨by simp, by simp⟩
      rw [takeWhile_all_append _ _ _ hsame, dropWhile_all_append _ _ _ hsame,
        htw0.1, htw0.2, List.append_nil]
      show (c0 :: ct) :: splitChunksF m r.flatten = (c0 :: ct) :: r
      rw [ih (altChunks_tail halt) (fun x hx => hcne x (by simp [hx])) m hlenr]

/-- Splitting an ssAlt chunk list at a whitespace chunk leaves ssAlt parts
on both sides; splitting at a word chunk leaves the left part ending in
the separating space chunk. -/
theorem ssAlt_split_f : ∀ (n : Nat) (T R : List Str), T.length ≤ n →
    ssAlt (T ++ R) → R ≠ [] →
    (isWsChunk (R.headD []) = true →
      R.headD [] = strL " " ∧ ssAlt T ∧ T ≠ [] ∧ R.tail ≠ [] ∧ ssAlt R.tail) ∧
    (isWsChunk (R.headD []) = false →
      ssAlt R ∧ (T = [] ∨ (T.getLastD [] = strL " " ∧ T.dropLast ≠ [] ∧
        ssAlt T.dropLast))) := by
  intro n
  induction n using Nat.strong_induction_on with
  | _ n ih =>
    intro T R hlen hss hRne
    rcases R with _ | ⟨r0, rt⟩
    · exact absurd rfl hRne
    rcases T with _ | ⟨w, T1⟩
    · rw [List.nil_append] at hss
      obtain ⟨hr0ne, hr0ns⟩ := ssAlt_head_word hss
      constructor
      · intro hws
        rw [List.headD_cons, isWsChunk_word hr0ne hr0ns] at hws
        exact absurd hws (by simp)
      · intro _
        exact ⟨hss, Or.inl rfl⟩
    rcases T1 with _ | ⟨s, T2⟩
    · rw [List.cons_append, List.nil_append] at hss
      obtain ⟨hwne, hwns⟩ := ssAlt_head_word hss
      obtain ⟨hr0, hrt, hssrt⟩ := ssAlt_cons_cons hss
      constructor
      · intro _
        exact ⟨hr0, ⟨hwne, hwns⟩, by simp, hrt, hssrt⟩
      · intro hwd
        rw [List.headD_cons, hr0, isWsChunk_space] at hwd
        exact absurd hwd (by simp)
    · rw [List.cons_append, List.cons_append] at hss
      obtain ⟨hwne, hwns⟩ := ssAlt_head_word hss
      obtain ⟨hs, hT2Rne, hssT2R⟩ := ssAlt_cons_cons hss
      simp only [List.length_cons] at hlen
      obtain ⟨ihws, ihwd⟩ := ih (n - 2) (by omega) T2 (r0 :: rt) (by omega)
        hssT2R (by simp)
      constructor
      · intro hws
        obtain ⟨hr0, hssT2, hT2ne, htl, hsstl⟩ := ihws hws
        refine ⟨hr0, ?_, by simp, htl, hsstl⟩
        exact ⟨hwne, hwns, hs, hT2ne, hssT2⟩
      · intro hwd
        obtain ⟨hssR, hT2part⟩ := ihwd hwd
        refine ⟨hssR, Or.inr ?_⟩
        rcases hT2part with hT2nil | ⟨hT2last, hT2dl, hT2ss⟩
        · subst hT2nil
          subst hs
          refine ⟨?_, by simp, ⟨hwne, hwns⟩⟩
          rw [List.getLastD_cons, List.getLastD_cons]
          rfl
        · have hT2ne : T2 ≠ [] := by
            intro hc
            rw [hc] at hT2dl
            exact hT2dl rfl
          rcases hT2 : T2 with _ | ⟨t0, T3⟩
          · exact absurd hT2 hT2ne
          rw [hT2] at hT2last hT2dl hT2ss
          refine ⟨?_, ?_, ?_⟩
          · rw [List.getLastD_cons, List.getLastD_cons,
              getLastD_default_irrel (by simp) s ([] : Str)]
            exact hT2last
          · simp
          · show ssAlt (w :: s :: (t0 :: T3).dropLast)
            refine ⟨hwne, hwns, hs, hT2dl, hT2ss⟩

theorem dropTrailingWsChunk_of_ws {l : List Str} (hne : l ≠ [])
    (hw : isWsChunk (l.getLastD []) = true) :
    dropTrailingWsChunk l = l.dropLast := by
  unfold dropTrailingWsChunk
  rw [List.getLastD_eq_getLast?] at hw
  rcases hl : l.getLast? with _ | ⟨c⟩
  · rw [List.getLast?_eq_none_iff] at hl
    exact absurd hl hne
  · rw [hl] at hw
    simp only [Option.getD_some] at hw
    dsimp only
    rw [hw]
    simp

/-- One fill step on a single-spaced chunk list: the emitted line is the
flattening of an ssAlt prefix, and the remainder is (after the separating
space) again single-spaced. -/
theorem fill_ss {C : List Str} (hss : ssAlt C) (hne : C ≠ []) :
    ∃ tk rest2, wrapFill 76 [] C = (some tk.flatten, rest2) ∧
      ssAlt tk ∧ tk ≠ [] ∧
      ((rest2 = [] ∧ C.flatten = tk.flatten) ∨
       (∃ D, ssAlt D ∧ D ≠ [] ∧ (rest2 = strL " " :: D ∨ rest2 = D) ∧
         C.flatten = tk.flatten ++ ' ' :: D.flatten ∧
         rest2.length + 1 ≤ C.length)) := by
  rcases hg : greedyTake 76 0 C with ⟨t1, t2⟩
  have happ : t1 ++ t2 = C := by
    have := greedyTake_append 76 0 C
    rw [hg] at this
    exact this
  unfold wrapFill
  rw [hg]
  dsimp only
  rcases t2 with _ | ⟨e, rest⟩
  · rw [List.append_nil] at happ
    subst happ
    obtain ⟨hlne, hlns⟩ := ssAlt_last_word hss hne
    have hdt : dropTrailingWsChunk t1 = t1 :=
      dropTrailingWsChunk_of_word hne (by
        rw [isWsChunk_word hlne hlns])
    rw [hdt, if_neg (by simpa using hne)]
    refine ⟨t1, [], ?_, hss, hne, Or.inl ⟨rfl, rfl⟩⟩
    rw [List.nil_append]
  · dsimp only
    have hCsplit : C = t1 ++ e :: rest := happ.symm
    by_cases hlong : (decide (e.length > 76) && t1.isEmpty) = true
    · have ht1 : t1 = [] := by
        have := (Bool.and_eq_true _ _).mp hlong
        simpa using this.2
      subst ht1
      rw [List.nil_append] at hCsplit
      rw [if_pos hlong]
      obtain ⟨hene, hens⟩ := by
        rw [hCsplit] at hss
        exact ssAlt_head_word hss
      have hdt : dropTrailingWsChunk ([] ++ [e]) = [e] :=
        dropTrailingWsChunk_of_word (by simp) (by
          rw [show ([] ++ [e] : List Str).getLastD [] = e from rfl,
            isWsChunk_word hene hens])
      rw [hdt, if_neg (by simp)]
      refine ⟨[e], rest, by rw [List.nil_append], ⟨hene, hens⟩, by simp, ?_⟩
      rcases hrest : rest with _ | ⟨r0, rt⟩
      · left
        refine ⟨rfl, ?_⟩
        rw [hCsplit, hrest]
      · right
        rw [hCsplit, hrest] at hss
        obtain ⟨hr0, hrt, hssrt⟩ := ssAlt_cons_cons hss
        refine ⟨rt, hssrt, hrt, Or.inl (by rw [hr0]), ?_, ?_⟩
        · rw [hCsplit, hrest, hr0]
          simp [strL]
        · rw [hCsplit, hrest]
          simp
    · rw [if_neg hlong]
      have ht1ne : t1 ≠ [] := by
        intro hx
        subst hx
        rw [Bool.and_eq_true] at hlong
        push_neg at hlong
        have hclen : ¬ (decide (e.length > 76) = true) := by
          intro hdl
          exact hlong hdl rfl
        rw [decide_eq_true_eq] at hclen
        push_neg at hclen
        rw [List.nil_append] at hCsplit
        rw [hCsplit] at hg
        unfold greedyTake at hg
        rw [if_pos (by omega : 0 + e.length ≤ 76)] at hg
        simp at hg
      rw [hCsplit] at hss
      obtain ⟨hws, hwd⟩ := ssAlt_split_f t1.length t1 (e :: rest) (le_refl _)
        hss (by simp)
      by_cases hecls : isWsChunk e = true
      · obtain ⟨hr0, hssT, hTne, htl, hsstl⟩ := hws (by simpa using hecls)
        obtain ⟨hlne, hlns⟩ := ssAlt_last_word hssT hTne
        have hdt : dropTrailingWsChunk t1 = t1 :=
          dropTrailingWsChunk_of_word hTne (by rw [isWsChunk_word hlne hlns])
        rw [hdt, if_neg (by simpa using hTne)]
        simp only [List.headD_cons] at hr0
        simp only [List.tail_cons] at htl hsstl
        refine ⟨t1, e :: rest, by rw [List.nil_append], hssT, hTne, Or.inr ?_⟩
        refine ⟨rest, hsstl, htl, Or.inl (by rw [hr0]), ?_, ?_⟩
        · rw [hCsplit, hr0]
          simp [strL]
        · have h1 : 1 ≤ t1.length := List.length_pos.mpr hTne
          rw [hCsplit]
          simp only [List.length_cons, List.length_append]
          omega
      · have hecls2 : isWsChunk ((e :: rest).headD []) = false := by
          simpa using hecls
        obtain ⟨hssR, hTpart⟩ := hwd hecls2
        rcases hTpart with hTnil | ⟨hTlast, hTdl, hTss⟩
        · exact absurd hTnil ht1ne
        · have hdt : dropTrailingWsChunk t1 = t1.dropLast :=
            dropTrailingWsChunk_of_ws ht1ne (by rw [hTlast]; exact isWsChunk_space)
          rw [hdt, if_neg (by simpa using hTdl)]
          refine ⟨t1.dropLast, e :: rest, by rw [List.nil_append], hTss, hTdl,
            Or.inr ?_⟩
          refine ⟨e :: rest, hssR, by simp, Or.inr rfl, ?_, ?_⟩
          · rw [hCsplit, List.flatten_append]
            rw [flatten_dropLast ht1ne, hTlast]
            simp [strL]
          · have h2 : 2 ≤ t1.length := by
              have := List.length_dropLast t1
              have h1 : 1 ≤ t1.dropLast.length := List.length_pos.mpr hTdl
              omega
            rw [hCsplit]
            simp only [List.length_cons, List.length_append]
            omega

def lineOK (l : Str) : Prop :=
  l ≠ [] ∧ pyIsSpace (l.headD 'x') = false ∧ pyIsSpace (l.getLastD 'x') = false ∧
  ∀ c ∈ l, pyIsSpace c = false ∨ c = ' '

theorem line_of_ssAlt {tk : List Str} (hss : ssAlt tk) (hne : tk ≠ []) :
    lineOK tk.flatten :=
  ⟨ssAlt_flatten_ne hss hne, ssAlt_flatten_head hss hne,
    ssAlt_flatten_last hss hne, ssAlt_flatten_chars hss⟩

theorem lineOK_munge_id {l : Str} (h : lineOK l) : l.map mungeChar = l := by
  refine map_id_of l ?_
  intro c hc
  rcases h.2.2.2 c hc with hcw | hcw
  · exact mungeChar_id_of_nonws hcw
  · rw [hcw]
    rfl

theorem word_ne_space {w : Str} (hns : noSpace w) : w ≠ strL " " := by
  intro hc
  have := hns ' ' (by rw [hc]; exact List.mem_singleton.mpr rfl)
  exact absurd this (by decide)

/-- The whitespace-or-word content of a possibly space-headed chunk list. -/
def ssFlat : List Str → Str
  | [] => []
  | c :: rest => if c = strL " " then rest.flatten else (c :: rest).flatten

theorem ssFlat_sp (C2 : List Str) : ssFlat (strL " " :: C2) = C2.flatten := by
  show (if strL " " = strL " " then C2.flatten else (strL " " :: C2).flatten) =
    C2.flatten
  rw [if_pos rfl]

theorem ssFlat_word {w : Str} {rest : List Str} (hns : noSpace w) :
    ssFlat (w :: rest) = (w :: rest).flatten := by
  show (if w = strL " " then rest.flatten else (w :: rest).flatten) =
    (w :: rest).flatten
  rw [if_neg (word_ne_space hns)]

def ssAltL (ln : Bool) (C : List Str) : Prop :=
  ssAlt C ∨ (ln = true ∧ ∃ C2, C = strL " " :: C2 ∧ ssAlt C2 ∧ C2 ≠ [])

theorem step_eval_word {c : Str} {rest : List Str} (ln : Bool)
    (hc : isWsChunk c = false) :
    wrapStep 76 [] ln (c :: rest) = wrapFill 76 [] (c :: rest) := by
  unfold wrapStep
  dsimp only
  rw [hc]
  simp

theorem step_eval_sp (C2 : List Str) :
    wrapStep 76 [] true (strL " " :: C2) = wrapFill 76 [] C2 := by
  unfold wrapStep
  dsimp only
  rw [isWsChunk_space]
  simp

/-- The greedy wrap of a single-spaced chunk list: every output line is a
nonempty single-spaced text without surrounding whitespace, and munging
the newline-joined output restores exactly the word content. -/
theorem loop_ss : ∀ (fuel : Nat) (C : List Str) (ln : Bool),
    C.length ≤ fuel → ssAltL ln C → C ≠ [] →
    wrapLoopF 76 [] [] fuel ln C ≠ [] ∧
    (∀ l ∈ wrapLoopF 76 [] [] fuel ln C, lineOK l) ∧
    (joinSep (strL "\n") (wrapLoopF 76 [] [] fuel ln C)).map mungeChar =
      ssFlat C := by
  intro fuel
  induction fuel using Nat.strong_induction_on with
  | _ fuel ih =>
    intro C ln hlen hssL hne
    rcases C with _ | ⟨c, rest⟩
    · exact absurd rfl hne
    cases fuel with
    | zero => simp at hlen
    | succ n =>
      have hstep : ∃ C1, wrapStep 76 [] ln (c :: rest) = wrapFill 76 [] C1 ∧
          ssAlt C1 ∧ C1 ≠ [] ∧ C1.length ≤ n + 1 ∧
          ssFlat (c :: rest) = C1.flatten := by
        rcases hssL with hss | ⟨hln, C2, hC2, hssC2, hC2ne⟩
        · obtain ⟨hcne, hcns⟩ := ssAlt_head_word hss
          refine ⟨c :: rest, step_eval_word ln (isWsChunk_word hcne hcns),
            hss, by simp, hlen, ssFlat_word hcns⟩
        · subst hln
          rw [List.cons.injEq] at hC2
          obtain ⟨hc1, hc2⟩ := hC2
          subst hc1
          subst hc2
          refine ⟨rest, step_eval_sp rest, hssC2, hC2ne, ?_, ssFlat_sp rest⟩
          simp only [List.length_cons] at hlen
          omega
      obtain ⟨C1, hsv, hssC1, hC1ne, hC1len, hflat⟩ := hstep
      obtain ⟨tk, rest2, hfill, hsstk, htkne, hrest2⟩ := fill_ss hssC1 hC1ne
      rw [wrapLoopF_cons_eq, hsv, hfill]
      dsimp only
      rw [hflat]
      have hlineOK := line_of_ssAlt hsstk htkne
      rcases hrest2 with ⟨hr2nil, hfleq⟩ | ⟨D, hssD, hDne, hform, hfleq, hlt⟩
      · subst hr2nil
        rw [show wrapLoopF 76 [] [] n true [] = [] by cases n <;> rfl]
        refine ⟨by simp, ?_, ?_⟩
        · intro l hl
          rcases List.mem_singleton.mp hl
          exact hlineOK
        · show (joinSep (strL "\n") [tk.flatten]).map mungeChar = C1.flatten
          rw [show joinSep (strL "\n") [tk.flatten] = tk.flatten from rfl]
          rw [lineOK_munge_id hlineOK, hfleq]
      · have hr2ne : rest2 ≠ [] := by
          rcases hform with hf | hf <;> rw [hf]
          · simp
          · exact hDne
        have hssL2 : ssAltL true rest2 := by
          rcases hform with hf | hf
          · exact Or.inr ⟨rfl, D, hf, hssD, hDne⟩
          · rw [hf]
            exact Or.inl hssD
        have hflat2 : ssFlat rest2 = D.flatten := by
          rcases hform with hf | hf <;> rw [hf]
          · exact ssFlat_sp D
          · rcases hD : D with _ | ⟨w, dr⟩
            · exact absurd hD hDne
            rw [hD] at hssD
            exact ssFlat_word (ssAlt_head_word hssD).2
        obtain ⟨hLne, hLok, hLmap⟩ := ih n (by omega) rest2 true
          (by omega) hssL2 hr2ne
        refine ⟨by simp, ?_, ?_⟩
        · intro l hl
          rcases List.mem_cons.mp hl with h1 | h1
          · rw [h1]
            exact hlineOK
          · exact hLok l h1
        · rw [joinSep_cons_of_ne _ _ _ hLne]
          rw [show tk.flatten ++ strL "\n" ++
            joinSep (strL "\n") (wrapLoopF 76 [] [] n true rest2) =
            tk.flatten ++ ('\n' ::
              joinSep (strL "\n") (wrapLoopF 76 [] [] n true rest2)) by
            simp [strL]]
          rw [List.map_append, List.map_cons, lineOK_munge_id hlineOK]
          rw [show mungeChar '\n' = ' ' from rfl, hLmap, hflat2, hfleq]

theorem ssFlat_of_ssAlt : ∀ (C : List Str), ssAlt C → C ≠ [] →
    ssFlat C = C.flatten := by
  intro C hss hne
  rcases hC : C with _ | ⟨w, rest⟩
  · exact absurd hC hne
  · rw [hC] at hss
    exact ssFlat_word (ssAlt_head_word hss).2

theorem join_lineOK : ∀ (L : List Str), L ≠ [] → (∀ l ∈ L, lineOK l) →
    joinSep (strL "\n") L ≠ [] ∧
    pyIsSpace ((joinSep (strL "\n") L).headD 'x') = false ∧
    pyIsSpace ((joinSep (strL "\n") L).getLastD 'x') = false ∧
    (∀ c ∈ joinSep (strL "\n") L, pyIsSpace c = false ∨ c = ' ' ∨ c = '\n') := by
  intro L
  induction L with
  | nil => intro h _; exact absurd rfl h
  | cons l0 rest ih =>
    intro _ hok
    rcases rest with _ | ⟨l1, rest2⟩
    · obtain ⟨hne0, hh0, hl0, hc0⟩ := hok l0 (by simp)
      exact ⟨hne0, hh0, hl0, fun c hc => (hc0 c hc).imp id Or.inl⟩
    · obtain ⟨hJne, hJh, hJl, hJc⟩ := ih (by simp) (fun l hl => hok l (by simp [hl]))
      obtain ⟨hne0, hh0, hl0, hc0⟩ := hok l0 (by simp)
      rw [joinSep_cons_of_ne _ _ _ (by simp)]
      have hshape : l0 ++ strL "\n" ++ joinSep (strL "\n") (l1 :: rest2) =
          l0 ++ '\n' :: joinSep (strL "\n") (l1 :: rest2) := by
        simp [strL]
      rw [hshape]
      refine ⟨?_, ?_, ?_, ?_⟩
      · intro hx
        rcases List.append_eq_nil.mp hx with ⟨h1, _⟩
        exact hne0 h1
      · rw [headD_append hne0]
        exact hh0
      · rw [getLastD_append_right _ (by simp), List.getLastD_cons,
          getLastD_default_irrel hJne '\n' 'x']
        exact hJl
      · intro c hc
        rcases List.mem_append.mp hc with h1 | h1
        · exact (hc0 c h1).imp id Or.inl
        · rcases List.mem_cons.mp h1 with h2 | h2
          · exact Or.inr (Or.inr h2)
          · exact hJc c h2

theorem strip_of_nonws_ends {q : Str} (hne : q ≠ [])
    (hh : pyIsSpace (q.headD 'x') = false)
    (hl : pyIsSpace (q.getLastD 'x') = false) :
    stripChars q = q := by
  unfold stripChars
  have hls : lstripChars q = q := by
    unfold lstripChars
    rcases hq : q with _ | ⟨c, r⟩
    · rfl
    · rw [hq] at hh
      rw [List.headD_cons] at hh
      rw [List.dropWhile_cons, hh]
      simp
  rw [hls]
  exact rstripChars_of_ends_nonws
    ⟨hne, by rw [getLastD_default_irrel hne ' ' 'x']; exact hl⟩

/-- A wrapped single-spaced chunk list is a fixed point of the reflow
pass: stripping is a no-op, munging restores the word content, re-splitting
restores the chunks, and the greedy loop is deterministic. -/
theorem wrap_fixed {C : List Str} (hss : ssAlt C) (hne : C ≠ []) :
    wrapOnce [] []
      (joinSep (strL "\n") (wrapLoopF 76 [] [] C.length false C)) =
      joinSep (strL "\n") (wrapLoopF 76 [] [] C.length false C) := by
  obtain ⟨hLne, hLok, hLmap⟩ := loop_ss C.length C false (le_refl _)
    (Or.inl hss) hne
  obtain ⟨hqne, hqh, hql, hqc⟩ := join_lineOK _ hLne hLok
  have hstrip : stripChars
      (joinSep (strL "\n") (wrapLoopF 76 [] [] C.length false C)) =
      joinSep (strL "\n") (wrapLoopF 76 [] [] C.length false C) :=
    strip_of_nonws_ends hqne hqh hql
  have hnoTab : ∀ c ∈ joinSep (strL "\n") (wrapLoopF 76 [] [] C.length false C),
      c ≠ '\t' := by
    intro c hc he
    subst he
    rcases hqc '\t' hc with h | h | h
    · exact absurd h (by decide)
    · exact absurd h (by decide)
    · exact absurd h (by decide)
  have hmunge : mungeWhitespace
      (joinSep (strL "\n") (wrapLoopF 76 [] [] C.length false C)) =
      C.flatten := by
    unfold mungeWhitespace expandTabs
    rw [expandTabsGo_noTab _ hnoTab 0, hLmap, ssFlat_of_ssAlt C hss hne]
  obtain ⟨haltC, hCnonnil⟩ := ssAlt_altChunks hss
  have hsplit : splitChunks C.flatten = C := by
    unfold splitChunks
    exact splitChunksF_flatten_id C haltC hCnonnil _ (le_refl _)
  unfold wrapOnce pyWrap
  rw [hstrip, hmunge, hsplit]
  exact rstripChars_of_ends_nonws
    ⟨hqne, by rw [getLastD_default_irrel hqne ' ' 'x']; exact hql⟩

/-- Double wrapping equals single wrapping, and the result is a fixed
point, whenever the munged stripped paragraph splits into single-spaced
chunks. -/
theorem wrapOnce_fixed_of_ss {p : Str}
    (hss : ssAlt (splitChunks (mungeWhitespace (stripChars p))))
    (hne : splitChunks (mungeWhitespace (stripChars p)) ≠ []) :
    wrapOnce [] [] (wrapOnce [] [] p) = wrapOnce [] [] p := by
  obtain ⟨hLne, hLok, hLmap⟩ :=
    loop_ss (splitChunks (mungeWhitespace (stripChars p))).length
      (splitChunks (mungeWhitespace (stripChars p))) false (le_refl _)
      (Or.inl hss) hne
  obtain ⟨hqne, hqh, hql, hqc⟩ := join_lineOK _ hLne hLok
  have h1 : wrapOnce [] [] p = joinSep (strL "\n")
      (wrapLoopF 76 [] []
        (splitChunks (mungeWhitespace (stripChars p))).length false
        (splitChunks (mungeWhitespace (stripChars p)))) := by
    unfold wrapOnce pyWrap
    exact rstripChars_of_ends_nonws
      ⟨hqne, by rw [getLastD_default_irrel hqne ' ' 'x']; exact hql⟩
  rw [h1]
  exact wrap_fixed hss hne

/-! ## Clean inputs: adjacency scans -/

/-- No adjacent pair (a, b) with p a and q b. -/
def noPairB (p q : Char → Bool) : Str → Bool
  | [] => true
  | [_] => true
  | a :: b :: r => (!(p a && q b)) && noPairB p q (b :: r)

theorem noPairB_tail {p q : Char → Bool} {a : Char} {l : Str}
    (h : noPairB p q (a :: l) = true) : noPairB p q l = true := by
  rcases l with _ | ⟨b, r⟩
  · rfl
  · exact ((Bool.and_eq_true _ _).mp h).2

theorem noPairB_pair {p q : Char → Bool} {a b : Char} {r : Str}
    (h : noPairB p q (a :: b :: r) = true) : ¬(p a = true ∧ q b = true) := by
  have h1 := ((Bool.and_eq_true _ _).mp h).1
  intro ⟨hpa, hqb⟩
  rw [hpa, hqb] at h1
  simp at h1

theorem noPairB_append_right {p q : Char → Bool} : ∀ (x y : Str),
    noPairB p q (x ++ y) = true → noPairB p q y = true := by
  intro x
  induction x with
  | nil => intro y h; exact h
  | cons a x ih =>
    intro y h
    exact ih y (noPairB_tail h)

theorem noPairB_append_left {p q : Char → Bool} : ∀ (x y : Str),
    noPairB p q (x ++ y) = true → noPairB p q x = true := by
  intro x
  induction x with
  | nil => intro y _; rfl
  | cons a x ih =>
    intro y h
    rcases hx : x with _ | ⟨b, r⟩
    · rfl
    · subst hx
      show (!(p a && q b) && noPairB p q (b :: r)) = true
      rw [Bool.and_eq_true]
      refine ⟨?_, ih y (noPairB_tail h)⟩
      have := noPairB_pair h
      rcases Bool.eq_false_or_eq_true (p a) with h1 | h1 <;>
        rcases Bool.eq_false_or_eq_true (q b) with h2 | h2 <;>
        rw [h1, h2] <;> first
        | rfl
        | (exfalso; exact this ⟨h1, h2⟩)

theorem noPairB_glue {p q : Char → Bool} : ∀ (x y : Str),
    noPairB p q x = true → noPairB p q y = true →
    (p (x.getLastD 'x') = true → q (y.headD 'x') = false) →
    noPairB p q (x ++ y) = true := by
  intro x
  induction x with
  | nil => intro y _ hy _; exact hy
  | cons a x ih =>
    intro y hx hy hb
    rcases hxs : x with _ | ⟨b, r⟩
    · subst hxs
      rcases hys : y with _ | ⟨c, yr⟩
      · rfl
      · subst hys
        show (!(p a && q c) && noPairB p q (c :: yr)) = true
        rw [Bool.and_eq_true]
        refine ⟨?_, hy⟩
        rcases Bool.eq_false_or_eq_true (p a) with h1 | h1
        · rw [h1]
          simp only [Bool.true_and]
          have := hb (by rw [show ([a] : Str).getLastD 'x' = a from rfl]; exact h1)
          rw [show ((c :: yr) : Str).headD 'x' = c from rfl] at this
          rw [this]
          rfl
        · rw [h1]
          rfl
    · subst hxs
      show (!(p a && q b) && noPairB p q ((b :: r) ++ y)) = true
      rw [Bool.and_eq_true]
      have hpair := noPairB_pair hx
      constructor
      · rcases Bool.eq_false_or_eq_true (p a) with h1 | h1 <;>
          rcases Bool.eq_false_or_eq_true (q b) with h2 | h2 <;>
          rw [h1, h2] <;> first
          | rfl
          | (exfalso; exact hpair ⟨h1, h2⟩)
      · refine ih y (noPairB_tail hx) hy ?_
        intro hlast
        refine hb ?_
        rw [List.getLastD_cons, getLastD_default_irrel (by simp) a 'x']
        exact hlast

theorem noPairB_of_noq {p q : Char → Bool} : ∀ (l : Str),
    (∀ c ∈ l, q c = false) → noPairB p q l = true := by
  intro l
  induction l with
  | nil => intro _; rfl
  | cons a l ih =>
    intro h
    rcases hl : l with _ | ⟨b, r⟩
    · rfl
    · subst hl
      show (!(p a && q b) && noPairB p q (b :: r)) = true
      rw [Bool.and_eq_true]
      refine ⟨?_, ih (fun c hc => h c (by simp [hc]))⟩
      rw [h b (by simp)]
      simp

theorem noPairB_of_nop {p q : Char → Bool} : ∀ (l : Str),
    (∀ c ∈ l, p c = false) → noPairB p q l = true := by
  intro l
  induction l with
  | nil => intro _; rfl
  | cons a l ih =>
    intro h
    rcases hl : l with _ | ⟨b, r⟩
    · rfl
    · subst hl
      show (!(p a && q b) && noPairB p q (b :: r)) = true
      rw [Bool.and_eq_true]
      refine ⟨?_, ih (fun c hc => h c (by simp [hc]))⟩
      rw [h a (by simp)]
      simp

theorem noPairB_mono {p q p2 q2 : Char → Bool}
    (hp : ∀ a, p2 a = true → p a = true) (hq : ∀ b, q2 b = true → q b = true) :
    ∀ (l : Str), noPairB p q l = true → noPairB p2 q2 l = true := by
  intro l
  induction l with
  | nil => intro _; rfl
  | cons a l ih =>
    intro h
    rcases hl : l with _ | ⟨b, r⟩
    · rfl
    · subst hl
      show (!(p2 a && q2 b) && noPairB p2 q2 (b :: r)) = true
      rw [Bool.and_eq_true]
      refine ⟨?_, ih (noPairB_tail h)⟩
      have hpair := noPairB_pair h
      rcases Bool.eq_false_or_eq_true (p2 a) with h1 | h1 <;>
        rcases Bool.eq_false_or_eq_true (q2 b) with h2 | h2 <;>
        rw [h1, h2] <;> first
        | rfl
        | (exfalso; exact hpair ⟨hp a h1, hq b h2⟩)

def cleanParaB (p : Str) : Bool :=
  !p.isEmpty && !pyIsSpace (p.headD 'x') && !pyIsSpace (p.getLastD 'x') &&
  noPairB pyIsSpace pyIsSpace p &&
  p.all (fun c => !pyIsSpace c || (c == ' ' || c == '\n'))

/-- A clean body: every blank-line paragraph is nonempty, starts and ends
with non-whitespace, has no two adjacent whitespace characters, and uses
only plain spaces and newlines as whitespace. -/
def cleanBody (x : Str) : Bool := (splitNN x).all cleanParaB

theorem cleanPara_facts {p : Str} (h : cleanParaB p = true) :
    p ≠ [] ∧ pyIsSpace (p.headD 'x') = false ∧
    pyIsSpace (p.getLastD 'x') = false ∧
    noPairB pyIsSpace pyIsSpace p = true ∧
    (∀ c ∈ p, pyIsSpace c = true → c = ' ' ∨ c = '\n') := by
  unfold cleanParaB at h
  simp only [Bool.and_eq_true, Bool.not_eq_true', List.all_eq_true] at h
  obtain ⟨⟨⟨⟨h1, h2⟩, h3⟩, h4⟩, h5⟩ := h
  refine ⟨?_, h2, h3, h4, ?_⟩
  · intro hc
    rw [hc] at h1
    simp at h1
  · intro c hc hwsc
    have := h5 c hc
    rw [hwsc] at this
    simp only [Bool.not_true, Bool.false_or, Bool.or_eq_true, beq_iff_eq] at this
    exact this

theorem flatten_ne_of {C : List Str} (hnn : ∀ c ∈ C, c ≠ []) (hne : C ≠ []) :
    C.flatten ≠ [] := by
  rcases hC : C with _ | ⟨c, r⟩
  · exact absurd hC hne
  · rw [List.flatten_cons]
    intro hx
    rcases List.append_eq_nil.mp hx with ⟨h1, _⟩
    exact hnn c (by rw [hC]; simp) h1

theorem splitChunksF_nonnil : ∀ fuel (s : Str), ∀ c ∈ splitChunksF fuel s,
    c ≠ [] := by
  intro fuel
  induction fuel using Nat.strong_induction_on with
  | _ fuel ih =>
    intro s c hc
    rcases s with _ | ⟨c0, rest⟩
    · cases fuel <;> simp [splitChunksF] at hc
    cases fuel with
    | zero => simp [splitChunksF] at hc
    | succ n =>
      rw [show splitChunksF (n + 1) (c0 :: rest) =
        (c0 :: rest.takeWhile (fun d => pyIsSpace d == pyIsSpace c0)) ::
          splitChunksF n (rest.dropWhile (fun d => pyIsSpace d == pyIsSpace c0))
        from rfl] at hc
      rcases List.mem_cons.mp hc with h1 | h1
      · rw [h1]
        simp
      · exact ih n (by omega) _ c h1

theorem headD_default_irrel {l : Str} (h : l ≠ []) (d1 d2 : Char) :
    l.headD d1 = l.headD d2 := by
  rcases l with _ | ⟨a, r⟩
  · exact absurd rfl h
  · rfl

/-- A chunk decomposition of a text with no adjacent whitespace, only
plain spaces as whitespace, and non-whitespace ends, is single-spaced. -/
theorem ssAlt_of_chunks_f : ∀ (n : Nat) (C : List Str), C.length ≤ n →
    altChunks C → (∀ c ∈ C, c ≠ []) →
    pyIsSpace (C.flatten.headD 'x') = false →
    pyIsSpace (C.flatten.getLastD 'x') = false →
    noPairB pyIsSpace pyIsSpace C.flatten = true →
    (∀ c ∈ C.flatten, pyIsSpace c = true → c = ' ') →
    ssAlt C := by
  intro n
  induction n using Nat.strong_induction_on with
  | _ n ih =>
    intro C hlen halt hnn hh hl hnp hws
    rcases C with _ | ⟨c1, rest⟩
    · trivial
    have hc1ne : c1 ≠ [] := hnn c1 (by simp)
    have hu1 : uniformChunk c1 := altChunks_head halt
    have hcls1 : chunkClass c1 = false := by
      unfold chunkClass
      have hga : (c1 ++ rest.flatten).headD 'x' = c1.headD 'x' :=
        headD_append hc1ne 'x'
      rw [headD_default_irrel hc1ne ' ' 'x', ← hga, ← List.flatten_cons]
      exact hh
    have hns1 : noSpace c1 := by
      intro d hd
      rw [hu1.2 d hd, hcls1]
    rcases rest with _ | ⟨c2, rest2⟩
    · exact ⟨hc1ne, hns1⟩
    have hc2ne : c2 ≠ [] := hnn c2 (by simp)
    have hu2 : uniformChunk c2 := altChunks_head (altChunks_tail halt)
    have hcls2 : chunkClass c2 = true := by
      rcases Bool.eq_false_or_eq_true (chunkClass c2) with h2 | h2
      · exact h2
      · exfalso
        have := halt.2.1
        rw [hcls1, h2] at this
        exact this rfl
    have hall2 : ∀ d ∈ c2, pyIsSpace d = true := by
      intro d hd
      rw [hu2.2 d hd]
      exact hcls2
    have hfl : (c1 :: c2 :: rest2).flatten = c1 ++ (c2 ++ rest2.flatten) := by
      simp
    have hnp2 : noPairB pyIsSpace pyIsSpace (c2 ++ rest2.flatten) = true := by
      rw [hfl] at hnp
      exact noPairB_append_right _ _ hnp
    have hc2sing : c2 = strL " " := by
      rcases hc2 : c2 with _ | ⟨d, dt⟩
      · exact absurd hc2 hc2ne
      rcases hdt : dt with _ | ⟨d2, dt2⟩
      · have hdws : pyIsSpace d = true := hall2 d (by rw [hc2]; simp)
        have hdsp : d = ' ' := hws d (by rw [hfl, hc2]; simp) hdws
        rw [hdsp]
        rfl
      · exfalso
        have hnpc2 : noPairB pyIsSpace pyIsSpace c2 = true :=
          noPairB_append_left c2 rest2.flatten hnp2
        rw [hc2, hdt] at hnpc2
        exact (noPairB_pair hnpc2)
          ⟨hall2 d (by rw [hc2]; simp), hall2 d2 (by rw [hc2, hdt]; simp)⟩
    have hr2ne : rest2 ≠ [] := by
      intro hr
      subst hr
      rw [hfl, hc2sing] at hl
      rw [getLastD_append_right _ (by simp [strL])] at hl
      have : ((strL " " ++ List.flatten []).getLastD 'x') = ' ' := rfl
      rw [this] at hl
      exact absurd hl (by decide)
    have hfr2ne : rest2.flatten ≠ [] :=
      flatten_ne_of (fun c hc => hnn c (by simp [hc])) hr2ne
    refine ⟨hc1ne, hns1, hc2sing, hr2ne, ?_⟩
    simp only [List.length_cons] at hlen
    refine ih (n - 2) (by omega) rest2 (by omega) ?_ ?_ ?_ ?_ ?_ ?_
    · exact altChunks_tail (altChunks_tail halt)
    · exact fun c hc => hnn c (by simp [hc])
    · rcases hr2 : rest2 with _ | ⟨r0, rt⟩
      · exact absurd hr2 hr2ne
      have hr0ne : r0 ≠ [] := hnn r0 (by rw [hr2]; simp)
      have hu0 : uniformChunk r0 := by
        rw [hr2] at halt
        exact altChunks_head (altChunks_tail (altChunks_tail halt))
      have hcls0 : chunkClass r0 = false := by
        rcases Bool.eq_false_or_eq_true (chunkClass r0) with h0 | h0
        · exfalso
          rw [hr2] at halt
          have := (altChunks_tail halt).2.1
          rw [hcls2, h0] at this
          exact this rfl
        · exact h0
      rw [List.flatten_cons, headD_append hr0ne]
      have : pyIsSpace (r0.headD 'x') = chunkClass r0 := by
        unfold chunkClass
        rw [headD_default_irrel hr0ne 'x' ' ']
      rw [this, hcls0]
    · rw [hfl] at hl
      rw [getLastD_append_right _ (by
          intro hx
          rcases List.append_eq_nil.mp hx with ⟨_, h2⟩
          exact hfr2ne h2),
        getLastD_append_right _ hfr2ne] at hl
      exact hl
    · exact noPairB_append_right _ _ hnp2
    · intro c hc hw
      refine hws c ?_ hw
      rw [hfl]
      simp [hc]

theorem headD_map (f : Char → Char) {l : Str} (h : l ≠ []) (d : Char) :
    (l.map f).headD d = f (l.headD d) := by
  rcases l with _ | ⟨a, r⟩
  · exact absurd rfl h
  · rfl

theorem noPairB_map_class {f : Char → Char}
    (hf : ∀ c, pyIsSpace (f c) = pyIsSpace c) : ∀ (l : Str),
    noPairB pyIsSpace pyIsSpace l = true →
    noPairB pyIsSpace pyIsSpace (l.map f) = true := by
  intro l
  induction l with
  | nil => intro _; rfl
  | cons a l ih =>
    intro h
    rcases hl : l with _ | ⟨b, r⟩
    · rfl
    · subst hl
      show (!(pyIsSpace (f a) && pyIsSpace (f b)) &&
        noPairB pyIsSpace pyIsSpace (f b :: r.map f)) = true
      rw [Bool.and_eq_true]
      constructor
      · rw [hf a, hf b]
        have hpair := noPairB_pair h
        rcases Bool.eq_false_or_eq_true (pyIsSpace a) with h1 | h1 <;>
          rcases Bool.eq_false_or_eq_true (pyIsSpace b) with h2 | h2 <;>
          rw [h1, h2] <;> first
          | rfl
          | (exfalso; exact hpair ⟨h1, h2⟩)
      · exact ih (noPairB_tail h)

/-- A clean paragraph strips to itself and its munged form splits into
single-spaced chunks. -/
theorem cleanPara_ss {p : Str} (h : cleanParaB p = true) :
    stripChars p = p ∧ ssAlt (splitChunks (mungeWhitespace p)) ∧
    splitChunks (mungeWhitespace p) ≠ [] := by
  obtain ⟨hne, hh, hl, hnp, hws⟩ := cleanPara_facts h
  have hstrip : stripChars p = p := strip_of_nonws_ends hne hh hl
  have hnoTab : ∀ c ∈ p, c ≠ '\t' := by
    intro c hc he
    subst he
    rcases hws '\t' hc (by decide) with h1 | h1 <;> exact absurd h1 (by decide)
  have hmg : mungeWhitespace p = p.map mungeChar := by
    unfold mungeWhitespace expandTabs
    rw [expandTabsGo_noTab _ hnoTab 0]
  have hmpne : p.map mungeChar ≠ [] := by
    intro hx
    rw [List.map_eq_nil_iff] at hx
    exact hne hx
  have hmph : pyIsSpace ((p.map mungeChar).headD 'x') = false := by
    rw [headD_map _ hne, mungeChar_class]
    exact hh
  have hmpl : pyIsSpace ((p.map mungeChar).getLastD 'x') = false := by
    rw [getLastD_map _ hne, mungeChar_class]
    exact hl
  have hmpnp : noPairB pyIsSpace pyIsSpace (p.map mungeChar) = true :=
    noPairB_map_class mungeChar_class p hnp
  have hmpws : ∀ c ∈ p.map mungeChar, pyIsSpace c = true → c = ' ' := by
    intro c hc hcw
    rcases List.mem_map.mp hc with ⟨d, hd, hmap⟩
    subst hmap
    rw [mungeChar_class] at hcw
    rcases hws d hd hcw with h1 | h1 <;> rw [h1] <;> decide
  have hflm : (splitChunks (p.map mungeChar)).flatten = p.map mungeChar :=
    splitChunks_flatten _
  have hnnm : ∀ c ∈ splitChunks (p.map mungeChar), c ≠ [] := by
    intro c hc
    exact splitChunksF_nonnil _ _ c hc
  refine ⟨hstrip, ?_, ?_⟩
  · rw [hmg]
    refine ssAlt_of_chunks_f (splitChunks (p.map mungeChar)).length _
      (le_refl _) (splitChunks_alt _) hnnm ?_ ?_ ?_ ?_
    · rw [hflm]
      exact hmph
    · rw [hflm]
      exact hmpl
    · rw [hflm]
      exact hmpnp
    · rw [hflm]
      exact hmpws
  · rw [hmg]
    intro hx
    rw [hx] at hflm
    exact hmpne hflm.symm

theorem join_splitOnChar (sep : Char) : ∀ (x : Str),
    joinSep [sep] (splitOnChar sep x) = x := by
  intro x
  induction x with
  | nil => rfl
  | cons c rest ih =>
    by_cases hc : c = sep
    · subst hc
      rw [splitOnChar_cons_sep]
      rw [joinSep_cons_of_ne _ _ _ (splitOnChar_ne_nil _ _)]
      rw [ih]
      rfl
    · obtain ⟨r, rs, hsp, heq⟩ := splitOnChar_cons_ne sep c rest hc
      rw [heq]
      rw [hsp] at ih
      rcases hrs : rs with _ | ⟨s0, rs2⟩
      · subst hrs
        show c :: r = c :: rest
        rw [show joinSep [sep] [r] = r from rfl] at ih
        rw [ih]
      · subst hrs
        rw [joinSep_cons_of_ne _ _ _ (by simp)]
        rw [joinSep_cons_of_ne _ _ _ (by simp)] at ih
        show (c :: r) ++ [sep] ++ joinSep [sep] (s0 :: rs2) = c :: rest
        rw [← ih]
        simp

theorem joinNN_splitNN_f : ∀ (n : Nat) (x : Str), x.length ≤ n →
    joinSep (strL "\n\n") (splitNN x) = x := by
  intro n
  induction n using Nat.strong_induction_on with
  | _ n ih =>
    intro x hlen
    rcases x with _ | ⟨c, rest⟩
    · rfl
    by_cases hnn : c = '\n' ∧ ∃ rest2, rest = '\n' :: rest2
    · obtain ⟨hc, rest2, hr⟩ := hnn
      subst hc
      subst hr
      rw [show splitNN ('\n' :: '\n' :: rest2) = [] :: splitNN rest2 from rfl]
      rw [joinSep_cons_of_ne _ _ _ (splitNN_ne_nil _)]
      simp only [List.length_cons] at hlen
      rw [ih (n - 2) (by omega) rest2 (by omega)]
      rfl
    · obtain ⟨r, rs, hsp, heq⟩ := splitNN_cons hnn
      rw [heq]
      simp only [List.length_cons] at hlen
      have hihr := ih (n - 1) (by omega) rest (by omega)
      rw [hsp] at hihr
      rcases hrs : rs with _ | ⟨s0, rs2⟩
      · subst hrs
        show c :: r = c :: rest
        rw [show joinSep (strL "\n\n") [r] = r from rfl] at hihr
        rw [hihr]
      · subst hrs
        rw [joinSep_cons_of_ne _ _ _ (by simp)]
        rw [joinSep_cons_of_ne _ _ _ (by simp)] at hihr
        show (c :: r) ++ strL "\n\n" ++ joinSep (strL "\n\n") (s0 :: rs2) =
          c :: rest
        rw [← hihr]
        simp

def wsNotNl (c : Char) : Bool := pyIsSpace c && !(c == '\n')

def isNl (c : Char) : Bool := c == '\n'

theorem noPairB_cons_nop {P Q : Char → Bool} {a : Char} {l : Str}
    (h : P a = false) (hl : noPairB P Q l = true) :
    noPairB P Q (a :: l) = true := by
  rcases l with _ | ⟨b, r⟩
  · rfl
  · show (!(P a && Q b) && noPairB P Q (b :: r)) = true
    rw [h]
    simpa using hl

theorem doc_noPair {P Q : Char → Bool} (hPnl : P '\n' = false) :
    ∀ (Qs : List Str), Qs ≠ [] →
    (∀ q ∈ Qs, noPairB P Q q = true ∧ P (q.getLastD 'x') = false) →
    noPairB P Q (joinSep (strL "\n\n") Qs) = true := by
  intro Qs
  induction Qs with
  | nil => intro h _; exact absurd rfl h
  | cons q rest ih =>
    intro _ hq
    rcases rest with _ | ⟨q1, rest2⟩
    · exact (hq q (by simp)).1
    · rw [joinSep_cons_of_ne _ _ _ (by simp)]
      have hJ := ih (by simp) (fun r hr => hq r (by simp [hr]))
      obtain ⟨hq0, hq0l⟩ := hq q (by simp)
      have hshape : q ++ strL "\n\n" ++ joinSep (strL "\n\n") (q1 :: rest2) =
          q ++ ('\n' :: '\n' :: joinSep (strL "\n\n") (q1 :: rest2)) := by
        simp [strL]
      rw [hshape]
      refine noPairB_glue _ _ hq0
        (noPairB_cons_nop hPnl (noPairB_cons_nop hPnl hJ)) ?_
      intro hcon
      rw [hq0l] at hcon
      simp at hcon

theorem join_nn_ne : ∀ (Qs : List Str), Qs ≠ [] → (∀ q ∈ Qs, q ≠ []) →
    joinSep (strL "\n\n") Qs ≠ [] := by
  intro Qs
  induction Qs with
  | nil => intro h _; exact absurd rfl h
  | cons q rest ih =>
    intro _ hq
    rcases rest with _ | ⟨q1, rest2⟩
    · exact hq q (by simp)
    · rw [joinSep_cons_of_ne _ _ _ (by simp)]
      intro hx
      rcases List.append_eq_nil.mp hx with ⟨h1, _⟩
      rcases List.append_eq_nil.mp h1 with ⟨h2, _⟩
      exact hq q (by simp) h2

theorem join_nn_last : ∀ (Qs : List Str), Qs ≠ [] → (∀ q ∈ Qs, q ≠ []) →
    (joinSep (strL "\n\n") Qs).getLastD 'x' =
      (Qs.getLastD []).getLastD 'x' := by
  intro Qs
  induction Qs with
  | nil => intro h _; exact absurd rfl h
  | cons q rest ih =>
    intro _ hq
    rcases rest with _ | ⟨q1, rest2⟩
    · rfl
    · rw [joinSep_cons_of_ne _ _ _ (by simp)]
      have hJne : joinSep (strL "\n\n") (q1 :: rest2) ≠ [] :=
        join_nn_ne _ (by simp) (fun r hr => hq r (by simp [hr]))
      rw [List.append_assoc, getLastD_append_right _ (by
        intro hx
        rcases List.append_eq_nil.mp hx with ⟨_, h2⟩
        exact hJne h2)]
      rw [getLastD_append_right _ hJne]
      rw [ih (by simp) (fun r hr => hq r (by simp [hr]))]
      have hR : (q :: q1 :: rest2).getLastD ([] : Str) =
          (q1 :: rest2).getLastD ([] : Str) := by
        rw [List.getLastD_cons]
        exact getLastD_default_irrel (by simp) q []
      rw [hR]

/-- A text whose non-newline whitespace never immediately precedes a
newline, and which ends in non-whitespace or in a newline, has only
right-stripped lines. -/
theorem linesRstripped_of_scan : ∀ (x : Str),
    noPairB wsNotNl isNl x = true →
    (x = [] ∨ pyIsSpace (x.getLastD 'x') = false ∨ x.getLastD 'x' = '\n') →
    linesRstripped x := by
  intro x
  induction x with
  | nil =>
    intro _ _ l hl
    simp only [splitOnChar, List.mem_singleton] at hl
    subst hl
    rfl
  | cons c rest ih =>
    intro hnp hend
    have hend2 : rest = [] ∨ pyIsSpace (rest.getLastD 'x') = false ∨
        rest.getLastD 'x' = '\n' := by
      rcases hr : rest with _ | ⟨d, rt⟩
      · exact Or.inl rfl
      · right
        have : (c :: rest).getLastD 'x' = rest.getLastD 'x' := by
          rw [List.getLastD_cons]
          exact getLastD_default_irrel (by rw [hr]; simp) c 'x'
        rw [this] at hend
        rcases hend with h | h
        · exact absurd h (by rw [hr]; simp)
        · rw [← hr]
          exact h
    have hih := ih (noPairB_tail hnp) hend2
    by_cases hc : c = '\n'
    · subst hc
      intro l hl
      rw [splitOnChar_cons_sep] at hl
      rcases List.mem_cons.mp hl with h1 | h1
      · subst h1
        rfl
      · exact hih l h1
    · obtain ⟨r, rs, hsp, heq⟩ := splitOnChar_cons_ne '\n' c rest hc
      intro l hl
      rw [heq] at hl
      rcases List.mem_cons.mp hl with h1 | h1
      · subst h1
        rcases hr : rest with _ | ⟨d, rt⟩
        · have hr0 : r = [] := by
            rw [hr] at hsp
            simp only [splitOnChar] at hsp
            rw [List.cons.injEq] at hsp
            exact hsp.1.symm
          subst hr0
          have hcend : pyIsSpace c = false := by
            rw [hr] at hend
            rcases hend with h | h | h
            · exact absurd h (by simp)
            · simpa using h
            · exfalso
              have : c = '\n' := by simpa using h
              exact hc this
          exact rstripChars_of_ends_nonws ⟨by simp, by simpa using hcend⟩
        · by_cases hd : d = '\n'
          · have hr0 : r = [] := by
              rw [hr, hd, splitOnChar_cons_sep] at hsp
              rw [List.cons.injEq] at hsp
              exact hsp.1.symm
            subst hr0
            have hcend : pyIsSpace c = false := by
              rw [hr, hd] at hnp
              have hpair := noPairB_pair hnp
              have hwnn : wsNotNl c = false := by
                rcases Bool.eq_false_or_eq_true (wsNotNl c) with h1 | h1
                · exact absurd ⟨h1, by decide⟩ hpair
                · exact h1
              unfold wsNotNl at hwnn
              rcases Bool.eq_false_or_eq_true (pyIsSpace c) with h2 | h2
              · exfalso
                rw [h2] at hwnn
                have hcc : (c == '\n') = false := by
                  rw [beq_eq_false_iff_ne]
                  exact hc
                rw [hcc] at hwnn
                simp at hwnn
              · exact h2
            exact rstripChars_of_ends_nonws ⟨by simp, by simpa using hcend⟩
          · obtain ⟨r2, rs2, hsp2, heq2⟩ := splitOnChar_cons_ne '\n' d rt hd
            have hrr : r = d :: r2 := by
              rw [hr] at hsp
              rw [heq2] at hsp
              rw [List.cons.injEq] at hsp
              exact hsp.1.symm
            have hrfix : rstripChars r = r := by
              refine hih r ?_
              rw [hsp]
              simp
            have hrne : r ≠ [] := by
              rw [hrr]
              simp
            have hrends : endsNonWs r := by
              rcases rstrip_nil_or_ends r with h0 | h0
              · rw [hrfix] at h0
                exact absurd h0 hrne
              · rw [hrfix] at h0
                exact h0
            refine rstripChars_of_ends_nonws ⟨by simp, ?_⟩
            rw [List.getLastD_cons, getLastD_default_irrel hrne c ' ']
            exact hrends.2
      · exact hih l (by rw [hsp]; simp [h1])

theorem map_id_of_list {α : Type} (f : α → α) : ∀ (l : List α),
    (∀ a ∈ l, f a = a) → l.map f = l := by
  intro l
  induction l with
  | nil => intro _; rfl
  | cons a r ih =>
    intro h
    rw [List.map_cons, h a (by simp), ih (fun d hd => h d (by simp [hd]))]

theorem step1_id_of {x : Str} (hlr : linesRstripped x) :
    joinSep (strL "\n") ((splitOnChar '\n' x).map rstripChars) = x := by
  have hmap : (splitOnChar '\n' x).map rstripChars = splitOnChar '\n' x :=
    map_id_of_list _ _ (fun l hl => hlr l hl)
  rw [hmap, show strL "\n" = ['\n'] from rfl]
  exact join_splitOnChar '\n' x

theorem cleanBody_paras {x : Str} (h : cleanBody x = true) :
    ∀ p ∈ splitNN x, cleanParaB p = true := by
  unfold cleanBody at h
  rw [List.all_eq_true] at h
  exact h

theorem cleanBody_linesRstripped {x : Str} (h : cleanBody x = true) :
    linesRstripped x := by
  have hps := cleanBody_paras h
  have hx : joinSep (strL "\n\n") (splitNN x) = x :=
    joinNN_splitNN_f x.length x (le_refl _)
  have hplast : ∀ q ∈ splitNN x, wsNotNl (q.getLastD 'x') = false := by
    intro q hq
    obtain ⟨_, _, hl, _, _⟩ := cleanPara_facts (hps q hq)
    unfold wsNotNl
    rw [hl]
    rfl
  refine linesRstripped_of_scan x ?_ ?_
  · rw [← hx]
    refine doc_noPair (by decide) _ (splitNN_ne_nil x) ?_
    intro q hq
    obtain ⟨hne, hh, hl, hnp, hws⟩ := cleanPara_facts (hps q hq)
    refine ⟨?_, hplast q hq⟩
    refine noPairB_mono ?_ ?_ _ hnp
    · intro a ha
      unfold wsNotNl at ha
      exact ((Bool.and_eq_true _ _).mp ha).1
    · intro b hb
      unfold isNl at hb
      rw [beq_iff_eq] at hb
      rw [hb]
      decide
  · right
    left
    rw [← hx]
    have hqne : ∀ q ∈ splitNN x, q ≠ [] :=
      fun q hq => (cleanPara_facts (hps q hq)).1
    rw [join_nn_last _ (splitNN_ne_nil x) hqne]
    exact (cleanPara_facts (hps _ (getLastD_mem (splitNN_ne_nil x) []))).2.2.1

def QOK (q : Str) : Prop :=
  q ≠ [] ∧ pyIsSpace (q.headD 'x') = false ∧
  pyIsSpace (q.getLastD 'x') = false ∧
  noPairB isNl isNl q = true ∧ noPairB wsNotNl isNl q = true

/-- The facts a second textwrap_body pass needs about the first pass's
paragraph outputs: each paragraph either keeps its suppression (the flag
or its own list marker) or is a fixed point of the double wrap. -/
def Pass2OK : Bool → List Str → Prop
  | _, [] => True
  | b, q :: rest =>
    ((b || isListParagraph q) = true ∨
      wrapOnce [] [] (wrapOnce [] [] q) = q) ∧
    Pass2OK (endsWith (strL "::") q) rest

theorem cleanPara_QOK {p : Str} (h : cleanParaB p = true) : QOK p := by
  obtain ⟨hne, hh, hl, hnp, _⟩ := cleanPara_facts h
  refine ⟨hne, hh, hl, ?_, ?_⟩
  · refine noPairB_mono ?_ ?_ _ hnp
    · intro a ha
      unfold isNl at ha
      rw [beq_iff_eq] at ha
      rw [ha]
      decide
    · intro b hb
      unfold isNl at hb
      rw [beq_iff_eq] at hb
      rw [hb]
      decide
  · refine noPairB_mono ?_ ?_ _ hnp
    · intro a ha
      unfold wsNotNl at ha
      exact ((Bool.and_eq_true _ _).mp ha).1
    · intro b hb
      unfold isNl at hb
      rw [beq_iff_eq] at hb
      rw [hb]
      decide

theorem noPairB_cons_noq {P Q : Char → Bool} {a : Char} {l : Str}
    (h : l = [] ∨ Q (l.headD 'x') = false) (hl : noPairB P Q l = true) :
    noPairB P Q (a :: l) = true := by
  rcases l with _ | ⟨b, r⟩
  · rfl
  · show (!(P a && Q b) && noPairB P Q (b :: r)) = true
    rcases h with h | h
    · exact absurd h (by simp)
    · rw [show ((b :: r) : Str).headD 'x' = b from rfl] at h
      rw [h, Bool.and_false]
      simpa using hl

theorem noPairB_join_lines {P : Char → Bool}
    (hP : ∀ c, pyIsSpace c = false → P c = false) :
    ∀ (L : List Str), L ≠ [] → (∀ l ∈ L, lineOK l) →
    noPairB P isNl (joinSep (strL "\n") L) = true := by
  intro L
  induction L with
  | nil => intro h _; exact absurd rfl h
  | cons l0 rest ih =>
    intro _ hok
    have hnoq : ∀ l, lineOK l → ∀ c ∈ l, isNl c = false := by
      intro l hlok c hc
      unfold isNl
      rw [beq_eq_false_iff_ne]
      intro he
      subst he
      rcases hlok.2.2.2 '\n' hc with h1 | h1
      · exact absurd h1 (by decide)
      · exact absurd h1 (by decide)
    rcases rest with _ | ⟨l1, rest2⟩
    · exact noPairB_of_noq _ (hnoq l0 (hok l0 (by simp)))
    · have hok0 := hok l0 (by simp)
      have hJ := ih (by simp) (fun l hl => hok l (by simp [hl]))
      obtain ⟨hJne2, hJh, _, _⟩ := join_lineOK (l1 :: rest2) (by simp)
        (fun l hl => hok l (by simp [hl]))
      rw [joinSep_cons_of_ne _ _ _ (by simp)]
      have hshape : l0 ++ strL "\n" ++ joinSep (strL "\n") (l1 :: rest2) =
          l0 ++ ('\n' :: joinSep (strL "\n") (l1 :: rest2)) := by
        simp [strL]
      rw [hshape]
      refine noPairB_glue _ _ (noPairB_of_noq _ (hnoq l0 hok0)) ?_ ?_
      · refine noPairB_cons_noq (Or.inr ?_) hJ
        unfold isNl
        rw [beq_eq_false_iff_ne]
        intro he
        rw [he] at hJh
        exact absurd hJh (by decide)
      · intro hcon
        rw [hP _ hok0.2.2.1] at hcon
        simp at hcon

theorem reflow_facts {p : Str} (hclean : cleanParaB p = true) :
    QOK (wrapOnce [] [] p) ∧
    wrapOnce [] [] (wrapOnce [] [] p) = wrapOnce [] [] p := by
  obtain ⟨hstrip, hss0, hne0⟩ := cleanPara_ss hclean
  have hss : ssAlt (splitChunks (mungeWhitespace (stripChars p))) := by
    rw [hstrip]
    exact hss0
  have hne : splitChunks (mungeWhitespace (stripChars p)) ≠ [] := by
    rw [hstrip]
    exact hne0
  obtain ⟨hLne, hLok, hLmap⟩ := loop_ss _ _ false (le_refl _) (Or.inl hss) hne
  obtain ⟨hqne, hqh, hql, hqc⟩ := join_lineOK _ hLne hLok
  have h1 : wrapOnce [] [] p = joinSep (strL "\n")
      (wrapLoopF 76 [] []
        (splitChunks (mungeWhitespace (stripChars p))).length false
        (splitChunks (mungeWhitespace (stripChars p)))) := by
    unfold wrapOnce pyWrap
    exact rstripChars_of_ends_nonws
      ⟨hqne, by rw [getLastD_default_irrel hqne ' ' 'x']; exact hql⟩
  refine ⟨?_, wrapOnce_fixed_of_ss hss hne⟩
  rw [h1]
  refine ⟨hqne, hqh, hql, ?_, ?_⟩
  · refine noPairB_join_lines ?_ _ hLne hLok
    intro c hc
    unfold isNl
    rw [beq_eq_false_iff_ne]
    intro he
    subst he
    exact absurd hc (by decide)
  · refine noPairB_join_lines ?_ _ hLne hLok
    intro c hc
    unfold wsNotNl
    rw [hc]
    rfl

set_option maxHeartbeats 1000000 in
theorem tbGo_pass1 : ∀ (Ps : List Str) (b : Bool),
    (∀ p ∈ Ps, cleanParaB p = true) →
    (∀ q ∈ tbGo [] b [] Ps, QOK q) ∧ Pass2OK b (tbGo [] b [] Ps) := by
  intro Ps
  induction Ps with
  | nil =>
    intro b _
    refine ⟨?_, trivial⟩
    intro q hq
    rw [show tbGo [] b [] [] = [] from rfl] at hq
    simp at hq
  | cons p rest ih =>
    intro b hps
    have hp := hps p (by simp)
    have hrest : ∀ p2 ∈ rest, cleanParaB p2 = true :=
      fun p2 hp2 => hps p2 (List.mem_cons_of_mem _ hp2)
    unfold tbGo
    dsimp only
    rw [indentVerbatim_nil]
    try simp only [List.isEmpty_nil, if_true]
    cases hcond : b || isListParagraph p
    · obtain ⟨hqok, hfix⟩ := reflow_facts hp
      simp only [Bool.false_eq_true, if_false]
      rw [hfix]
      set W := wrapOnce [] [] p with hW
      clear_value W
      obtain ⟨ihq, ihp⟩ := ih (endsWith (strL "::") W) hrest
      refine ⟨?_, ?_, ihp⟩
      · intro q hq
        rcases List.mem_cons.mp hq with h1 | h1
        · subst h1
          exact hqok
        · exact ihq q h1
      · right
        rw [hfix, hfix]
    · obtain ⟨ihq, ihp⟩ := ih (endsWith (strL "::") p) hrest
      refine ⟨?_, Or.inl hcond, ihp⟩
      intro q hq
      rcases List.mem_cons.mp hq with h1 | h1
      · subst h1
        exact cleanPara_QOK hp
      · exact ihq q h1

/-- Append a trailing newline to the last element. -/
def lastNL : List Str → List Str
  | [] => []
  | [q] => [q ++ strL "\n"]
  | q :: rest => q :: lastNL rest

theorem splitNN_final : ∀ (q : Str),
    noPairB isNl isNl (q ++ strL "\n") = true →
    splitNN (q ++ strL "\n") = [q ++ strL "\n"] := by
  intro q
  induction q with
  | nil => intro _; rfl
  | cons a q2 ih =>
    intro hnp
    have hnp2 : noPairB isNl isNl (a :: (q2 ++ strL "\n")) = true := hnp
    have hcons : ¬ (a = '\n' ∧ ∃ rest2, q2 ++ strL "\n" = '\n' :: rest2) := by
      intro ⟨ha, rest2, hr⟩
      have hnp3 : noPairB isNl isNl (a :: '\n' :: rest2) = true := by
        rw [← hr]
        exact hnp2
      exact noPairB_pair hnp3 ⟨by rw [ha]; decide, by decide⟩
    obtain ⟨r, rs, hsp, heq⟩ := splitNN_cons hcons
    rw [show (a :: q2) ++ strL "\n" = a :: (q2 ++ strL "\n") from rfl, heq]
    have hih := ih (noPairB_tail hnp2)
    rw [hih] at hsp
    rw [List.cons.injEq] at hsp
    obtain ⟨h1, h2⟩ := hsp
    subst h1
    subst h2
    rfl

theorem splitNN_prepend : ∀ (q : Str),
    noPairB isNl isNl (q ++ strL "\n") = true → ∀ (t : Str),
    splitNN (q ++ '\n' :: '\n' :: t) = q :: splitNN t := by
  intro q
  induction q with
  | nil =>
    intro _ t
    rw [List.nil_append]
    rfl
  | cons a q2 ih =>
    intro hnp t
    have hnp2 : noPairB isNl isNl (a :: (q2 ++ strL "\n")) = true := hnp
    have hcons : ¬ (a = '\n' ∧ ∃ rest2,
        q2 ++ '\n' :: '\n' :: t = '\n' :: rest2) := by
      intro ⟨ha, rest2, hr⟩
      rcases hq2 : q2 with _ | ⟨b, q3⟩
      · subst hq2
        have hnp3 : noPairB isNl isNl (a :: '\n' :: ([] : Str)) = true := hnp
        exact noPairB_pair hnp3 ⟨by rw [ha]; decide, by decide⟩
      · subst hq2
        rw [List.cons_append, List.cons.injEq] at hr
        obtain ⟨hb, _⟩ := hr
        have hnp3 : noPairB isNl isNl (a :: b :: (q3 ++ strL "\n")) = true := hnp
        exact noPairB_pair hnp3 ⟨by rw [ha]; decide, by rw [hb]; decide⟩
    obtain ⟨r, rs, hsp, heq⟩ := splitNN_cons hcons
    rw [show (a :: q2) ++ '\n' :: '\n' :: t = a :: (q2 ++ '\n' :: '\n' :: t)
      from rfl, heq]
    have hih := ih (noPairB_tail hnp2) t
    rw [hih] at hsp
    rw [List.cons.injEq] at hsp
    obtain ⟨h1, h2⟩ := hsp
    subst h1
    subst h2
    rfl

theorem splitNN_join_qs : ∀ (Qs : List Str), Qs ≠ [] →
    (∀ q ∈ Qs, noPairB isNl isNl (q ++ strL "\n") = true) →
    splitNN (joinSep (strL "\n\n") Qs ++ strL "\n") = lastNL Qs := by
  intro Qs
  induction Qs with
  | nil => intro h _; exact absurd rfl h
  | cons q rest ih =>
    intro _ hq
    rcases rest with _ | ⟨q1, rest2⟩
    · exact splitNN_final q (hq q (by simp))
    · rw [joinSep_cons_of_ne _ _ _ (by simp)]
      have hshape : (q ++ strL "\n\n" ++ joinSep (strL "\n\n") (q1 :: rest2)) ++
          strL "\n" =
          q ++ '\n' :: '\n' :: (joinSep (strL "\n\n") (q1 :: rest2) ++
            strL "\n") := by
        simp [strL]
      rw [hshape, splitNN_prepend q (hq q (by simp))]
      rw [ih (by simp) (fun r hr => hq r (by simp [hr]))]
      rfl

theorem QOK_nn_nl {q : Str} (h : QOK q) :
    noPairB isNl isNl (q ++ strL "\n") = true := by
  obtain ⟨hne, _, hl, hnn, _⟩ := h
  refine noPairB_glue _ _ hnn (by rfl) ?_
  intro hcon
  unfold isNl at hcon
  rw [beq_iff_eq] at hcon
  rw [hcon] at hl
  exact absurd hl (by decide)

theorem lstrip_nonws_head {q : Str} (hne : q ≠ [])
    (hh : pyIsSpace (q.headD 'x') = false) : lstripChars q = q := by
  unfold lstripChars
  rcases hq : q with _ | ⟨c, r⟩
  · exact absurd hq hne
  · subst hq
    rw [List.headD_cons] at hh
    rw [List.dropWhile_cons, hh]
    simp

theorem rstrip_append_ws {q : Str} {c : Char} (hc : pyIsSpace c = true) :
    rstripChars (q ++ [c]) = rstripChars q := by
  unfold rstripChars
  rw [List.reverse_append, show ([c] : Str).reverse = [c] from rfl,
    show ([c] : Str) ++ q.reverse = c :: q.reverse from rfl,
    List.dropWhile_cons, hc]
  simp

theorem strip_nl_eq {q : Str} (hne : q ≠ [])
    (hh : pyIsSpace (q.headD 'x') = false) :
    stripChars (q ++ strL "\n") = stripChars q := by
  unfold stripChars
  have happne : q ++ strL "\n" ≠ [] := by
    intro hx
    rcases List.append_eq_nil.mp hx with ⟨h1, _⟩
    exact hne h1
  have happh : pyIsSpace ((q ++ strL "\n").headD 'x') = false := by
    rw [headD_append hne]
    exact hh
  rw [lstrip_nonws_head happne happh, lstrip_nonws_head hne hh]
  rw [show q ++ strL "\n" = q ++ ['\n'] from rfl]
  exact rstrip_append_ws (by decide)

theorem wrapOnce_strip_congr {p1 p2 : Str} (h : stripChars p1 = stripChars p2)
    (ii si : Str) : wrapOnce ii si p1 = wrapOnce ii si p2 := by
  unfold wrapOnce pyWrap
  rw [h]

theorem isListParagraph_append (t : Str) {q : Str}
    (h : isListParagraph q = true) : isListParagraph (q ++ t) = true := by
  unfold isListParagraph at h ⊢
  unfold startsWith at h ⊢
  simp only [Bool.or_eq_true] at h ⊢
  have hmono : ∀ (pre : Str), pre.isPrefixOf q = true →
      pre.isPrefixOf (q ++ t) = true := by
    intro pre hp
    rw [List.isPrefixOf_iff_prefix] at hp ⊢
    exact hp.trans (List.prefix_append q t)
  rcases h with (h | h) | h
  · exact Or.inl (Or.inl (hmono _ h))
  · exact Or.inl (Or.inr (hmono _ h))
  · exact Or.inr (hmono _ h)

/-- The second pass reproduces the first pass's paragraphs, except that
the final paragraph may keep or lose the trailing newline the document
gained. -/
theorem tbGo_pass2 : ∀ (Qs : List Str) (b : Bool), Pass2OK b Qs →
    (∀ q ∈ Qs, QOK q) → Qs ≠ [] →
    ∃ z, tbGo [] b [] (lastNL Qs) = Qs.dropLast ++ [z] ∧
      (z = Qs.getLastD [] ∨ z = Qs.getLastD [] ++ strL "\n") := by
  intro Qs
  induction Qs with
  | nil => intro b _ _ h; exact absurd rfl h
  | cons q rest ih =>
    intro b hp2 hqok _
    obtain ⟨hdisj, hp2t⟩ := hp2
    obtain ⟨hqne, hqh, hql, _, _⟩ := hqok q (by simp)
    rcases rest with _ | ⟨q1, rest2⟩
    · rw [show lastNL [q] = [q ++ strL "\n"] from rfl]
      unfold tbGo
      dsimp only
      rw [indentVerbatim_nil]
      try simp only [List.isEmpty_nil, if_true]
      cases hcond : b || isListParagraph (q ++ strL "\n")
      · have hb : b = false := by
          rcases Bool.eq_false_or_eq_true b with h1 | h1
          · exfalso
            rw [h1] at hcond
            simp at hcond
          · exact h1
        have hfixq : wrapOnce [] [] (wrapOnce [] [] q) = q := by
          rcases hdisj with h1 | h1
          · exfalso
            rw [hb] at h1
            simp only [Bool.false_or] at h1
            have h2 := isListParagraph_append (strL "\n") h1
            rw [hb] at hcond
            simp only [Bool.false_or] at hcond
            rw [h2] at hcond
            simp at hcond
          · exact h1
        simp only [Bool.false_eq_true, if_false]
        refine ⟨q, ?_, Or.inl rfl⟩
        have hstr : stripChars (q ++ strL "\n") = stripChars q :=
          strip_nl_eq hqne hqh
        rw [wrapOnce_strip_congr hstr [] [], hfixq]
        rfl
      · refine ⟨q ++ strL "\n", ?_, Or.inr rfl⟩
        rfl
    · rw [show lastNL (q :: q1 :: rest2) = q :: lastNL (q1 :: rest2) from rfl]
      unfold tbGo
      dsimp only
      rw [indentVerbatim_nil]
      try simp only [List.isEmpty_nil, if_true]
      cases hcond : b || isListParagraph q
      · have hfixq : wrapOnce [] [] (wrapOnce [] [] q) = q := by
          rcases hdisj with h1 | h1
          · rw [h1] at hcond
            exact absurd hcond (by simp)
          · exact h1
        simp only [Bool.false_eq_true, if_false]
        rw [hfixq]
        obtain ⟨z, hz, hzd⟩ := ih (endsWith (strL "::") q) hp2t
          (fun r hr => hqok r (by simp [hr])) (by simp)
        refine ⟨z, ?_, ?_⟩
        · rw [hz]
          rfl
        · have hlast : (q :: q1 :: rest2).getLastD ([] : Str) =
              (q1 :: rest2).getLastD [] := by
            rw [List.getLastD_cons]
            exact getLastD_default_irrel (by simp) q []
          rw [hlast]
          exact hzd
      · obtain ⟨z, hz, hzd⟩ := ih (endsWith (strL "::") q) hp2t
          (fun r hr => hqok r (by simp [hr])) (by simp)
        rw [if_pos rfl]
        refine ⟨z, ?_, ?_⟩
        · rw [hz]
          rfl
        · have hlast : (q :: q1 :: rest2).getLastD ([] : Str) =
              (q1 :: rest2).getLastD [] := by
            rw [List.getLastD_cons]
            exact getLastD_default_irrel (by simp) q []
          rw [hlast]
          exact hzd

theorem tbGo_ne_nil (si : Str) (b : Bool) (ii : Str) :
    ∀ (Ps : List Str), Ps ≠ [] → tbGo si b ii Ps ≠ [] := by
  intro Ps hne
  rcases Ps with _ | ⟨p, rest⟩
  · exact absurd rfl hne
  · unfold tbGo
    simp

theorem endsWith_nl_false {t : Str} (hne : t ≠ [])
    (hl : t.getLastD 'x' ≠ '\n') : endsWith (strL "\n") t = false := by
  have hrfl : endsWith (strL "\n") t = List.isPrefixOf ['\n'] t.reverse := rfl
  rw [hrfl]
  rcases hrw : t.reverse with _ | ⟨c, r⟩
  · exact absurd (by simpa using hrw) hne
  · have hc : t.getLastD 'x' = c := getLastD_of_reverse hrw 'x'
    rw [hc] at hl
    show (('\n' == c) && List.isPrefixOf ([] : Str) r) = false
    have hb : ('\n' == c) = false := by
      rw [beq_eq_false_iff_ne]
      exact fun he => hl he.symm
    rw [hb]
    rfl

theorem join_last_append (sep : Str) : ∀ (L : List Str) (q t : Str),
    joinSep sep (L ++ [q ++ t]) = joinSep sep (L ++ [q]) ++ t := by
  intro L
  induction L with
  | nil => intro q t; rfl
  | cons a L ih =>
    intro q t
    rw [List.cons_append, List.cons_append, joinSep_cons_of_ne _ _ _ (by simp),
      joinSep_cons_of_ne _ _ _ (by simp), ih]
    simp [List.append_assoc]

theorem dropLast_append_getLastD {α : Type} : ∀ (l : List α), l ≠ [] →
    ∀ (d : α), l.dropLast ++ [l.getLastD d] = l := by
  intro l
  induction l with
  | nil => intro h; exact absurd rfl h
  | cons a l ih =>
    intro _ d
    rcases hl : l with _ | ⟨b, r⟩
    · rfl
    · subst hl
      have h1 : (a :: b :: r).dropLast = a :: (b :: r).dropLast := rfl
      have h2 : (a :: b :: r).getLastD d = (b :: r).getLastD d := by
        rw [List.getLastD_cons]
        exact getLastD_default_irrel (by simp) a d
      rw [h1, h2, List.cons_append, ih (by simp) d]

/-- The first pass on a clean body: the trailing newline is appended to
the joined paragraph outputs. -/
theorem tb_first_pass {x : Str} (hclean : cleanBody x = true) :
    textwrap_body [] x =
      joinSep (strL "\n\n") (tbGo [] false [] (splitNN x)) ++ strL "\n" := by
  have hstep1 : joinSep (strL "\n")
      ((splitOnChar '\n' x).map rstripChars) = x :=
    step1_id_of (cleanBody_linesRstripped hclean)
  obtain ⟨hqok, hp2⟩ := tbGo_pass1 (splitNN x) false (cleanBody_paras hclean)
  have hQsne : tbGo [] false [] (splitNN x) ≠ [] :=
    tbGo_ne_nil [] false [] _ (splitNN_ne_nil x)
  have hqne : ∀ q ∈ tbGo [] false [] (splitNN x), q ≠ [] :=
    fun q hq => (hqok q hq).1
  have hJne : joinSep (strL "\n\n") (tbGo [] false [] (splitNN x)) ≠ [] :=
    join_nn_ne _ hQsne hqne
  have hJnw : pyIsSpace ((joinSep (strL "\n\n")
      (tbGo [] false [] (splitNN x))).getLastD 'x') = false := by
    rw [join_nn_last _ hQsne hqne]
    exact (hqok _ (getLastD_mem hQsne [])).2.2.1
  have hJr : rstripChars (joinSep (strL "\n\n")
      (tbGo [] false [] (splitNN x))) =
      joinSep (strL "\n\n") (tbGo [] false [] (splitNN x)) :=
    rstripChars_of_ends_nonws ⟨hJne, by
      rw [getLastD_default_irrel hJne ' ' 'x']
      exact hJnw⟩
  have hEW : endsWith (strL "\n")
      (joinSep (strL "\n\n") (tbGo [] false [] (splitNN x))) = false := by
    refine endsWith_nl_false hJne ?_
    intro h
    rw [h] at hJnw
    exact absurd hJnw (by decide)
  unfold textwrap_body
  dsimp only
  rw [hstep1, hJr, hEW]
  rw [if_neg (by simp)]

/-- Feeding the first pass's output back in reproduces it: the second
pass strips nothing, splits back into the same paragraphs (the last one
carrying the trailing newline), and rewraps each to itself. -/
theorem tb_second_pass {Qs : List Str} (hQsne : Qs ≠ [])
    (hqok : ∀ q ∈ Qs, QOK q) (hp2 : Pass2OK false Qs) :
    textwrap_body [] (joinSep (strL "\n\n") Qs ++ strL "\n") =
      joinSep (strL "\n\n") Qs ++ strL "\n" := by
  have hqne : ∀ q ∈ Qs, q ≠ [] := fun q hq => (hqok q hq).1
  have hJne : joinSep (strL "\n\n") Qs ≠ [] := join_nn_ne _ hQsne hqne
  have hJnw : pyIsSpace ((joinSep (strL "\n\n") Qs).getLastD 'x') = false := by
    rw [join_nn_last _ hQsne hqne]
    exact (hqok _ (getLastD_mem hQsne [])).2.2.1
  have hJr : rstripChars (joinSep (strL "\n\n") Qs) =
      joinSep (strL "\n\n") Qs :=
    rstripChars_of_ends_nonws ⟨hJne, by
      rw [getLastD_default_irrel hJne ' ' 'x']
      exact hJnw⟩
  have hEW : endsWith (strL "\n") (joinSep (strL "\n\n") Qs) = false := by
    refine endsWith_nl_false hJne ?_
    intro h
    rw [h] at hJnw
    exact absurd hJnw (by decide)
  have hJwn : noPairB wsNotNl isNl (joinSep (strL "\n\n") Qs) = true := by
    refine doc_noPair (by decide) Qs hQsne ?_
    intro q hq
    refine ⟨(hqok q hq).2.2.2.2, ?_⟩
    unfold wsNotNl
    rw [(hqok q hq).2.2.1]
    rfl
  have hscan : noPairB wsNotNl isNl
      (joinSep (strL "\n\n") Qs ++ strL "\n") = true := by
    refine noPairB_glue _ _ hJwn (by decide) ?_
    intro hcon
    exfalso
    have hw : wsNotNl ((joinSep (strL "\n\n") Qs).getLastD 'x') = false := by
      unfold wsNotNl
      rw [hJnw]
      rfl
    rw [hw] at hcon
    simp at hcon
  have hlast : (joinSep (strL "\n\n") Qs ++ strL "\n").getLastD 'x' = '\n' := by
    rw [getLastD_append_right _ (by decide) 'x']
    rfl
  have hlr : linesRstripped (joinSep (strL "\n\n") Qs ++ strL "\n") :=
    linesRstripped_of_scan _ hscan (Or.inr (Or.inr hlast))
  have hstep1 : joinSep (strL "\n")
      ((splitOnChar '\n' (joinSep (strL "\n\n") Qs ++ strL "\n")).map
        rstripChars) = joinSep (strL "\n\n") Qs ++ strL "\n" :=
    step1_id_of hlr
  have hsplit : splitNN (joinSep (strL "\n\n") Qs ++ strL "\n") = lastNL Qs :=
    splitNN_join_qs Qs hQsne (fun q hq => QOK_nn_nl (hqok q hq))
  obtain ⟨z, hz, hzd⟩ := tbGo_pass2 Qs false hp2 hqok hQsne
  unfold textwrap_body
  dsimp only
  rw [hstep1, hsplit, hz]
  rcases hzd with hzq | hzq
  · have hfull : Qs.dropLast ++ [z] = Qs := by
      rw [hzq]
      exact dropLast_append_getLastD Qs hQsne []
    rw [hfull, hJr, hEW, if_neg (by simp)]
  · have hjoin : joinSep (strL "\n\n") (Qs.dropLast ++ [z]) =
        joinSep (strL "\n\n") Qs ++ strL "\n" := by
      rw [hzq, join_last_append, dropLast_append_getLastD Qs hQsne []]
    rw [hjoin]
    have hr2 : rstripChars (joinSep (strL "\n\n") Qs ++ strL "\n") =
        joinSep (strL "\n\n") Qs := by
      rw [show (strL "\n" : Str) = ['\n'] from rfl,
        rstrip_append_ws (by decide), hJr]
    rw [hr2, hEW, if_neg (by simp)]

/-- A body on which textwrap_body is not idempotent: a long first word
run forces a line break after which the double-space remnants regroup
differently on the second application. -/
def ceC3 : Str :=
  List.replicate 65 'x' ++ strL "  " ++ List.replicate 10 'x' ++ strL " " ++
  List.replicate 30 'x' ++ strL " " ++ List.replicate 39 'x' ++ strL "  " ++
  List.replicate 5 'x' ++ strL " " ++ List.replicate 30 'x'

set_option maxRecDepth 100000 in
/-- C3: the claimed universal idempotence fails: on ceC3 the second
application of textwrap_body moves a word between lines, so the output
of one application is not a fixed point. -/
theorem C3_not_idempotent_everywhere :
    textwrap_body [] (textwrap_body [] ceC3) ≠ textwrap_body [] ceC3 := by
  decide

/-- C3 (amended): textwrap_body with no indent is idempotent on every
clean body: a body whose blank-line-separated paragraphs are nonempty,
start and end with non-whitespace, contain no two adjacent whitespace
characters, and use only plain spaces and newlines as whitespace. -/
theorem C3_idempotent_on_clean_bodies (x : Str) (h : cleanBody x = true) :
    textwrap_body [] (textwrap_body [] x) = textwrap_body [] x := by
  obtain ⟨hqok, hp2⟩ := tbGo_pass1 (splitNN x) false (cleanBody_paras h)
  have hQsne : tbGo [] false [] (splitNN x) ≠ [] :=
    tbGo_ne_nil [] false [] _ (splitNN_ne_nil x)
  rw [tb_first_pass h]
  exact tb_second_pass hQsne hqok hp2

/-- A concrete clean body given to the amended idempotence theorem. -/
theorem C3_idempotent_on_clean_bodies_witness :
    cleanBody (strL "Fix a crash in the parser.\nSee the docs.\n\nAlso a second paragraph.") = true ∧
    textwrap_body [] (textwrap_body []
      (strL "Fix a crash in the parser.\nSee the docs.\n\nAlso a second paragraph.")) =
    textwrap_body []
      (strL "Fix a crash in the parser.\nSee the docs.\n\nAlso a second paragraph.") :=
  ⟨by decide, C3_idempotent_on_clean_bodies _ (by decide)⟩
theorem lowerStr_length {w2 w : Str} (hl : lowerStr w2 = lowerStr w) :
    w2.length = w.length := by
  have := congrArg List.length hl
  simpa [lowerStr] using this

theorem ciIsPrefixOf_decomp : ∀ (w s : Str), ciIsPrefixOf w s = true →
    ∃ w2 r, s = w2 ++ r ∧ lowerStr w2 = lowerStr w ∧
      w2.length = w.length := by
  intro w
  induction w with
  | nil =>
    intro s _
    exact ⟨[], s, rfl, rfl, rfl⟩
  | cons a w2 ih =>
    intro s h
    rcases s with _ | ⟨b, s2⟩
    · exact Bool.noConfusion h
    · rw [show ciIsPrefixOf (a :: w2) (b :: s2) =
          (ciEq a b && ciIsPrefixOf w2 s2) from rfl,
        Bool.and_eq_true] at h
      obtain ⟨hab, h2⟩ := h
      have hab2 : pyToLower a = pyToLower b := by
        unfold ciEq at hab
        exact of_decide_eq_true hab
      obtain ⟨w3, r, hs, hl, hlen⟩ := ih s2 h2
      refine ⟨b :: w3, r, by rw [hs]; rfl, ?_, by simp [hlen]⟩
      show pyToLower b :: lowerStr w3 = pyToLower a :: lowerStr w2
      rw [hl, hab2]

theorem ciIsPrefixOf_intro : ∀ (w w2 r : Str), lowerStr w2 = lowerStr w →
    ciIsPrefixOf w (w2 ++ r) = true := by
  intro w
  induction w with
  | nil =>
    intro w2 r _
    rfl
  | cons a w' ih =>
    intro w2 r hl
    rcases w2 with _ | ⟨b, w2'⟩
    · exact absurd hl (by simp [lowerStr])
    · have hl2 : pyToLower b :: lowerStr w2' = pyToLower a :: lowerStr w' := hl
      rw [List.cons.injEq] at hl2
      obtain ⟨hba, hl3⟩ := hl2
      show (ciEq a b && ciIsPrefixOf w' (w2' ++ r)) = true
      rw [Bool.and_eq_true]
      refine ⟨?_, ih w2' r hl3⟩
      unfold ciEq
      exact decide_eq_true hba.symm

/-- A gap the regex class [\s/]* can span. -/
def gapOK (g : Str) : Prop := ∀ c ∈ g, isPatternSep c = true

/-- The declarative reading of the smart pattern: each word appears,
case-insensitively, in order, with a (possibly empty) run of whitespace
or slash characters between consecutive words; the remainder after the
last word is unconstrained. -/
def SmartChain : List Str → Str → Prop
  | [], _ => True
  | w :: ws, s => ∃ w2 g r, s = w2 ++ (g ++ r) ∧ lowerStr w2 = lowerStr w ∧
      gapOK g ∧ SmartChain ws r

theorem matchGapF_iff : ∀ (fuel : Nat) (ws : List Str) (s : Str),
    s.length + ws.length ≤ fuel →
    (matchGapF fuel ws s = true ↔
      ∃ g r, s = g ++ r ∧ gapOK g ∧ SmartChain ws r) := by
  intro fuel
  induction fuel with
  | zero =>
    intro ws s h
    rcases ws with _ | ⟨w, ws2⟩
    · constructor
      · intro _
        exact ⟨[], s, rfl, fun c hc => absurd hc (by simp), trivial⟩
      · intro _
        rfl
    · exfalso
      simp at h
  | succ f ih =>
    intro ws s h
    rcases ws with _ | ⟨w, ws2⟩
    · constructor
      · intro _
        exact ⟨[], s, rfl, fun c hc => absurd hc (by simp), trivial⟩
      · intro _
        rfl
    · rcases s with _ | ⟨c, r0⟩
      · show (ciIsPrefixOf w [] && matchGapF f ws2 (List.drop w.length []) ||
            false) = true ↔ _
        rw [Bool.or_false, Bool.and_eq_true]
        constructor
        · intro ⟨hip, hg⟩
          obtain ⟨w2, r, hs, hl, hlen⟩ := ciIsPrefixOf_decomp w [] hip
          obtain ⟨h1, h2⟩ := List.append_eq_nil.mp hs.symm
          have hw : w = [] := by
            have := hlen
            rw [h1] at this
            exact List.eq_nil_of_length_eq_zero this.symm
          subst hw
          subst h2
          have hb2 : (([] : Str)).length + ws2.length ≤ f := by
            simp at h ⊢
            omega
          obtain ⟨g, r2, hr, hgap, hch⟩ := (ih ws2 [] hb2).mp hg
          obtain ⟨hg1, hg2⟩ := List.append_eq_nil.mp hr.symm
          subst hg1
          subst hg2
          exact ⟨[], [], rfl, fun c hc => absurd hc (by simp),
            ⟨[], [], [], rfl, rfl, fun c hc => absurd hc (by simp), hch⟩⟩
        · intro ⟨g, r, hs, hgap, hch⟩
          obtain ⟨hg1, hr1⟩ := List.append_eq_nil.mp hs.symm
          subst hg1
          subst hr1
          obtain ⟨w2, g2, r2, hr, hl, hgap2, hch2⟩ := hch
          obtain ⟨h1, h2⟩ := List.append_eq_nil.mp hr.symm
          obtain ⟨h3, h4⟩ := List.append_eq_nil.mp h2
          subst h1
          have hw : w = [] := by
            have := lowerStr_length hl
            simp at this
            exact List.eq_nil_of_length_eq_zero this.symm
          subst hw
          refine ⟨rfl, ?_⟩
          have hb2 : (([] : Str)).length + ws2.length ≤ f := by
            simp at h ⊢
            omega
          refine (ih ws2 [] hb2).mpr ?_
          subst h3
          subst h4
          exact ⟨[], [], rfl, fun c hc => absurd hc (by simp), hch2⟩
      · show ((ciIsPrefixOf w (c :: r0) &&
            matchGapF f ws2 ((c :: r0).drop w.length)) ||
            (isPatternSep c && matchGapF f (w :: ws2) r0)) = true ↔ _
        rw [Bool.or_eq_true, Bool.and_eq_true, Bool.and_eq_true]
        constructor
        · intro hor
          rcases hor with ⟨hip, hg⟩ | ⟨hsep, hg⟩
          · obtain ⟨w2, r1, hs, hl, hlen⟩ := ciIsPrefixOf_decomp w (c :: r0) hip
            have hdrop : (c :: r0).drop w.length = r1 := by
              rw [hs, ← hlen, List.drop_left]
            rw [hdrop] at hg
            have hlen2 : (c :: r0).length = w2.length + r1.length := by
              rw [hs]
              simp
            have hb2 : r1.length + ws2.length ≤ f := by
              simp at h hlen2
              omega
            obtain ⟨g, r2, hr1, hgap, hch⟩ := (ih ws2 r1 hb2).mp hg
            refine ⟨[], c :: r0, rfl, fun d hd => absurd hd (by simp), ?_⟩
            exact ⟨w2, g, r2, by rw [hs, hr1], hl, hgap, hch⟩
          · have hb2 : r0.length + (w :: ws2).length ≤ f := by
              simp at h ⊢
              omega
            obtain ⟨g, r2, hr0, hgap, hch⟩ := (ih (w :: ws2) r0 hb2).mp hg
            exact ⟨c :: g, r2, by rw [hr0]; rfl, fun d hd => by
              rcases List.mem_cons.mp hd with h1 | h1
              · rw [h1]; exact hsep
              · exact hgap d h1, hch⟩
        · intro ⟨g, r, hs, hgap, hch⟩
          rcases g with _ | ⟨g0, g2⟩
          · left
            rw [List.nil_append] at hs
            obtain ⟨w2, g3, r2, hr, hl, hgap2, hch2⟩ := hch
            have hlen := lowerStr_length hl
            rw [← hs] at hr
            constructor
            · rw [hr]
              exact ciIsPrefixOf_intro w w2 (g3 ++ r2) hl
            · have hdrop : (c :: r0).drop w.length = g3 ++ r2 := by
                rw [hr, ← hlen, List.drop_left]
              rw [hdrop]
              have hlen2 : (c :: r0).length =
                  w2.length + (g3.length + r2.length) := by
                rw [hr]
                simp
              have hb2 : (g3 ++ r2).length + ws2.length ≤ f := by
                rw [List.length_append]
                simp at h hlen2
                omega
              exact (ih ws2 (g3 ++ r2) hb2).mpr ⟨g3, r2, rfl, hgap2, hch2⟩
          · right
            rw [List.cons_append, List.cons.injEq] at hs
            obtain ⟨hc0, hr0⟩ := hs
            constructor
            · rw [hc0]
              exact hgap g0 (by simp)
            · have hb2 : r0.length + (w :: ws2).length ≤ f := by
                simp at h ⊢
                omega
              refine (ih (w :: ws2) r0 hb2).mpr ?_
              exact ⟨g2, r, hr0, fun d hd => hgap d (by simp [hd]), hch⟩

theorem matchWordsAt_iff (ws : List Str) (s : Str) :
    matchWordsAt ws s = true ↔ SmartChain ws s := by
  rcases ws with _ | ⟨w, ws2⟩
  · constructor
    · intro _
      trivial
    · intro _
      rfl
  · show (ciIsPrefixOf w s &&
        matchGapF (s.length + ws2.length) ws2 (s.drop w.length)) = true ↔ _
    rw [Bool.and_eq_true]
    constructor
    · intro ⟨hip, hg⟩
      obtain ⟨w2, r0, hs, hl, hlen⟩ := ciIsPrefixOf_decomp w s hip
      have hdrop : s.drop w.length = r0 := by
        rw [hs, ← hlen, List.drop_left]
      rw [hdrop] at hg
      have hlen2 : s.length = w2.length + r0.length := by
        rw [hs]
        simp
      have hb : r0.length + ws2.length ≤ s.length + ws2.length := by omega
      obtain ⟨g, r, hr0, hgap, hch⟩ := (matchGapF_iff _ ws2 r0 hb).mp hg
      exact ⟨w2, g, r, by rw [hs, hr0], hl, hgap, hch⟩
    · intro h
      obtain ⟨w2, g, r, hs, hl, hgap, hch⟩ := h
      have hlen := lowerStr_length hl
      constructor
      · rw [hs]
        exact ciIsPrefixOf_intro w w2 (g ++ r) hl
      · have hdrop : s.drop w.length = g ++ r := by
          rw [hs, ← hlen, List.drop_left]
        rw [hdrop]
        have hlen2 : s.length = w2.length + (g.length + r.length) := by
          rw [hs]
          simp
        have hb : (g ++ r).length + ws2.length ≤ s.length + ws2.length := by
          rw [List.length_append]
          omega
        exact (matchGapF_iff _ ws2 (g ++ r) hb).mpr ⟨g, r, rfl, hgap, hch⟩

theorem searchWords_iff (ws : List Str) : ∀ (name : Str),
    searchWords ws name = true ↔
      ∃ pre s, name = pre ++ s ∧ SmartChain ws s := by
  intro name
  induction name with
  | nil =>
    show matchWordsAt ws [] = true ↔ _
    rw [matchWordsAt_iff]
    constructor
    · intro h
      exact ⟨[], [], rfl, h⟩
    · intro ⟨pre, s, hs, hch⟩
      obtain ⟨h1, h2⟩ := List.append_eq_nil.mp hs.symm
      rw [h2] at hch
      exact hch
  | cons c r ih =>
    show (matchWordsAt ws (c :: r) || searchWords ws r) = true ↔ _
    rw [Bool.or_eq_true, matchWordsAt_iff, ih]
    constructor
    · intro h
      rcases h with h | ⟨pre, s, hs, hch⟩
      · exact ⟨[], c :: r, rfl, h⟩
      · exact ⟨c :: pre, s, by rw [hs]; rfl, hch⟩
    · intro ⟨pre, s, hs, hch⟩
      rcases pre with _ | ⟨p0, pre2⟩
      · left
        rw [List.nil_append] at hs
        rw [hs]
        exact hch
      · right
        rw [List.cons_append, List.cons.injEq] at hs
        exact ⟨pre2, s, hs.2, hch⟩

/-- Modelled from the spec: one of the four separator characters. -/
def isSep4 (c : Char) : Bool := c == '_' || c == '-' || c == ' ' || c == '/'

/-- Modelled from the spec: the input's words in order, with one of the
four separator characters or nothing between consecutive words, and the
match anchored to the end of the candidate name. -/
def specChainEnd : List Str → Str → Bool
  | [], s => s.isEmpty
  | [w], s => ciIsPrefixOf w s && (s.drop w.length).isEmpty
  | w :: ws, s =>
      ciIsPrefixOf w s &&
      (specChainEnd ws (s.drop w.length) ||
       (match s.drop w.length with
        | c :: r => isSep4 c && specChainEnd ws r
        | [] => false))

/-- Modelled from the spec: the anchored pattern may start anywhere. -/
def specSearchEnd (ws : List Str) : Str → Bool
  | [] => specChainEnd ws []
  | c :: r => specChainEnd ws (c :: r) || specSearchEnd ws r

/-- Modelled from the spec: the candidates the smart pass accepts. -/
def spec_smart_matches (sect : Str) : List Str :=
  let sanitized := stripChars (collapseSeps sect)
  if sanitized.isEmpty then []
  else sections.filter fun name => specSearchEnd (splitWords sanitized) name

/-- C7 (amended): the smart pass is not anchored to the end of the
candidate name, and between words it allows only whitespace or slash
runs, not underscore or hyphen: a candidate passes the pattern test
exactly when the input's words appear somewhere in it, in order,
case-insensitively, with arbitrary runs of whitespace or slash
characters between consecutive words; if no candidate passes, the pass
instead accepts exactly the candidates whose alphanumeric-only
lowercase form has the input's joined words as a prefix. -/
theorem C7_smart_pass_accept_iff (sect name : Str)
    (hne : (stripChars (collapseSeps sect)).isEmpty = false) :
    name ∈ find_smart_matches sect ↔
      name ∈ sections ∧
      ((∃ pre s, name = pre ++ s ∧ SmartChain (smartWords sect) s) ∨
       ((∀ n ∈ sections, ¬ ∃ pre s, n = pre ++ s ∧
           SmartChain (smartWords sect) s) ∧
        startsWith (lowerStr (smartWords sect).flatten)
          (normalizeName name) = true)) := by
  unfold find_smart_matches smartWords
  dsimp only
  rw [hne]
  rw [if_neg (by simp)]
  cases hms : (sections.filter
      (fun n => searchWords (splitWords (stripChars (collapseSeps sect)))
        n)).isEmpty
  · rw [if_neg (by simp)]
    have hnonempty : ∃ n0, n0 ∈ sections ∧
        searchWords (splitWords (stripChars (collapseSeps sect))) n0 =
        true := by
      have hfne : sections.filter
          (fun n => searchWords (splitWords (stripChars (collapseSeps sect)))
            n) ≠ [] := by
        intro h0
        rw [h0] at hms
        simp at hms
      obtain ⟨n0, hn0⟩ := List.exists_mem_of_ne_nil _ hfne
      rw [List.mem_filter] at hn0
      exact ⟨n0, hn0.1, hn0.2⟩
    constructor
    · intro hmem
      rw [List.mem_filter] at hmem
      exact ⟨hmem.1, Or.inl ((searchWords_iff _ name).mp hmem.2)⟩
    · intro ⟨hmem, hd⟩
      rcases hd with hd | ⟨hall, _⟩
      · rw [List.mem_filter]
        exact ⟨hmem, (searchWords_iff _ name).mpr hd⟩
      · exfalso
        obtain ⟨n0, hn0m, hn0s⟩ := hnonempty
        exact hall n0 hn0m ((searchWords_iff _ n0).mp hn0s)
  · rw [if_pos rfl]
    have hempty : sections.filter
        (fun n => searchWords (splitWords (stripChars (collapseSeps sect)))
          n) = [] := List.isEmpty_iff.mp hms
    have hall : ∀ n ∈ sections, ¬ ∃ pre s, n = pre ++ s ∧
        SmartChain (splitWords (stripChars (collapseSeps sect))) s := by
      intro n hn hex
      have hs := (searchWords_iff _ n).mpr hex
      have : n ∈ sections.filter
          (fun n2 => searchWords (splitWords (stripChars (collapseSeps sect)))
            n2) :=
        List.mem_filter.mpr ⟨hn, hs⟩
      rw [hempty] at this
      simp at this
    constructor
    · intro hmem
      rw [List.mem_filter] at hmem
      exact ⟨hmem.1, Or.inr ⟨hall, hmem.2⟩⟩
    · intro ⟨hmem, hd⟩
      rcases hd with hd | ⟨_, hpref⟩
      · exact absurd hd (hall name hmem)
      · exact List.mem_filter.mpr ⟨hmem, hpref⟩

/-- Counterexample to C7 as stated: the input core_and passes every
guard before the smart pass, the smart pass accepts Core and Builtins
(its two words match at the start of the candidate, not at its end),
while the end-anchored matcher built from the claim accepts no candidate
at all. -/
theorem C7_end_anchoring_refuted :
    reachesSmartPass (strL "core_and") = true ∧
    find_smart_matches (strL "core_and") = [strL "Core and Builtins"] ∧
    spec_smart_matches (strL "core_and") = [] := by
  refine ⟨?_, ?_, ?_⟩ <;> decide

/-- The amended acceptance condition instantiated at the input lib rary
and the candidate Library. -/
theorem C7_smart_pass_accept_iff_witness :
    (stripChars (collapseSeps (strL "lib rary"))).isEmpty = false ∧
    ((strL "Library") ∈ find_smart_matches (strL "lib rary") ↔
      (strL "Library") ∈ sections ∧
      ((∃ pre s, strL "Library" = pre ++ s ∧
          SmartChain (smartWords (strL "lib rary")) s) ∨
       ((∀ n ∈ sections, ¬ ∃ pre s, n = pre ++ s ∧
           SmartChain (smartWords (strL "lib rary")) s) ∧
        startsWith (lowerStr (smartWords (strL "lib rary")).flatten)
          (normalizeName (strL "Library")) = true))) :=
  ⟨by decide, C7_smart_pass_accept_iff (strL "lib rary") (strL "Library")
    (by decide)⟩
